import Mathlib

/-!
# Verification development for the preimage-attacks repository

Shallow embedding of the symbolic MD5 front end (`sym_md5.hpp`), the CNF
builder and simplifier (`cnf.cpp`) and the belief-propagation driver
(`bp_solver.cpp`), followed by theorems about them.

Conventions of the embedding:

* `std::set<int>` is a strictly ascending `List Int` (iteration order of the
  container), `std::vector` is a `List`, `std::unordered_map` is an
  association list read with first-match lookup.
* A failed `assert`, an out-of-range `at` and an out-of-bounds array access
  are the error results of `Except`.
* Machine integers are `Nat` with explicit reduction modulo `2^32` / `2^64`.
-/

namespace Preimage

/-! ## Symbolic bits and the gate ledger -/

/-- Modelled from the spec: the kinds of `LogicGate` (section 3). -/
inductive GateType where
  | and_gate | or_gate | xor_gate | not_gate | maj3_gate
deriving DecidableEq, Repr

/-- Modelled from the spec: the record `LogicGate` of the absent
`core/logic_gate.hpp` (section 3): kind, output variable index, signed input
literals. -/
structure LogicGate where
  t : GateType
  output : Int
  inputs : List Int
deriving DecidableEq, Repr

/-- A symbolic bit (`bit.hpp`): concrete value, variable flag, index.
Constant bits carry the reserved index `0`. -/
structure Bit where
  val : Bool
  is_rv : Bool
  index : Nat
deriving DecidableEq, Repr

/-- Process-wide ledger: `Bit::global_index`, `Bit::global_bits` and the list
of gates emitted so far. -/
structure Ledger where
  global_index : Nat
  global_bits : List Bit
  gates : List LogicGate
deriving DecidableEq, Repr

/-- Ledger right after `Bit::reset()`: indices are strictly positive. -/
def Ledger.fresh : Ledger := { global_index := 1, global_bits := [], gates := [] }

/-- Reasons for which an execution stops without a result. -/
inductive Err where
  | assertion      -- a failed `assert`
  | out_of_range   -- `std::vector::at` outside the vector, or an array access out of bounds
  | length_mismatch -- binary operator on vectors of different length
  | fuel           -- the bound of a bounded loop of the embedding was reached
deriving DecidableEq, Repr

/-- Computations that read and extend the ledger and may fail. -/
abbrev Sym (α : Type) : Type := Ledger → Except Err (α × Ledger)

namespace Sym

/-- Return a value, ledger untouched. -/
def ret {α : Type} (a : α) : Sym α := fun L => Except.ok (a, L)

/-- Sequencing. -/
def bind {α β : Type} (m : Sym α) (f : α → Sym β) : Sym β := fun L =>
  match m L with
  | Except.ok (a, L1) => f a L1
  | Except.error e => Except.error e

/-- Failure. -/
def fail {α : Type} (e : Err) : Sym α := fun _ => Except.error e

end Sym

instance : Monad Sym where
  pure := Sym.ret
  bind := Sym.bind

/-- Modelled from the spec: a constant bit, with the reserved index `0`
(section 3). -/
def Bit.const (v : Bool) : Bit := { val := v, is_rv := false, index := 0 }

/-- Modelled from the spec: the constructor `Bit(bit_val, rv)` of the absent
`bit.cpp` (section 4.1): a variable bit takes a fresh index from the ledger
and is appended to it, a constant bit leaves the ledger alone. -/
def Bit.create (bit_val rv : Bool) : Sym Bit := fun L =>
  if rv then
    let b : Bit := { val := bit_val, is_rv := true, index := L.global_index }
    Except.ok (b, { L with global_index := L.global_index + 1,
                           global_bits := L.global_bits ++ [b] })
  else Except.ok (Bit.const bit_val, L)

/-- Modelled from the spec: emission of a gate with a fresh output variable
(absent `bit.cpp`, section 4.1). -/
def Bit.emit (t : GateType) (v : Bool) (inputs : List Int) : Sym Bit := fun L =>
  match Bit.create v true L with
  | Except.ok (b, L1) =>
    Except.ok (b, { L1 with gates := L1.gates ++ [{ t := t, output := b.index, inputs := inputs }] })
  | Except.error e => Except.error e

/-- Modelled from the spec: `Bit::operator~` (absent `bit.cpp`, section 4.1):
`NOT(c)` of a constant is the constant `¬c`, no gate. -/
def Bit.not (a : Bit) : Sym Bit :=
  if a.is_rv then Bit.emit GateType.not_gate (!a.val) [a.index]
  else Sym.ret (Bit.const (!a.val))

/-- Modelled from the spec: `Bit::operator&` (absent `bit.cpp`, section 4.1):
constant `0` absorbs, constant `1` returns the other operand, otherwise an
AND gate is emitted. -/
def Bit.and (a b : Bit) : Sym Bit :=
  if !a.is_rv && !a.val then Sym.ret (Bit.const false)
  else if !b.is_rv && !b.val then Sym.ret (Bit.const false)
  else if !a.is_rv then Sym.ret b
  else if !b.is_rv then Sym.ret a
  else Bit.emit GateType.and_gate (a.val && b.val) [a.index, b.index]

/-- Modelled from the spec: `Bit::operator|` (absent `bit.cpp`, section 4.1):
constant `1` absorbs, constant `0` returns the other operand, otherwise an
OR gate is emitted. -/
def Bit.or (a b : Bit) : Sym Bit :=
  if !a.is_rv && a.val then Sym.ret (Bit.const true)
  else if !b.is_rv && b.val then Sym.ret (Bit.const true)
  else if !a.is_rv then Sym.ret b
  else if !b.is_rv then Sym.ret a
  else Bit.emit GateType.or_gate (a.val || b.val) [a.index, b.index]

/-- Modelled from the spec: `Bit::operator^` (absent `bit.cpp`, section 4.1):
with a constant operand the result is the other operand or its negation,
otherwise an XOR gate is emitted. -/
def Bit.xor (a b : Bit) : Sym Bit :=
  if !a.is_rv then (if a.val then Bit.not b else Sym.ret b)
  else if !b.is_rv then (if b.val then Bit.not a else Sym.ret a)
  else Bit.emit GateType.xor_gate (Bool.xor a.val b.val) [a.index, b.index]

/-- Modelled from the spec: `Bit::add(a, b, carry_in)` (declared in `bit.hpp`,
body absent; section 4.1): `sum = a ⊕ b ⊕ c_in`,
`carry_out = (a ∧ b) ∨ (c_in ∧ (a ⊕ b))`. Returns `(sum, carry_out)`. -/
def Bit.add3 (a b carry_in : Bit) : Sym (Bit × Bit) := do
  let axb ← Bit.xor a b
  let sum ← Bit.xor axb carry_in
  let ab ← Bit.and a b
  let c_axb ← Bit.and carry_in axb
  let carry_out ← Bit.or ab c_axb
  pure (sum, carry_out)

/-- Modelled from the spec: `Bit::add(a, b)` is `add` with `c_in = 0`. -/
def Bit.add (a b : Bit) : Sym (Bit × Bit) := Bit.add3 a b (Bit.const false)

/-! ## SymBitVec -/

/-- Vector of bits, LSB at index 0 (`sym_bit_vec.hpp`). -/
structure SymBitVec where
  bits_ : List Bit
deriving DecidableEq, Repr

namespace SymBitVec

/-- Modelled from the spec: the default constructor `SymBitVec()` (body absent):
no bits. -/
def empty : SymBitVec := { bits_ := [] }

/-- Modelled from the spec: the constructor `SymBitVec(uint64_t n, size_t sz)`
with `unknown = false` (body in the absent `sym_bit_vec.cpp`): `sz` constant
bits, bit `i` is bit `i` of the 64-bit number `n`. -/
def ofUInt64 (n sz : Nat) : SymBitVec :=
  { bits_ := (List.range sz).map (fun i => Bit.const ((n % 2 ^ 64).testBit i)) }

/-- Modelled from the spec: `size()` (body absent): the number of bits. -/
def size (a : SymBitVec) : Nat := a.bits_.length

/-- Little-endian value of a list of bits. -/
def bitsVal : List Bit → Nat
  | [] => 0
  | b :: bs => (if b.val then 1 else 0) + 2 * bitsVal bs

/-- Modelled from the spec: `intVal()` (body absent). The header declares the
result as `uint64_t`, so the value is reduced modulo `2^64`. -/
def intVal (a : SymBitVec) : Nat := bitsVal a.bits_ % 2 ^ 64

/-- Every bit is a constant. -/
def isConst (a : SymBitVec) : Bool := a.bits_.all (fun b => !b.is_rv)

/-- Modelled from the spec: `concat(other)` (body absent; section 4.2): length
`self.len + other.len`, `self` in the lower-index range. -/
def concat (a other : SymBitVec) : SymBitVec := { bits_ := a.bits_ ++ other.bits_ }

/-- Modelled from the spec: `extract(lb, ub)` (body absent; section 4.2): the
half-open slice `[lb, ub)`. -/
def extract (a : SymBitVec) (lb ub : Nat) : SymBitVec :=
  { bits_ := (a.bits_.drop lb).take (ub - lb) }

/-- Modelled from the spec: `resize(n)` (body absent; section 4.2):
zero-extends or truncates to `n` bits. -/
def resize (a : SymBitVec) (n : Nat) : SymBitVec :=
  { bits_ := a.bits_.take n ++ List.replicate (n - a.bits_.length) (Bit.const false) }

/-- Modelled from the spec: `operator<<` (body absent; section 4.2): bits move
to higher indices, the ones falling off are discarded and constant `0` enters
at the vacated low end; the length is kept. -/
def shl (a : SymBitVec) (n : Nat) : SymBitVec :=
  { bits_ := (List.replicate n (Bit.const false) ++ a.bits_).take a.bits_.length }

/-- Modelled from the spec: `operator>>` (body absent; section 4.2): bits move
to lower indices, constant `0` enters at the vacated high end; the length is
kept. -/
def shr (a : SymBitVec) (n : Nat) : SymBitVec :=
  { bits_ := a.bits_.drop n ++ List.replicate (min n a.bits_.length) (Bit.const false) }

/-- Modelled from the spec: bit by bit application of a unary bit operation
(section 4.2). -/
def mapBits (f : Bit → Sym Bit) : List Bit → Sym (List Bit)
  | [] => Sym.ret []
  | b :: bs => do
    let r ← f b
    let rs ← mapBits f bs
    pure (r :: rs)

/-- Modelled from the spec: bit by bit application of a binary bit operation;
the lengths must match (sections 3 and 4.2). -/
def zipBits (f : Bit → Bit → Sym Bit) : List Bit → List Bit → Sym (List Bit)
  | [], [] => Sym.ret []
  | a :: as, b :: bs => do
    let r ← f a b
    let rs ← zipBits f as bs
    pure (r :: rs)
  | _, _ => Sym.fail Err.length_mismatch

/-- Modelled from the spec: `operator~` (body absent; section 4.2). -/
def not (a : SymBitVec) : Sym SymBitVec := do
  let r ← mapBits Bit.not a.bits_
  pure { bits_ := r }

/-- Modelled from the spec: `operator&` (body absent; section 4.2). -/
def and (a b : SymBitVec) : Sym SymBitVec := do
  let r ← zipBits Bit.and a.bits_ b.bits_
  pure { bits_ := r }

/-- Modelled from the spec: `operator|` (body absent; section 4.2). -/
def or (a b : SymBitVec) : Sym SymBitVec := do
  let r ← zipBits Bit.or a.bits_ b.bits_
  pure { bits_ := r }

/-- Modelled from the spec: `operator^` (body absent; section 4.2). -/
def xor (a b : SymBitVec) : Sym SymBitVec := do
  let r ← zipBits Bit.xor a.bits_ b.bits_
  pure { bits_ := r }

/-- Modelled from the spec: the ripple of `Bit::add` through two bit lists of
the same length, lowest index first (sections 4.1 and 4.2). -/
def rippleAdd : List Bit → List Bit → Bit → Sym (List Bit)
  | [], [], _ => Sym.ret []
  | a :: as, b :: bs, carry => do
    let (s, c) ← Bit.add3 a b carry
    let rs ← rippleAdd as bs c
    pure (s :: rs)
  | _, _, _ => Sym.fail Err.length_mismatch

/-- Modelled from the spec: `operator+` (body absent; sections 4.1 and 4.2):
length-preserving ripple-carry addition, carry-in `0`, final carry dropped. -/
def add (a b : SymBitVec) : Sym SymBitVec := do
  let r ← rippleAdd a.bits_ b.bits_ (Bit.const false)
  pure { bits_ := r }

end SymBitVec

/-! ## MD5 (`sym_md5.hpp`) -/

/-- Array read `xs[i]`; outside the array it is an error. -/
def readAt {α : Type} (xs : List α) (i : Nat) : Sym α := fun L =>
  match xs.get? i with
  | some v => Except.ok (v, L)
  | none => Except.error Err.out_of_range

/-- Array write `xs[i] = v`; outside the array it is an error. -/
def writeAt {α : Type} (xs : List α) (i : Nat) (v : α) : Sym (List α) := fun L =>
  if i < xs.length then Except.ok (xs.set i v, L) else Except.error Err.out_of_range

/-- The `assert` of `<assert.h>`. -/
def assert (c : Bool) : Sym Unit := fun L =>
  if c then Except.ok ((), L) else Except.error Err.assertion

def MD5_BLOCK_SIZE : Nat := 64
def S11 : Nat := 7
def S12 : Nat := 12
def S13 : Nat := 17
def S14 : Nat := 22
def S21 : Nat := 5
def S22 : Nat := 9
def S23 : Nat := 14
def S24 : Nat := 20
def S31 : Nat := 4
def S32 : Nat := 11
def S33 : Nat := 16
def S34 : Nat := 23
def S41 : Nat := 6
def S42 : Nat := 10
def S43 : Nat := 15
def S44 : Nat := 21

/-- The object state of `class MD5`. `count0`, `count1` are `count[0]`,
`count[1]` (`uint32_t`). -/
structure MD5 where
  finalized : Bool
  buffer : List SymBitVec
  count0 : Nat
  count1 : Nat
  state : List SymBitVec
  digest : List SymBitVec
  constants_ : List SymBitVec
deriving DecidableEq, Repr

namespace MD5

/-- The table `raw_constants` of the constructor. -/
def raw_constants : List Nat := [
  0xd76aa478, 0xe8c7b756, 0x242070db, 0xc1bdceee, 0xf57c0faf, 0x4787c62a,
  0xa8304613, 0xfd469501, 0x698098d8, 0x8b44f7af, 0xffff5bb1, 0x895cd7be,
  0x6b901122, 0xfd987193, 0xa679438e, 0x49b40821, 0xf61e2562, 0xc040b340,
  0x265e5a51, 0xe9b6c7aa, 0xd62f105d, 0x2441453, 0xd8a1e681, 0xe7d3fbc8,
  0x21e1cde6, 0xc33707d6, 0xf4d50d87, 0x455a14ed, 0xa9e3e905, 0xfcefa3f8,
  0x676f02d9, 0x8d2a4c8a, 0xfffa3942, 0x8771f681, 0x6d9d6122, 0xfde5380c,
  0xa4beea44, 0x4bdecfa9, 0xf6bb4b60, 0xbebfbc70, 0x289b7ec6, 0xeaa127fa,
  0xd4ef3085, 0x4881d05, 0xd9d4d039, 0xe6db99e5, 0x1fa27cf8, 0xc4ac5665,
  0xf4292244, 0x432aff97, 0xab9423a7, 0xfc93a039, 0x655b59c3, 0x8f0ccc92,
  0xffeff47d, 0x85845dd1, 0x6fa87e4f, 0xfe2ce6e0, 0xa3014314, 0x4e0811a1,
  0xf7537e82, 0xbd3af235, 0x2ad7d2bb, 0xeb86d391]

/-- The constructor `MD5()`. The arrays `buffer` and `digest` hold
default-constructed vectors. -/
def new : MD5 :=
  { finalized := false
    buffer := List.replicate MD5_BLOCK_SIZE SymBitVec.empty
    count0 := 0
    count1 := 0
    state := [SymBitVec.ofUInt64 0x67452301 32, SymBitVec.ofUInt64 0xefcdab89 32,
              SymBitVec.ofUInt64 0x98badcfe 32, SymBitVec.ofUInt64 0x10325476 32]
    digest := List.replicate 16 SymBitVec.empty
    constants_ := raw_constants.map (fun c => SymBitVec.ofUInt64 c 32) }

/-- Body of the loop of `decode`, run `n` times from word index `i`
(`j = 4 * i`). The source counts with `unsigned int i, j` against a `size_t len`;
the embedding counts in `Nat`, which is the same as long as `len < 2^32`: from
`len = 2^32` on, `j` wraps around before it reaches `len` and the loop of the
source does not end. -/
def decodeLoop (input : List SymBitVec) : Nat → Nat → List SymBitVec → Sym (List SymBitVec)
  | 0, _, output => pure output
  | n + 1, i, output => do
    let j := 4 * i
    let b0 ← readAt input j
    let b1 ← readAt input (j + 1)
    let b2 ← readAt input (j + 2)
    let b3 ← readAt input (j + 3)
    let w01 ← SymBitVec.or (b0.resize 32) ((b1.resize 32).shl 8)
    let w012 ← SymBitVec.or w01 ((b2.resize 32).shl 16)
    let w ← SymBitVec.or w012 ((b3.resize 32).shl 24)
    let output ← writeAt output i w
    decodeLoop input n (i + 1) output

/-- `MD5::decode`: input of 8 bits per vector into output of 32 bits per vector. -/
def decode (output input : List SymBitVec) (len : Nat) : Sym (List SymBitVec) := do
  assert (len % 4 == 0)
  decodeLoop input (len / 4) 0 output

/-- Body of the loop of `encode`, run `n` times from word index `i`
(`j = 4 * i`). -/
def encodeLoop (input : List SymBitVec) : Nat → Nat → List SymBitVec → Sym (List SymBitVec)
  | 0, _, output => pure output
  | n + 1, i, output => do
    let j := 4 * i
    let w ← readAt input i
    let output ← writeAt output j (w.extract 0 8)
    let output ← writeAt output (j + 1) ((w.shr 8).extract 0 8)
    let output ← writeAt output (j + 2) ((w.shr 16).extract 0 8)
    let output ← writeAt output (j + 3) ((w.shr 24).extract 0 8)
    encodeLoop input n (i + 1) output

/-- `MD5::encode`: input of 32 bits per vector into output of 8 bits per vector. -/
def encode (output input : List SymBitVec) (len : Nat) : Sym (List SymBitVec) := do
  assert (len % 4 == 0)
  encodeLoop input (len / 4) 0 output

/-- `F(x, y, z) = (x & y) | (~x & z)`. -/
def F (x y z : SymBitVec) : Sym SymBitVec := do
  let xy ← SymBitVec.and x y
  let nx ← SymBitVec.not x
  let nxz ← SymBitVec.and nx z
  SymBitVec.or xy nxz

/-- `G(x, y, z) = (x & z) | (y & ~z)`. -/
def G (x y z : SymBitVec) : Sym SymBitVec := do
  let xz ← SymBitVec.and x z
  let nz ← SymBitVec.not z
  let ynz ← SymBitVec.and y nz
  SymBitVec.or xz ynz

/-- `H(x, y, z) = x ^ y ^ z`. -/
def H (x y z : SymBitVec) : Sym SymBitVec := do
  let xy ← SymBitVec.xor x y
  SymBitVec.xor xy z

/-- `I(x, y, z) = y ^ (x | ~z)`. -/
def I (x y z : SymBitVec) : Sym SymBitVec := do
  let nz ← SymBitVec.not z
  let xnz ← SymBitVec.or x nz
  SymBitVec.xor y xnz

/-- `rotateLeft(x, n) = (x << n) | (x >> (32 - n))`. -/
def rotateLeft (x : SymBitVec) (n : Nat) : Sym SymBitVec :=
  SymBitVec.or (x.shl n) (x.shr (32 - n))

/-- `FF`: `a = rotateLeft(a + F(b, c, d) + x + ac, s) + b`; returns the new `a`. -/
def FF (a b c d x : SymBitVec) (s : Nat) (ac : SymBitVec) : Sym SymBitVec := do
  let f ← F b c d
  let t ← SymBitVec.add a f
  let t ← SymBitVec.add t x
  let t ← SymBitVec.add t ac
  let r ← rotateLeft t s
  SymBitVec.add r b

/-- `GG`: `a = rotateLeft(a + G(b, c, d) + x + ac, s) + b`; returns the new `a`. -/
def GG (a b c d x : SymBitVec) (s : Nat) (ac : SymBitVec) : Sym SymBitVec := do
  let f ← G b c d
  let t ← SymBitVec.add a f
  let t ← SymBitVec.add t x
  let t ← SymBitVec.add t ac
  let r ← rotateLeft t s
  SymBitVec.add r b

/-- `HH`: `a = rotateLeft(a + H(b, c, d) + x + ac, s) + b`; returns the new `a`. -/
def HH (a b c d x : SymBitVec) (s : Nat) (ac : SymBitVec) : Sym SymBitVec := do
  let f ← H b c d
  let t ← SymBitVec.add a f
  let t ← SymBitVec.add t x
  let t ← SymBitVec.add t ac
  let r ← rotateLeft t s
  SymBitVec.add r b

/-- `II`: `a = rotateLeft(a + I(b, c, d) + x + ac, s) + b`; returns the new `a`. -/
def II (a b c d x : SymBitVec) (s : Nat) (ac : SymBitVec) : Sym SymBitVec := do
  let f ← I b c d
  let t ← SymBitVec.add a f
  let t ← SymBitVec.add t x
  let t ← SymBitVec.add t ac
  let r ← rotateLeft t s
  SymBitVec.add r b

/-- Round 1 of `MD5::transform` (steps 1 to 16); `i` is the running index into
`constants_`. -/
def transformRound1 (m : MD5) (x : List SymBitVec) (a0 b0 c0 d0 : SymBitVec) (i0 : Nat) :
    Sym (SymBitVec × SymBitVec × SymBitVec × SymBitVec × Nat) := do
  let mut a := a0
  let mut b := b0
  let mut c := c0
  let mut d := d0
  let mut i := i0
  a ← FF a b c d (← readAt x 0) S11 (← readAt m.constants_ i); i := i + 1
  d ← FF d a b c (← readAt x 1) S12 (← readAt m.constants_ i); i := i + 1
  c ← FF c d a b (← readAt x 2) S13 (← readAt m.constants_ i); i := i + 1
  b ← FF b c d a (← readAt x 3) S14 (← readAt m.constants_ i); i := i + 1
  a ← FF a b c d (← readAt x 4) S11 (← readAt m.constants_ i); i := i + 1
  d ← FF d a b c (← readAt x 5) S12 (← readAt m.constants_ i); i := i + 1
  c ← FF c d a b (← readAt x 6) S13 (← readAt m.constants_ i); i := i + 1
  b ← FF b c d a (← readAt x 7) S14 (← readAt m.constants_ i); i := i + 1
  a ← FF a b c d (← readAt x 8) S11 (← readAt m.constants_ i); i := i + 1
  d ← FF d a b c (← readAt x 9) S12 (← readAt m.constants_ i); i := i + 1
  c ← FF c d a b (← readAt x 10) S13 (← readAt m.constants_ i); i := i + 1
  b ← FF b c d a (← readAt x 11) S14 (← readAt m.constants_ i); i := i + 1
  a ← FF a b c d (← readAt x 12) S11 (← readAt m.constants_ i); i := i + 1
  d ← FF d a b c (← readAt x 13) S12 (← readAt m.constants_ i); i := i + 1
  c ← FF c d a b (← readAt x 14) S13 (← readAt m.constants_ i); i := i + 1
  b ← FF b c d a (← readAt x 15) S14 (← readAt m.constants_ i); i := i + 1
  pure (a, b, c, d, i)

/-- Round 2 of `MD5::transform` (steps 17 to 32); `i` is the running index into
`constants_`. -/
def transformRound2 (m : MD5) (x : List SymBitVec) (a0 b0 c0 d0 : SymBitVec) (i0 : Nat) :
    Sym (SymBitVec × SymBitVec × SymBitVec × SymBitVec × Nat) := do
  let mut a := a0
  let mut b := b0
  let mut c := c0
  let mut d := d0
  let mut i := i0
  a ← GG a b c d (← readAt x 1) S21 (← readAt m.constants_ i); i := i + 1
  d ← GG d a b c (← readAt x 6) S22 (← readAt m.constants_ i); i := i + 1
  c ← GG c d a b (← readAt x 11) S23 (← readAt m.constants_ i); i := i + 1
  b ← GG b c d a (← readAt x 0) S24 (← readAt m.constants_ i); i := i + 1
  a ← GG a b c d (← readAt x 5) S21 (← readAt m.constants_ i); i := i + 1
  d ← GG d a b c (← readAt x 10) S22 (← readAt m.constants_ i); i := i + 1
  c ← GG c d a b (← readAt x 15) S23 (← readAt m.constants_ i); i := i + 1
  b ← GG b c d a (← readAt x 4) S24 (← readAt m.constants_ i); i := i + 1
  a ← GG a b c d (← readAt x 9) S21 (← readAt m.constants_ i); i := i + 1
  d ← GG d a b c (← readAt x 14) S22 (← readAt m.constants_ i); i := i + 1
  c ← GG c d a b (← readAt x 3) S23 (← readAt m.constants_ i); i := i + 1
  b ← GG b c d a (← readAt x 8) S24 (← readAt m.constants_ i); i := i + 1
  a ← GG a b c d (← readAt x 13) S21 (← readAt m.constants_ i); i := i + 1
  d ← GG d a b c (← readAt x 2) S22 (← readAt m.constants_ i); i := i + 1
  c ← GG c d a b (← readAt x 7) S23 (← readAt m.constants_ i); i := i + 1
  b ← GG b c d a (← readAt x 12) S24 (← readAt m.constants_ i); i := i + 1
  pure (a, b, c, d, i)

/-- Round 3 of `MD5::transform` (steps 33 to 48); `i` is the running index into
`constants_`. -/
def transformRound3 (m : MD5) (x : List SymBitVec) (a0 b0 c0 d0 : SymBitVec) (i0 : Nat) :
    Sym (SymBitVec × SymBitVec × SymBitVec × SymBitVec × Nat) := do
  let mut a := a0
  let mut b := b0
  let mut c := c0
  let mut d := d0
  let mut i := i0
  a ← HH a b c d (← readAt x 5) S31 (← readAt m.constants_ i); i := i + 1
  d ← HH d a b c (← readAt x 8) S32 (← readAt m.constants_ i); i := i + 1
  c ← HH c d a b (← readAt x 11) S33 (← readAt m.constants_ i); i := i + 1
  b ← HH b c d a (← readAt x 14) S34 (← readAt m.constants_ i); i := i + 1
  a ← HH a b c d (← readAt x 1) S31 (← readAt m.constants_ i); i := i + 1
  d ← HH d a b c (← readAt x 4) S32 (← readAt m.constants_ i); i := i + 1
  c ← HH c d a b (← readAt x 7) S33 (← readAt m.constants_ i); i := i + 1
  b ← HH b c d a (← readAt x 10) S34 (← readAt m.constants_ i); i := i + 1
  a ← HH a b c d (← readAt x 13) S31 (← readAt m.constants_ i); i := i + 1
  d ← HH d a b c (← readAt x 0) S32 (← readAt m.constants_ i); i := i + 1
  c ← HH c d a b (← readAt x 3) S33 (← readAt m.constants_ i); i := i + 1
  b ← HH b c d a (← readAt x 6) S34 (← readAt m.constants_ i); i := i + 1
  a ← HH a b c d (← readAt x 9) S31 (← readAt m.constants_ i); i := i + 1
  d ← HH d a b c (← readAt x 12) S32 (← readAt m.constants_ i); i := i + 1
  c ← HH c d a b (← readAt x 15) S33 (← readAt m.constants_ i); i := i + 1
  b ← HH b c d a (← readAt x 2) S34 (← readAt m.constants_ i); i := i + 1
  pure (a, b, c, d, i)

/-- Round 4 of `MD5::transform` (steps 49 to 64); `i` is the running index into
`constants_`. -/
def transformRound4 (m : MD5) (x : List SymBitVec) (a0 b0 c0 d0 : SymBitVec) (i0 : Nat) :
    Sym (SymBitVec × SymBitVec × SymBitVec × SymBitVec × Nat) := do
  let mut a := a0
  let mut b := b0
  let mut c := c0
  let mut d := d0
  let mut i := i0
  a ← II a b c d (← readAt x 0) S41 (← readAt m.constants_ i); i := i + 1
  d ← II d a b c (← readAt x 7) S42 (← readAt m.constants_ i); i := i + 1
  c ← II c d a b (← readAt x 14) S43 (← readAt m.constants_ i); i := i + 1
  b ← II b c d a (← readAt x 5) S44 (← readAt m.constants_ i); i := i + 1
  a ← II a b c d (← readAt x 12) S41 (← readAt m.constants_ i); i := i + 1
  d ← II d a b c (← readAt x 3) S42 (← readAt m.constants_ i); i := i + 1
  c ← II c d a b (← readAt x 10) S43 (← readAt m.constants_ i); i := i + 1
  b ← II b c d a (← readAt x 1) S44 (← readAt m.constants_ i); i := i + 1
  a ← II a b c d (← readAt x 8) S41 (← readAt m.constants_ i); i := i + 1
  d ← II d a b c (← readAt x 15) S42 (← readAt m.constants_ i); i := i + 1
  c ← II c d a b (← readAt x 6) S43 (← readAt m.constants_ i); i := i + 1
  b ← II b c d a (← readAt x 13) S44 (← readAt m.constants_ i); i := i + 1
  a ← II a b c d (← readAt x 4) S41 (← readAt m.constants_ i); i := i + 1
  d ← II d a b c (← readAt x 11) S42 (← readAt m.constants_ i); i := i + 1
  c ← II c d a b (← readAt x 2) S43 (← readAt m.constants_ i); i := i + 1
  b ← II b c d a (← readAt x 9) S44 (← readAt m.constants_ i); i := i + 1
  pure (a, b, c, d, i)

/-- `MD5::transform`: one 64-byte block (8 bits per vector) into the state. -/
def transform (m : MD5) (block : List SymBitVec) : Sym MD5 := do
  let a ← readAt m.state 0
  let b ← readAt m.state 1
  let c ← readAt m.state 2
  let d ← readAt m.state 3
  let x ← decode (List.replicate 16 SymBitVec.empty) block MD5_BLOCK_SIZE
  let i := 0
  let (a, b, c, d, i) ← transformRound1 m x a b c d i
  let (a, b, c, d, i) ← transformRound2 m x a b c d i
  let (a, b, c, d, i) ← transformRound3 m x a b c d i
  let (a, b, c, d, _) ← transformRound4 m x a b c d i
  let s0 ← SymBitVec.add (← readAt m.state 0) a
  let state ← writeAt m.state 0 s0
  let s1 ← SymBitVec.add (← readAt state 1) b
  let state ← writeAt state 1 s1
  let s2 ← SymBitVec.add (← readAt state 2) c
  let state ← writeAt state 2 s2
  let s3 ← SymBitVec.add (← readAt state 3) d
  let state ← writeAt state 3 s3
  pure { m with state := state }

/-- The copy loop `for (j = index; j < index + n; j++) buffer[j] = input[off + j - index]`,
run for `n` iterations starting at `j`. -/
def copyLoop (input : List SymBitVec) (index off : Nat) : Nat → Nat → List SymBitVec →
    Sym (List SymBitVec)
  | 0, _, buffer => pure buffer
  | n + 1, j, buffer => do
    let v ← readAt input (off + j - index)
    let buffer ← writeAt buffer j v
    copyLoop input index off n (j + 1) buffer

/-- The loop `for (i = firstpart; i + 64 <= len; i += 64) transform(&input[i])`,
run for `n` iterations starting at `i`; returns the final `i`. -/
def blockLoop (input : List SymBitVec) : Nat → Nat → MD5 → Sym (MD5 × Nat)
  | 0, i, m => pure (m, i)
  | n + 1, i, m => do
    let m ← transform m (input.drop i)
    blockLoop input n (i + MD5_BLOCK_SIZE) m

/-- `MD5::update`: `input` holds `len` vectors of 8 bits. `len` is a `size_t`. -/
def update (m : MD5) (input : List SymBitVec) (len : Nat) : Sym MD5 := do
  -- number of bytes mod 64
  let index := m.count0 / 8 % MD5_BLOCK_SIZE
  -- update number of bits
  let len8 := (len * 2 ^ 3) % 2 ^ 64
  let count0 := (m.count0 + len8) % 2 ^ 32
  let count1 := if count0 < len8 then (m.count1 + 1) % 2 ^ 32 else m.count1
  let count1 := (count1 + len / 2 ^ 29) % 2 ^ 32
  let m := { m with count0 := count0, count1 := count1 }
  -- number of bytes we need to fill in buffer
  let firstpart := 64 - index
  if len ≥ firstpart then
    -- fill buffer first, then transform
    let buffer ← copyLoop input index 0 firstpart index m.buffer
    let m := { m with buffer := buffer }
    let m ← transform m m.buffer
    -- transform chunks of blocksize (64 bytes)
    let (m, i) ← blockLoop input ((len - firstpart) / MD5_BLOCK_SIZE) firstpart m
    let index := 0
    -- buffer remaining input
    let buffer ← copyLoop input index i (index + len - i - index) index m.buffer
    pure { m with buffer := buffer }
  else
    let i := 0
    let buffer ← copyLoop input index i (index + len - i - index) index m.buffer
    pure { m with buffer := buffer }

/-- The table `padding_raw` of `finalize`. -/
def padding_raw : List Nat := 0x80 :: List.replicate 63 0

/-- `MD5::finalize`. -/
def finalize (m : MD5) : Sym MD5 := do
  if m.finalized then pure m
  else
    let padding := padding_raw.map (fun p => SymBitVec.ofUInt64 p 8)
    -- save number of bits
    let count_bv := [SymBitVec.ofUInt64 m.count0 32, SymBitVec.ofUInt64 m.count1 32]
    let bits ← encode (List.replicate 8 SymBitVec.empty) count_bv 8
    -- pad out to 56 mod 64
    let index := m.count0 / 8 % 64
    let pad_len := if index < 56 then 56 - index else 120 - index
    let m ← update m padding pad_len
    -- append length (before padding)
    let m ← update m bits 8
    -- store state in digest
    let digest ← encode m.digest m.state 16
    pure { m with digest := digest, finalized := true }

/-- The loop of `hash` that joins the digest bytes:
`combined_digest = digest[i].concat(combined_digest)` for `i = 0 .. 15`. -/
def combineLoop (digest : List SymBitVec) : Nat → Nat → SymBitVec → Sym SymBitVec
  | 0, _, combined_digest => pure combined_digest
  | n + 1, i, combined_digest => do
    let di ← readAt digest i
    combineLoop digest n (i + 1) (di.concat combined_digest)

/-- `MD5::hash(hash_input, difficulty)`: returns the digest and the object
after the call. The parameter `difficulty` is not used by the source. -/
def hash (m : MD5) (hash_input : SymBitVec) (_difficulty : Int) : Sym (SymBitVec × MD5) := do
  -- input size must be byte-aligned
  assert (hash_input.size % 8 == 0)
  let n_bytes := hash_input.size / 8
  let input := (List.range n_bytes).map (fun i => hash_input.extract (i * 8) ((i + 1) * 8))
  let m ← update m input n_bytes
  let m ← finalize m
  let combined_digest ← combineLoop m.digest 16 0 SymBitVec.empty
  pure (combined_digest, m)

end MD5

/-! ## CNF (`cnf.cpp`)

Literals are `int` in the source; they are `Int` here, negation and
`std::abs` are taken without overflow. For every literal other than `INT_MIN`
the negation and the absolute value are again `int`s and are the ones of the
source; at `INT_MIN` the source overflows (`-INT_MIN` is `INT_MIN` again on
two's complement hardware) and the embedding does not follow it. The counter
`int k` of the renaming is an `Int` as well: it is the one of the source as long
as fewer than `INT_MAX` variables are renamed. The statements about the
constructor that depend on this take literals in the range `IntLit` below. -/

/-- `std::set<int>::insert` on the ascending list of the elements. -/
def setInsert (x : Int) : List Int → List Int
  | [] => [x]
  | y :: ys => if x < y then x :: y :: ys else if x = y then y :: ys else y :: setInsert x ys

/-- The range constructor `std::set<int>(first, last)`. -/
def setOfList (xs : List Int) : List Int := xs.foldl (fun s x => setInsert x s) []

/-- A list that is the content of a `std::set<int>`: strictly ascending. -/
def IsSet (s : List Int) : Prop := s.Pairwise (fun a b => a < b)

instance (s : List Int) : Decidable (IsSet s) := by unfold IsSet; infer_instance

/-- Assignment `m[k] = v` on a map kept as an association list with distinct
keys. -/
def mapSet {κ β : Type} [DecidableEq κ] : List (κ × β) → κ → β → List (κ × β)
  | [], k, v => [(k, v)]
  | (k1, v1) :: rest, k, v => if k1 = k then (k, v) :: rest else (k1, v1) :: mapSet rest k v

/-- Modelled from the spec: `LogicGate::cnf()` (body absent; section 4.3): the
Tseitin clauses of a gate over its output `y` and its input literals. The
spec gives them for NOT with one input, AND / OR / XOR with two inputs and
MAJ3 with three inputs. -/
def LogicGate.cnf (g : LogicGate) : List (List Int) :=
  let y := g.output
  match g.t, g.inputs with
  | GateType.not_gate, [x] => [[-y, -x], [y, x]]
  | GateType.and_gate, [x1, x2] => [[-y, x1], [-y, x2], [y, -x1, -x2]]
  | GateType.or_gate, [x1, x2] => [[y, -x1], [y, -x2], [-y, x1, x2]]
  | GateType.xor_gate, [x1, x2] =>
    [[-y, x1, x2], [-y, -x1, -x2], [y, -x1, x2], [y, x1, -x2]]
  | GateType.maj3_gate, [x1, x2, x3] =>
    [[-y, x1, x2], [y, -x1, -x2], [-y, x1, x3], [y, -x1, -x3], [-y, x2, x3], [y, -x2, -x3]]
  | _, _ => []

/-- The fields of `class CNF`. `num_clauses` is only ever set from
`clauses.size()`. -/
structure CNF where
  num_vars : Int
  num_clauses : Nat
  clauses : List (List Int)
deriving DecidableEq, Repr

namespace CNF

/-- `CNF::CNF()`. -/
def empty : CNF := { num_vars := 0, num_clauses := 0, clauses := [] }

/-- Inner loops of `CNF::CNF(gates)` for the clauses of one gate. -/
def addGateClauses : List (List Int) → Int × List (List Int) → Int × List (List Int)
  | [], acc => acc
  | gc :: rest, (num_vars, clauses) =>
    addGateClauses rest
      (gc.foldl (fun nv lit => max nv (Int.natAbs lit : Int)) num_vars, clauses ++ [setOfList gc])

/-- Outer loop of `CNF::CNF(gates)`. -/
def addGates : List LogicGate → Int × List (List Int) → Int × List (List Int)
  | [], acc => acc
  | gate :: rest, acc => addGates rest (addGateClauses gate.cnf acc)

/-- `CNF::CNF(const std::vector<LogicGate>&)`. -/
def ofGates (gates : List LogicGate) : CNF :=
  let r := addGates gates (0, [])
  { num_vars := r.1, clauses := r.2, num_clauses := r.2.length }

/-- `CNF::CNF(cls, n_var)`. -/
def ofClauses (cls : List (List Int)) (n_var : Int) : CNF :=
  { num_vars := n_var, clauses := cls, num_clauses := cls.length }

/-- Value of a literal in `numSatClauses`: the entry of `lit`, else the negated
entry of `-lit`, else the assertion fails. -/
def litVal (assignments : List (Int × Bool)) (lit : Int) : Except Err Bool :=
  match assignments.lookup lit with
  | some v => Except.ok v
  | none =>
    match assignments.lookup (-lit) with
    | some v => Except.ok (!v)
    | none => Except.error Err.assertion

/-- Inner loop of `numSatClauses`: whether a true literal is met (`break`). -/
def clauseSat (assignments : List (Int × Bool)) : List Int → Except Err Bool
  | [] => Except.ok false
  | lit :: rest =>
    match litVal assignments lit with
    | Except.ok lit_val => if lit_val then Except.ok true else clauseSat assignments rest
    | Except.error e => Except.error e

/-- Outer loop of `numSatClauses`. -/
def numSatLoop (assignments : List (Int × Bool)) : List (List Int) → Nat → Except Err Nat
  | [], num_sat => Except.ok num_sat
  | clause :: rest, num_sat =>
    match clauseSat assignments clause with
    | Except.ok s => numSatLoop assignments rest (if s then num_sat + 1 else num_sat)
    | Except.error e => Except.error e

/-- `CNF::numSatClauses`. -/
def numSatClauses (cnf : CNF) (assignments : List (Int × Bool)) : Except Err Nat :=
  numSatLoop assignments cnf.clauses 0

end CNF

/-- The result of `CNF::Simplification`. `lit_original_to_simplified` is a
local variable of the constructor, kept here because the other fields are
derived from it. -/
structure Simplification where
  original_cnf : CNF
  simplified_cnf : CNF
  original_assignments : List (Int × Bool)
  lit_simplified_to_original : List (Int × Int)
  lit_original_to_simplified : List (Int × Int)
deriving DecidableEq, Repr

namespace Simplification

/-- The index built at lines 98-100: for a literal, the ascending set of the
indices `c < num_clauses` of the clauses that contain it. -/
def lit2clauses (cnf : CNF) (lit : Int) : List Nat :=
  (List.range cnf.num_clauses).filter (fun c => decide (lit ∈ cnf.clauses.getD c []))

/-- Seeding of the queue (lines 103-107). The vector `q` is kept with its back
at the head of the list. `-lit` is the negation of `Int`: the one of the source
for every key other than `INT_MIN`. -/
def seed : List (Int × Bool) → List (Int × Bool) → Except Err (List (Int × Bool))
  | [], q => Except.ok q
  | (lit, val) :: rest, q =>
    if lit = 0 then Except.error Err.assertion
    else seed rest ((-lit, !val) :: (lit, val) :: q)

/-- Variables of the work loop. -/
structure State where
  q : List (Int × Bool)
  tmp_clauses : List (List Int)
  original_assignments : List (Int × Bool)
deriving DecidableEq, Repr

/-- The loop of line 120: every referenced clause is emptied. -/
def satLoop : List Nat → List (List Int) → List (List Int)
  | [], tmp_clauses => tmp_clauses
  | clause_idx :: rest, tmp_clauses => satLoop rest (tmp_clauses.set clause_idx [])

/-- The loop of lines 122-140 for a literal known to be false. `-last_lit` is
the negation of `Int`: the one of the source for every literal other than
`INT_MIN`. -/
def unsatLoop (lit : Int) : List Nat → State → Except Err State
  | [], st => Except.ok st
  | clause_idx :: rest, st =>
    match st.tmp_clauses.get? clause_idx with
    | none => Except.error Err.out_of_range
    | some clause =>
      if clause.length = 0 then unsatLoop lit rest st
      -- if this is the last literal in the clause, UNSAT
      else if clause.length = 1 then Except.error Err.assertion
      else
        -- remove literal from clause, since it is false
        let clause := clause.erase lit
        match clause with
        | [last_lit] =>
          if st.original_assignments.lookup last_lit = some false then
            Except.error Err.assertion
          else if st.original_assignments.lookup (-last_lit) = some true then
            Except.error Err.assertion
          else
            unsatLoop lit rest
              { q := (-last_lit, false) :: (last_lit, true) :: st.q
                tmp_clauses := st.tmp_clauses.set clause_idx []
                original_assignments := st.original_assignments }
        | _ => unsatLoop lit rest { st with tmp_clauses := st.tmp_clauses.set clause_idx clause }

/-- One iteration of the `while` loop (lines 110-141) for the popped pair.
`-lit` is the negation of `Int`: the one of the source for every literal other
than `INT_MIN`, where the source writes the same key twice. -/
def step (cnf : CNF) (lit : Int) (val : Bool) (st : State) : Except Err State :=
  let oa := mapSet (mapSet st.original_assignments lit val) (-lit) (!val)
  let clause_indices := lit2clauses cnf lit
  if val then
    -- all referenced clauses are automatically SAT
    Except.ok { st with original_assignments := oa
                        tmp_clauses := satLoop clause_indices st.tmp_clauses }
  else unsatLoop lit clause_indices { st with original_assignments := oa }

/-- The `while (q.size() > 0)` loop, cut off after `fuel` iterations. -/
def workLoop (cnf : CNF) : Nat → State → Except Err State
  | 0, st => if st.q = [] then Except.ok st else Except.error Err.fuel
  | fuel + 1, st =>
    match st.q with
    | [] => Except.ok st
    | (lit, val) :: q =>
      match step cnf lit val { st with q := q } with
      | Except.ok st1 => workLoop cnf fuel st1
      | Except.error e => Except.error e

/-- Variables of the renaming loops (lines 144-160). -/
structure Renaming where
  lit_original_to_simplified : List (Int × Int)
  simplified_clauses : List (List Int)
  k : Int
deriving DecidableEq, Repr

/-- Inner loop of the renaming (lines 151-158) over the literals of one clause.
`std::abs` and the negation are those of `Int`: the ones of the source for every
literal other than `INT_MIN`, where the source writes a single key. -/
def renameClause : List Int → List (Int × Int) × Int × List Int → List (Int × Int) × Int × List Int
  | [], acc => acc
  | orig_lit :: rest, (m, k, simplified_clause) =>
    if m.lookup orig_lit = none then
      let m := mapSet (mapSet m (Int.natAbs orig_lit) k) (-(Int.natAbs orig_lit : Int)) (-k)
      renameClause rest (m, k + 1, setInsert ((m.lookup orig_lit).getD 0) simplified_clause)
    else
      renameClause rest (m, k, setInsert ((m.lookup orig_lit).getD 0) simplified_clause)

/-- Outer loop of the renaming (lines 148-160). -/
def renameLoop : List (List Int) → Renaming → Renaming
  | [], r => r
  | orig_clause :: rest, r =>
    if orig_clause.length = 0 then renameLoop rest r  -- automatically SAT
    else
      let (m, k, simplified_clause) := renameClause orig_clause (r.lit_original_to_simplified, r.k, [])
      renameLoop rest
        { lit_original_to_simplified := m
          simplified_clauses := r.simplified_clauses ++ [simplified_clause]
          k := k }

/-- The loop of lines 166-169 that inverts the renaming. -/
def invert : List (Int × Int) → List (Int × Int) → List (Int × Int)
  | [], inv => inv
  | (first, second) :: rest, inv => invert rest (mapSet inv second first)

/-- Number of iterations after which the embedding cuts the work loop off:
two pairs per entry of the assignment and two per clause. -/
def fuelFor (cnf : CNF) (assignments : List (Int × Bool)) : Nat :=
  2 * assignments.length + 2 * cnf.num_clauses + 1

/-- `CNF::Simplification::Simplification(cnf, assignments)`. -/
def run (cnf : CNF) (assignments : List (Int × Bool)) : Except Err Simplification :=
  match seed assignments [] with
  | Except.error e => Except.error e
  | Except.ok q =>
    match workLoop cnf (fuelFor cnf assignments)
        { q := q, tmp_clauses := cnf.clauses, original_assignments := assignments } with
    | Except.error e => Except.error e
    | Except.ok st =>
      let r := renameLoop st.tmp_clauses
        { lit_original_to_simplified := [], simplified_clauses := [], k := 1 }
      Except.ok
        { original_cnf := cnf
          simplified_cnf := CNF.ofClauses r.simplified_clauses (r.k - 1)
          original_assignments := st.original_assignments
          lit_simplified_to_original := invert r.lit_original_to_simplified []
          lit_original_to_simplified := r.lit_original_to_simplified }

end Simplification

/-- `CNF::simplify`. -/
def CNF.simplify (cnf : CNF) (assignments : List (Int × Bool)) : Except Err CNF :=
  match Simplification.run cnf assignments with
  | Except.ok s => Except.ok s.simplified_cnf
  | Except.error e => Except.error e

/-! ## Belief-propagation driver (`bp_solver.cpp`) -/

/-- `Factor::Type` as used by `convertFactorType`. -/
inductive FactorType where
  | AndFactor | NotFactor | XorFactor | OrFactor | MajFactor
deriving DecidableEq, Repr

/-- The fields of `Factor` that `bp_solver.cpp` reads (`core/factor.hpp` is
absent). -/
structure Factor where
  t : FactorType
  output : Nat
  inputs : List Nat
  valid : Bool
deriving DecidableEq, Repr

/-- `BPFactorType`. -/
inductive BPFactorType where
  | And | Not | Xor | Or | Maj | Prior
deriving DecidableEq, Repr

/-- `IODirection`. -/
inductive IODirection where
  | Input | Output | Prior
deriving DecidableEq, Repr

/-- A factor node: its id, its kind and, for a prior factor, the observed bit. -/
structure GraphFactor where
  index : Nat
  t : BPFactorType
  prior_bit : Option Bool
deriving DecidableEq, Repr

/-- An edge made by `connectFactorNode`. -/
structure GraphEdge where
  factor : GraphFactor
  node : Nat
  dir : IODirection
deriving DecidableEq, Repr

/-- Modelled from the spec: the structure of `Graph` (`bp/graph.hpp` is absent;
section 4.8): variable nodes keyed by index, factor nodes, edges, the two
schedules and the sweep counter. The messages are floating point and are not
part of the embedding. -/
structure Graph where
  nodes : List Nat
  factors : List GraphFactor
  edges : List GraphEdge
  schedule_variable : List (List Nat)
  schedule_factor : List (List GraphFactor)
  iterations : Nat
deriving DecidableEq, Repr

namespace Graph

/-- Modelled from the spec: `Graph()`, the empty graph. -/
def empty : Graph :=
  { nodes := [], factors := [], edges := [], schedule_variable := [], schedule_factor := [],
    iterations := 0 }

/-- Modelled from the spec: `Graph::hasNode`. -/
def hasNode (g : Graph) (rv : Nat) : Bool := g.nodes.contains rv

/-- Modelled from the spec: `Graph::addNode`. -/
def addNode (g : Graph) (rv : Nat) : Graph := { g with nodes := g.nodes ++ [rv] }

/-- Modelled from the spec: `Graph::addFactor`. -/
def addFactor (g : Graph) (fac : GraphFactor) : Graph := { g with factors := g.factors ++ [fac] }

/-- Modelled from the spec: `Graph::connectFactorNode`. -/
def connectFactorNode (g : Graph) (fac : GraphFactor) (node : Nat) (dir : IODirection) : Graph :=
  { g with edges := g.edges ++ [{ factor := fac, node := node, dir := dir }] }

/-- `schedule[0].push_back(x)`; the schedule must have a first list. -/
def pushFirst {α : Type} : List (List α) → α → Except Err (List (List α))
  | [], _ => Except.error Err.out_of_range
  | l :: ls, x => Except.ok ((l ++ [x]) :: ls)

end Graph

/-- What `solveInternal` observes of the floating-point message passing of the
absent `graph.cpp`, and the constant `BP_MAX_ITER` of the absent
`bp/params.hpp`. The argument `n` is the value of `iterations()`. -/
structure BPNumerics where
  BP_MAX_ITER : Nat
  /-- Whether `entropySum() < BP_ENTROPY_THRESHOLD` after `n` sweeps. -/
  entropy_below : Nat → Bool
  /-- Whether `maxChange() < BP_CHANGE_THRESHOLD` after `n` sweeps. -/
  change_below : Nat → Bool
  /-- The value `node->bit()` of the node with the given index after `n` sweeps. -/
  bit : Nat → Nat → Bool

/-- The members of `BPSolver` (with those of `Solver`) that the two hooks use.
`factors_` and `observed_` are `std::map`s: ascending in the key. -/
structure BPSolver where
  factors_ : List (Nat × Factor)
  observed_ : List (Nat × Bool)
  g_ : Graph
deriving DecidableEq, Repr

namespace BPSolver

/-- `BPSolver::convertFactorType`. -/
def convertFactorType (t : FactorType) : BPFactorType :=
  match t with
  | FactorType.AndFactor => BPFactorType.And
  | FactorType.NotFactor => BPFactorType.Not
  | FactorType.XorFactor => BPFactorType.Xor
  | FactorType.OrFactor => BPFactorType.Or
  | FactorType.MajFactor => BPFactorType.Maj

/-- The loop over `f.inputs` in `initialize` (lines 56-66). -/
def connectInputs (fac : GraphFactor) : List Nat → Graph × Nat → Graph × Nat
  | [], acc => acc
  | inp :: rest, (g, max_rv) =>
    if !g.hasNode inp then
      connectInputs fac rest
        ((g.addNode inp).connectFactorNode fac inp IODirection.Input, max max_rv inp)
    else
      connectInputs fac rest (g.connectFactorNode fac inp IODirection.Input, max_rv)

/-- The loop over `factors_` in `initialize` (lines 36-67). -/
def addFactors : List (Nat × Factor) → Graph × Nat → Except Err (Graph × Nat)
  | [], acc => Except.ok acc
  | (rv, f) :: rest, (g, max_rv) =>
    if !f.valid then addFactors rest (g, max_rv)
    else
      let fac : GraphFactor := { index := rv, t := convertFactorType f.t, prior_bit := none }
      let g := g.addFactor fac
      match Graph.pushFirst g.schedule_factor fac with
      | Except.error e => Except.error e
      | Except.ok sf =>
        let g := { g with schedule_factor := sf }
        let (g, max_rv) :=
          if !g.hasNode f.output then (g.addNode f.output, max max_rv f.output) else (g, max_rv)
        let g := g.connectFactorNode fac f.output IODirection.Output
        addFactors rest (connectInputs fac f.inputs (g, max_rv))

/-- The loop of lines 69-71: `for (rv = 0; rv < max_rv; rv++)`. -/
def scheduleVariables : List Nat → Graph → Except Err Graph
  | [], g => Except.ok g
  | rv :: rest, g =>
    if g.hasNode rv then
      match Graph.pushFirst g.schedule_variable rv with
      | Except.error e => Except.error e
      | Except.ok sv => scheduleVariables rest { g with schedule_variable := sv }
    else scheduleVariables rest g

/-- `BPSolver::initialize` (the name is reserved in Lean, hence the spelling). -/
def initialise (s : BPSolver) : Except Err BPSolver :=
  let g := { Graph.empty with schedule_variable := [[]], schedule_factor := [[]] }
  let max_rv := 0
  match addFactors s.factors_ (g, max_rv) with
  | Except.error e => Except.error e
  | Except.ok (g, max_rv) =>
    match scheduleVariables (List.range max_rv) g with
    | Except.error e => Except.error e
    | Except.ok g => Except.ok { s with g_ := g }

/-- The loop over `observed_` in `solveInternal` (lines 86-94). -/
def addPriors : List (Nat × Bool) → Graph × List Nat → Except Err (Graph × List Nat)
  | [], acc => Except.ok acc
  | (rv, bit_val) :: rest, (g, prior_rvs) =>
    if !g.hasNode rv then Except.error Err.assertion
    else
      let fac : GraphFactor := { index := rv, t := BPFactorType.Prior, prior_bit := some bit_val }
      let g := g.addFactor fac
      let g := g.connectFactorNode fac rv IODirection.Prior
      addPriors rest (g, prior_rvs ++ [rv])

/-- The `while (g_.iterations() < BP_MAX_ITER)` loop (lines 99-128), run for at
most `fuel` further sweeps; `scheduledUpdate` adds one to `iterations()`.
Returns the final value of `iterations()`. -/
def sweepLoop (P : BPNumerics) : Nat → Nat → Nat
  | 0, iterations => iterations
  | fuel + 1, iterations =>
    if iterations < P.BP_MAX_ITER then
      let iterations := iterations + 1
      if P.entropy_below iterations then iterations
      else if P.change_below iterations then iterations
      else sweepLoop P fuel iterations
    else iterations

/-- The loops of lines 135-139 over one list of the variable schedule. -/
def readNodes (P : BPNumerics) (n : Nat) : List Nat → List (Nat × Bool) → List (Nat × Bool)
  | [], solution => solution
  | node :: rest, solution => readNodes P n rest (mapSet solution node (P.bit n node))

/-- The loops of lines 135-139. -/
def readSchedule (P : BPNumerics) (n : Nat) : List (List Nat) → List (Nat × Bool) →
    List (Nat × Bool)
  | [], solution => solution
  | nodes :: rest, solution => readSchedule P n rest (readNodes P n nodes solution)

/-- `BPSolver::solveInternal`: the solution map (as the list of its entries)
and the solver after the call. `initMessages`, `spreadPriors`, `scheduledUpdate`,
`norm` and `writeNodes` act on the floating-point messages only; what the
function reads of them is in `BPNumerics`. -/
def solveInternal (P : BPNumerics) (s : BPSolver) : Except Err (List (Nat × Bool) × BPSolver) :=
  match addPriors s.observed_ (s.g_, []) with
  | Except.error e => Except.error e
  | Except.ok (g, _) =>
    let n := sweepLoop P (P.BP_MAX_ITER - g.iterations) g.iterations
    let g := { g with iterations := n }
    Except.ok (readSchedule P n g.schedule_variable [], { s with g_ := g })

end BPSolver

/-! ## Vocabulary of the statements -/

/-- Constant vector of `sz` bits whose bit `i` is bit `i` of `n`. -/
def SymBitVec.constant (n sz : Nat) : SymBitVec :=
  { bits_ := (List.range sz).map (fun i => Bit.const (n.testBit i)) }

/-- What a caller sees of a `hash` call. -/
structure HashView where
  /-- `size()` of the returned vector. -/
  size : Nat
  /-- Whether every bit of the returned vector is a constant. -/
  all_constant : Bool
  /-- Integer value of the returned vector, bit `i` weighing `2^i`. -/
  value : Nat
  /-- Integer value of each element of `digest`, `digest[0]` first. -/
  digest_bytes : List Nat
  /-- For `k = 0 .. 15`, the value of bits `[8*(15-k), 8*(16-k))` of the returned vector. -/
  layout_bytes : List Nat
  /-- The ledger after the call. -/
  ledger : Ledger
deriving DecidableEq, Repr

/-- The view of a finished run of `hash`; nothing if it failed. -/
def MD5.view (r : Except Err ((SymBitVec × MD5) × Ledger)) : Option HashView :=
  match r with
  | Except.ok ((d, m), L) =>
    some { size := d.size
           all_constant := d.isConst
           value := SymBitVec.bitsVal d.bits_
           digest_bytes := m.digest.map (fun v => SymBitVec.bitsVal v.bits_)
           layout_bytes := (List.range 16).map
             (fun k => SymBitVec.bitsVal (d.extract (8 * (15 - k)) (8 * (16 - k))).bits_)
           ledger := L }
  | Except.error _ => none

/-- The literal is an `int` strictly between `-INT_MAX` and `INT_MAX`. Its
negation and its absolute value are `int`s as well, so that the negation and
`std::abs` of the source do not overflow on it (they do at `INT_MIN` only) and
are the ones of the embedding; and clauses of such literals are on fewer than
`INT_MAX` variables, so that the counter `int k` of the renaming, which ends at
one more than the number of renamed variables, does not overflow either. -/
def IntLit (l : Int) : Prop := -(2 ^ 31 - 1) < l ∧ l < 2 ^ 31 - 1

instance (l : Int) : Decidable (IntLit l) := by unfold IntLit; infer_instance

/-- The working clauses `tmp_clauses` at the exit of the work loop (lines 92-142
of the constructor): the clauses that survive are the ones that are not
emptied. -/
def Simplification.workingClauses (cnf : CNF) (assignments : List (Int × Bool)) :
    Except Err (List (List Int)) :=
  match Simplification.seed assignments [] with
  | Except.error e => Except.error e
  | Except.ok q =>
    match Simplification.workLoop cnf (Simplification.fuelFor cnf assignments)
        { q := q, tmp_clauses := cnf.clauses, original_assignments := assignments } with
    | Except.error e => Except.error e
    | Except.ok st => Except.ok st.tmp_clauses

/-- Every literal held by the work loop is in range: the literals of the working
clauses, the literals of the queue and the keys of `original_assignments`.
These are the literals that the loop negates. -/
def Simplification.State.InRange (st : Simplification.State) : Prop :=
  (∀ cl ∈ st.tmp_clauses, ∀ l ∈ cl, IntLit l)
    ∧ (∀ p ∈ st.q, IntLit p.1)
    ∧ (∀ p ∈ st.original_assignments, IntLit p.1)

/-- Value of a literal under a valuation of the variables. -/
def litTrue (T : Nat → Bool) (lit : Int) : Bool :=
  if 0 < lit then T lit.natAbs else !T lit.natAbs

/-- A clause holds under a valuation: one of its literals is true. -/
def clauseTrue (T : Nat → Bool) (clause : List Int) : Bool := clause.any (litTrue T)

/-- Every clause of the CNF holds under the valuation. -/
def cnfTrue (T : Nat → Bool) (cnf : CNF) : Bool := cnf.clauses.all (clauseTrue T)

/-- The assignment on the original variables obtained from a model `M` of the
simplified problem: the value recorded in `original_assignments` for a fixed
variable, else the value of `M` on the renamed variable. -/
def Simplification.lift (s : Simplification) (M : Nat → Bool) (v : Nat) : Bool :=
  match s.original_assignments.lookup (v : Int) with
  | some b => b
  | none => litTrue M ((s.lit_original_to_simplified.lookup (v : Int)).getD 0)

/-- Boolean function of a gate kind on the values of its inputs. -/
def GateType.eval (t : GateType) (xs : List Bool) : Bool :=
  match t, xs with
  | GateType.not_gate, [x] => !x
  | GateType.and_gate, [x1, x2] => x1 && x2
  | GateType.or_gate, [x1, x2] => x1 || x2
  | GateType.xor_gate, [x1, x2] => Bool.xor x1 x2
  | GateType.maj3_gate, [x1, x2, x3] => (x1 && x2) || (x1 && x3) || (x2 && x3)
  | _, _ => false

/-- The arity of the gate matches its kind: NOT one input, AND / OR / XOR two,
MAJ3 three. -/
def LogicGate.canonical (g : LogicGate) : Bool :=
  match g.t with
  | GateType.not_gate => g.inputs.length == 1
  | GateType.maj3_gate => g.inputs.length == 3
  | _ => g.inputs.length == 2

/-- The gate holds under a valuation: output = kind(inputs), a negative input
literal standing for the negated variable. -/
def gateHolds (T : Nat → Bool) (g : LogicGate) : Bool :=
  litTrue T g.output == g.t.eval (g.inputs.map (litTrue T))

/-- The valuation of the variables that an assignment map denotes: the entry
of `v`, else the negated entry of `-v`. -/
def valuation (A : List (Int × Bool)) (v : Nat) : Bool :=
  match A.lookup (v : Int) with
  | some b => b
  | none =>
    match A.lookup (-(v : Int)) with
    | some b => !b
    | none => false

/-- The map never gives a literal and its negation the same value. -/
def Consistent (A : List (Int × Bool)) : Prop :=
  ∀ p ∈ A, ∀ q ∈ A, q.1 = -p.1 → q.2 = !p.2

instance (A : List (Int × Bool)) : Decidable (Consistent A) := by
  unfold Consistent; infer_instance

/-- The map has an entry for every variable of the gates (under the variable
or under its negation). -/
def DefinedOn (A : List (Int × Bool)) (gates : List LogicGate) : Prop :=
  ∀ g ∈ gates, ∀ l ∈ g.output :: g.inputs,
    (A.lookup l).isSome = true ∨ (A.lookup (-l)).isSome = true

instance (A : List (Int × Bool)) (gates : List LogicGate) : Decidable (DefinedOn A gates) := by
  unfold DefinedOn; infer_instance

/-! ## Invariants used in the proofs -/

/-- Invariant of the renaming loops on the map `lit_original_to_simplified`
and the counter `k`. -/
structure RenInv (m : List (Int × Int)) (k : Int) : Prop where
  k_pos : 1 ≤ k
  vals_nodup : (m.map Prod.snd).Nodup
  vals_lt : ∀ p ∈ m, (p.2.natAbs : Int) < k
  entry : ∀ l v, m.lookup l = some v →
    l ≠ 0 ∧ v ≠ 0 ∧ (0 < v ↔ 0 < l) ∧ m.lookup (-l) = some (-v)

/-- Number of clauses of the working copy that are not emptied. -/
def nonEmptyCount : List (List Int) → Nat
  | [] => 0
  | c :: cs => (if c = [] then 0 else 1) + nonEmptyCount cs

/-- Quantity that every iteration of the work loop decreases. -/
def Simplification.State.measure (st : Simplification.State) : Nat :=
  st.q.length + 2 * nonEmptyCount st.tmp_clauses

/-- Invariant of the work loop when a valuation `T` satisfies the CNF and the
given assignment. -/
structure WorkInv (cnf : CNF) (T : Nat → Bool) (st : Simplification.State) : Prop where
  len : st.tmp_clauses.length = cnf.clauses.length
  clause : ∀ (i : Nat) (cl : List Int), st.tmp_clauses[i]? = some cl → cl ≠ [] →
    ∃ orig : List Int, cnf.clauses[i]? = some orig ∧ cl.Sublist orig ∧ clauseTrue T cl = true
      ∧ (cl.length = 1 → cl = orig)
  queue : ∀ p ∈ st.q, p.1 ≠ 0 ∧ litTrue T p.1 = p.2
  assigned : ∀ l v, st.original_assignments.lookup l = some v → litTrue T l = v

/-- The valuation of the simplified variables induced by a valuation `T` of the
original ones: simplified variable `k` takes the value of the original literal
`lit_simplified_to_original[k]`. -/
def Simplification.renamed (s : Simplification) (T : Nat → Bool) (k : Nat) : Bool :=
  litTrue T ((s.lit_simplified_to_original.lookup (k : Int)).getD 0)

/-- The renaming of a literal: `lit_original_to_simplified[l]`. -/
def Simplification.ren (s : Simplification) (l : Int) : Int :=
  (s.lit_original_to_simplified.lookup l).getD 0

/-! ## Vocabulary for the MD5 object -/

/-- The computation returns on every ledger, and its result satisfies `P`. -/
def Sym.Ok {α : Type} (m : Sym α) (P : α → Prop) : Prop :=
  ∀ L : Ledger, ∃ a L1, m L = Except.ok (a, L1) ∧ P a

/-- Lines 120-121 of `MD5::update`: the pair `(count[0], count[1])` after a call
with `len`, from the pair before it. -/
def MD5.countAfter (count0 count1 len : Nat) : Nat × Nat :=
  let len8 := (len * 2 ^ 3) % 2 ^ 64
  let c0 := (count0 + len8) % 2 ^ 32
  let c1 := if c0 < len8 then (count1 + 1) % 2 ^ 32 else count1
  (c0, (c1 + len / 2 ^ 29) % 2 ^ 32)

/-- Shape of an MD5 object that every method keeps: `buffer[64]` and
`digest[16]`, four state words and 64 constants of 32 bits. -/
structure MD5.Shape (m : MD5) : Prop where
  buffer_len : m.buffer.length = 64
  digest_len : m.digest.length = 16
  state_len : m.state.length = 4
  state_size : ∀ v ∈ m.state, v.size = 32
  constants_len : m.constants_.length = 64
  constants_size : ∀ v ∈ m.constants_, v.size = 32

/-- A sequence of calls `update(input, len)`, each on an array of `len`
elements. -/
def MD5.updates : MD5 → List (List SymBitVec) → Sym MD5
  | m, [] => pure m
  | m, input :: rest => do
    let m ← MD5.update m input input.length
    MD5.updates m rest

/-- The second object differs from the first in `state` only. -/
def MD5.SameButState (m m1 : MD5) : Prop :=
  m1.buffer = m.buffer ∧ m1.count0 = m.count0 ∧ m1.count1 = m.count1
    ∧ m1.finalized = m.finalized ∧ m1.digest = m.digest ∧ m1.constants_ = m.constants_

/-! ## Vocabulary for the belief-propagation driver -/

/-- The entries of `factors_` whose `valid` flag is set, in the order of the map. -/
def BPSolver.validEntries (fs : List (Nat × Factor)) : List (Nat × Factor) :=
  fs.filter (fun p => p.2.valid)

/-- The gate factor expected for an entry of `factors_`: id the key of the entry,
kind the converted kind of the gate. -/
def BPSolver.gateFactor (p : Nat × Factor) : GraphFactor :=
  { index := p.1, t := BPSolver.convertFactorType p.2.t, prior_bit := none }

/-- The edges expected for an entry of `factors_`: the `Output` edge to the
output variable, then one `Input` edge per input, in the order of the inputs. -/
def BPSolver.gateEdges (p : Nat × Factor) : List GraphEdge :=
  { factor := BPSolver.gateFactor p, node := p.2.output, dir := IODirection.Output }
    :: p.2.inputs.map (fun inp =>
        { factor := BPSolver.gateFactor p, node := inp, dir := IODirection.Input })

/-- The prior factor expected for an entry of `observed_`. -/
def BPSolver.priorFactor (p : Nat × Bool) : GraphFactor :=
  { index := p.1, t := BPFactorType.Prior, prior_bit := some p.2 }

/-- The variable `rv` is the output or an input of a valid entry of `fs`. -/
def BPSolver.usedBy (fs : List (Nat × Factor)) (rv : Nat) : Prop :=
  ∃ p ∈ BPSolver.validEntries fs, rv = p.2.output ∨ rv ∈ p.2.inputs

instance (fs : List (Nat × Factor)) (rv : Nat) : Decidable (BPSolver.usedBy fs rv) := by
  unfold BPSolver.usedBy
  infer_instance

/-! ## Invariants of the simplification on every run -/

/-- Invariant of the renaming loops for the density of the new indices: every
index from 1 up to `k - 1` is the image of a key, and every key of the map is a
literal met so far (`seen`) or the negation of one. -/
structure RenDense (seen : List Int) (m : List (Int × Int)) (k : Int) : Prop where
  onto : ∀ j : Int, 1 ≤ j → j < k → ∃ x, m.lookup x = some j
  keys : ∀ (x v : Int), m.lookup x = some v → x ∈ seen ∨ -x ∈ seen

/-- The pair `(x, v)` has had its effect on the working clauses `tmp`: for
`v = true` every clause of `cnf` that contains `x` is emptied, for `v = false`
no working clause contains `x`. -/
def Processed (cnf : CNF) (tmp : List (List Int)) (x : Int) (v : Bool) : Prop :=
  ∀ (i : Nat) (cl : List Int), tmp[i]? = some cl →
    (v = true → ∀ o : List Int, cnf.clauses[i]? = some o → x ∈ o → cl = [])
      ∧ (v = false → x ∉ cl)

/-- The working clauses `tmp1` come from `tmp` by removing literals. -/
def Shrinks (tmp tmp1 : List (List Int)) : Prop :=
  tmp1.length = tmp.length
    ∧ ∀ (i : Nat) (cl1 : List Int), tmp1[i]? = some cl1 →
        ∃ cl : List Int, tmp[i]? = some cl ∧ cl1.Sublist cl

/-- Invariant of the work loop that holds on every run, with `Q` the pairs
still to be processed (the queue, and the pair being processed while its
clauses are visited), `tmp` the working clauses and `oa` the map
`original_assignments`. -/
structure PropInv (cnf : CNF) (Q : Int × Bool → Prop) (tmp : List (List Int))
    (oa : List (Int × Bool)) : Prop where
  len : tmp.length = cnf.clauses.length
  sub : ∀ (i : Nat) (cl : List Int), tmp[i]? = some cl →
    ∃ o : List Int, cnf.clauses[i]? = some o ∧ cl.Sublist o
  qnz : ∀ p : Int × Bool, Q p → p.1 ≠ 0
  assigned : ∀ (x : Int) (v : Bool), oa.lookup x = some v → Processed cnf tmp x v ∨ Q (x, v)
  paired : ∀ p : Int × Bool, Q p → Q (-p.1, !p.2) ∨ Processed cnf tmp (-p.1) (!p.2)
  removed : ∀ (i : Nat) (cl o : List Int), tmp[i]? = some cl → cl ≠ [] →
    cnf.clauses[i]? = some o → ∀ x ∈ o, x ∉ cl → oa.lookup x = some false ∨ Q (x, true)
  both : ∀ (l : Int) (v : Bool), oa.lookup l = some v →
    oa.lookup (-l) = some (!v) ∨ ∃ w, Q (l, w)

/-- Bound on the number of iterations of the work loop still to come: the
pairs in the queue, and two for each of the first `num_clauses` working clauses
that is not emptied. -/
def Simplification.State.pending (cnf : CNF) (st : Simplification.State) : Nat :=
  st.q.length + 2 * nonEmptyCount (st.tmp_clauses.take cnf.num_clauses)

/-! ## Vocabulary for `encode` and `decode` -/

/-- The computation returns `v` on every ledger and leaves the ledger as it was. -/
def Sym.Is {α : Type} (m : Sym α) (v : α) : Prop := ∀ L : Ledger, m L = Except.ok (v, L)

/-- The 32-bit word whose bytes are `b0 .. b3`, lowest byte first. -/
def MD5.packWord (b0 b1 b2 b3 : SymBitVec) : SymBitVec :=
  { bits_ := b0.bits_ ++ (b1.bits_ ++ (b2.bits_ ++ b3.bits_)) }

/-- The words of an array of bytes, four bytes per word. -/
def MD5.packWords : List SymBitVec → List SymBitVec
  | b0 :: b1 :: b2 :: b3 :: rest => MD5.packWord b0 b1 b2 b3 :: MD5.packWords rest
  | _ => []

/-- The four bytes of a word, lowest byte first. -/
def MD5.unpackWord (w : SymBitVec) : List SymBitVec :=
  [{ bits_ := w.bits_.take 8 }, { bits_ := (w.bits_.drop 8).take 8 },
   { bits_ := (w.bits_.drop 16).take 8 }, { bits_ := (w.bits_.drop 24).take 8 }]

/-- The bytes of an array of words. -/
def MD5.unpackWords : List SymBitVec → List SymBitVec
  | [] => []
  | w :: rest => MD5.unpackWord w ++ MD5.unpackWords rest

/-- The first `k` words are the little-endian values of the bytes:
`word i = byte[4i] + 2^8 byte[4i+1] + 2^16 byte[4i+2] + 2^24 byte[4i+3]`. -/
def MD5.LittleEndian (words bytes : List SymBitVec) (k : Nat) : Prop :=
  ∀ i : Nat, i < k → ∃ w b0 b1 b2 b3 : SymBitVec,
    words[i]? = some w ∧ bytes[4 * i]? = some b0 ∧ bytes[4 * i + 1]? = some b1
      ∧ bytes[4 * i + 2]? = some b2 ∧ bytes[4 * i + 3]? = some b3
      ∧ w.intVal = b0.intVal + 2 ^ 8 * b1.intVal + 2 ^ 16 * b2.intVal + 2 ^ 24 * b3.intVal

/-- The constant bits of the vector carry the reserved index `0`. -/
def SymBitVec.Canonical (v : SymBitVec) : Prop :=
  ∀ b ∈ v.bits_, b.is_rv = false → b.index = 0

instance (v : SymBitVec) : Decidable v.Canonical := by
  unfold SymBitVec.Canonical
  infer_instance

/-! ## Theorems -/

/-! ### MD5 known answers -/

set_option maxRecDepth 100000 in
/-- C1. Hashing the empty input with a fresh MD5 object (ledger just reset)
completes and returns 128 constant bits whose integer value is
`d41d8cd98f00b204e9800998ecf8427e`; digest byte `k` is at bits
`[8*(15-k), 8*(16-k))`, and the ledger is left as it was (no gate). -/
theorem C1_md5_empty_input :
    MD5.view (MD5.hash MD5.new SymBitVec.empty 0 Ledger.fresh) =
      some { size := 128
             all_constant := true
             value := 0xd41d8cd98f00b204e9800998ecf8427e
             digest_bytes := [0xd4, 0x1d, 0x8c, 0xd9, 0x8f, 0x00, 0xb2, 0x04,
                              0xe9, 0x80, 0x09, 0x98, 0xec, 0xf8, 0x42, 0x7e]
             layout_bytes := [0xd4, 0x1d, 0x8c, 0xd9, 0x8f, 0x00, 0xb2, 0x04,
                              0xe9, 0x80, 0x09, 0x98, 0xec, 0xf8, 0x42, 0x7e]
             ledger := Ledger.fresh } := by
  decide!

set_option maxRecDepth 100000 in
/-- C2. Hashing the 24 constant bits of `0x636261` (the bytes `a`, `b`, `c`, byte
`i` at bits `[8i, 8i+8)`) with a fresh MD5 object completes and returns 128
constant bits whose integer value is `900150983cd24fb0d6963f7d28e17f72`, digest
byte `k` at bits `[8*(15-k), 8*(16-k))`. -/
theorem C2_md5_abc :
    MD5.view (MD5.hash MD5.new (SymBitVec.ofUInt64 0x636261 24) 0 Ledger.fresh) =
      some { size := 128
             all_constant := true
             value := 0x900150983cd24fb0d6963f7d28e17f72
             digest_bytes := [0x90, 0x01, 0x50, 0x98, 0x3c, 0xd2, 0x4f, 0xb0,
                              0xd6, 0x96, 0x3f, 0x7d, 0x28, 0xe1, 0x7f, 0x72]
             layout_bytes := [0x90, 0x01, 0x50, 0x98, 0x3c, 0xd2, 0x4f, 0xb0,
                              0xd6, 0x96, 0x3f, 0x7d, 0x28, 0xe1, 0x7f, 0x72]
             ledger := Ledger.fresh } := by
  decide!

/-! ### Sets, maps and literals -/

theorem mem_setInsert (x y : Int) (s : List Int) : y ∈ setInsert x s ↔ y = x ∨ y ∈ s := by
  induction s with
  | nil => simp [setInsert]
  | cons z zs ih =>
    unfold setInsert
    split
    · simp
    · split
      · next h => subst h; simp
      · simp [ih]; tauto

theorem mem_foldl_setInsert (xs : List Int) : ∀ (s : List Int) (y : Int),
    y ∈ xs.foldl (fun s x => setInsert x s) s ↔ y ∈ xs ∨ y ∈ s := by
  induction xs with
  | nil => intro s y; simp
  | cons x xs ih =>
    intro s y
    simp only [List.foldl_cons, ih, mem_setInsert, List.mem_cons]
    tauto

theorem mem_setOfList (xs : List Int) (y : Int) : y ∈ setOfList xs ↔ y ∈ xs := by
  simp [setOfList, mem_foldl_setInsert]

theorem clauseTrue_setOfList (T : Nat → Bool) (xs : List Int) :
    clauseTrue T (setOfList xs) = clauseTrue T xs := by
  rw [Bool.eq_iff_iff]
  simp [clauseTrue, List.any_eq_true, mem_setOfList]

theorem clauseTrue_iff (T : Nat → Bool) (cl : List Int) :
    clauseTrue T cl = true ↔ ∃ l ∈ cl, litTrue T l = true := by
  simp [clauseTrue, List.any_eq_true]

theorem setInsert_append (acc : List Int) (x : Int) (h : ∀ y ∈ acc, y < x) :
    setInsert x acc = acc ++ [x] := by
  induction acc with
  | nil => rfl
  | cons y ys ih =>
    have hy : y < x := h y (by simp)
    have h1 : ¬ x < y := by omega
    have h2 : ¬ x = y := by omega
    simp only [setInsert, if_neg h1, if_neg h2, ih (fun z hz => h z (by simp [hz])),
      List.cons_append]

theorem foldl_setInsert_sorted (xs : List Int) : ∀ (acc : List Int),
    (∀ y ∈ acc, ∀ x ∈ xs, y < x) → IsSet xs →
    xs.foldl (fun s x => setInsert x s) acc = acc ++ xs := by
  induction xs with
  | nil => intro acc _ _; simp
  | cons x rest ih =>
    intro acc hacc hs
    have hs' := List.pairwise_cons.mp hs
    simp only [List.foldl_cons]
    rw [setInsert_append acc x (fun y hy => hacc y hy x (by simp))]
    rw [ih (acc ++ [x]) ?_ hs'.2]
    · simp
    · intro y hy z hz
      rcases List.mem_append.mp hy with h | h
      · exact hacc y h z (by simp [hz])
      · have : y = x := by simpa using h
        rw [this]; exact hs'.1 z hz

/-- Building a `std::set<int>` from an ascending range gives the range. -/
theorem setOfList_of_isSet (xs : List Int) (h : IsSet xs) : setOfList xs = xs := by
  have := foldl_setInsert_sorted xs [] (by simp) h
  simpa [setOfList] using this

theorem lookup_mem {β : Type} (A : List (Int × β)) (l : Int) (b : β)
    (h : A.lookup l = some b) : (l, b) ∈ A := by
  induction A with
  | nil => simp at h
  | cons p rest ih =>
    obtain ⟨k, v⟩ := p
    by_cases hk : l = k
    · subst hk
      simp [List.lookup] at h
      simp [h]
    · have : (l == k) = false := by simpa using hk
      simp [List.lookup, this] at h
      simp [ih h]

theorem lookup_mapSet {β : Type} (m : List (Int × β)) (k : Int) (v : β) (x : Int) :
    (mapSet m k v).lookup x = if x = k then some v else m.lookup x := by
  induction m with
  | nil =>
    by_cases h : x = k
    · simp [mapSet, List.lookup, h]
    · have : (x == k) = false := by simpa using h
      simp [mapSet, List.lookup, h, this]
  | cons p rest ih =>
    obtain ⟨k1, v1⟩ := p
    unfold mapSet
    by_cases h1 : k1 = k
    · subst h1
      by_cases h : x = k1
      · simp [List.lookup, h]
      · have : (x == k1) = false := by simpa using h
        simp [List.lookup, h, this]
    · simp only [h1, if_false]
      by_cases h : x = k1
      · subst h
        have : ¬ x = k := h1
        simp [List.lookup, this]
      · have : (x == k1) = false := by simpa using h
        simp [List.lookup, this, ih]

theorem mapSet_absent {β : Type} (m : List (Int × β)) (k : Int) (v : β)
    (h : m.lookup k = none) : mapSet m k v = m ++ [(k, v)] := by
  induction m with
  | nil => rfl
  | cons p rest ih =>
    obtain ⟨k1, v1⟩ := p
    by_cases h1 : k = k1
    · subst h1; simp [List.lookup] at h
    · have hb : (k == k1) = false := by simpa using h1
      simp only [List.lookup, hb] at h
      have h2 : ¬ k1 = k := fun e => h1 e.symm
      simp [mapSet, h2, ih h]

theorem litTrue_neg (T : Nat → Bool) (l : Int) (h : l ≠ 0) : litTrue T (-l) = !litTrue T l := by
  unfold litTrue
  rcases lt_trichotomy l 0 with h1 | h1 | h1
  · have h2 : 0 < -l := by omega
    have h3 : ¬ 0 < l := by omega
    simp [h2, h3]
  · exact absurd h1 h
  · have h2 : ¬ 0 < -l := by omega
    simp [h1, h2]

/-! ### The simplification at a conflict -/

/-- C3, evaluation at the failing input: on the clauses `{1,2}`, `{-2,1}` with
`1 -> false` the simplification completes with an empty simplified CNF, which
every `M` satisfies, yet the lifted assignment (it records `1 = false`,
`2 = true`) falsifies the original CNF. -/
theorem C3_lift_fails_at_conflict (M : Nat → Bool) :
    ∃ s, Simplification.run (CNF.ofClauses [[1, 2], [-2, 1]] 2) [(1, false)] = Except.ok s
      ∧ cnfTrue M s.simplified_cnf = true
      ∧ s.original_assignments.lookup 1 = some false
      ∧ s.original_assignments.lookup 2 = some true
      ∧ cnfTrue (s.lift M) (CNF.ofClauses [[1, 2], [-2, 1]] 2) = false :=
  ⟨_, rfl, rfl, rfl, rfl, rfl⟩

/-- C4, evaluation at the failing input: the clauses `{1,2}`, `{-2,1}` have no
model with variable `1` false (propagation of `1 -> false` forces `2` and then
falsifies `{-2,1}`), yet the simplification completes and returns the empty
CNF instead of failing an assertion. -/
theorem C4_conflict_not_detected :
    (∀ T : Nat → Bool, T 1 = true ∨ cnfTrue T (CNF.ofClauses [[1, 2], [-2, 1]] 2) = false)
      ∧ CNF.simplify (CNF.ofClauses [[1, 2], [-2, 1]] 2) [(1, false)]
          = Except.ok (CNF.ofClauses [] 0) := by
  refine ⟨fun T => ?_, rfl⟩
  cases h1 : T 1 <;> cases h2 : T 2 <;>
    simp [cnfTrue, clauseTrue, litTrue, CNF.ofClauses, h1, h2]

/-! ### The renaming loops -/

theorem RenInv.step_aux {m : List (Int × Int)} {k : Int} (hI : RenInv m k) (l a : Int)
    (ha0 : 0 < a) (hcases : l = a ∨ l = -a) (habs : m.lookup l = none) :
    RenInv (mapSet (mapSet m a k) (-a) (-k)) (k + 1)
      ∧ (∀ x v, m.lookup x = some v → (mapSet (mapSet m a k) (-a) (-k)).lookup x = some v)
      ∧ ((mapSet (mapSet m a k) (-a) (-k)).lookup l).isSome = true := by
  have hk := hI.k_pos
  have hneg : m.lookup (-l) = none := by
    cases h : m.lookup (-l) with
    | none => rfl
    | some v =>
      have := (hI.entry _ _ h).2.2.2
      rw [neg_neg, habs] at this
      simp at this
  have hA : m.lookup a = none := by
    rcases hcases with h | h
    · rw [← h]; exact habs
    · have : a = -l := by omega
      rw [this]; exact hneg
  have hB : m.lookup (-a) = none := by
    rcases hcases with h | h
    · rw [← h]; exact hneg
    · rw [← h]; exact habs
  have hlook : ∀ x, (mapSet (mapSet m a k) (-a) (-k)).lookup x =
      if x = -a then some (-k) else if x = a then some k else m.lookup x := by
    intro x
    simp only [lookup_mapSet]
  have hext : ∀ x v, m.lookup x = some v →
      (mapSet (mapSet m a k) (-a) (-k)).lookup x = some v := by
    intro x v hx
    rw [hlook]
    have h1 : x ≠ -a := by
      rintro rfl; rw [hB] at hx; simp at hx
    have h2 : x ≠ a := by
      rintro rfl; rw [hA] at hx; simp at hx
    rw [if_neg h1, if_neg h2, hx]
  have hm2 : mapSet (mapSet m a k) (-a) (-k) = m ++ [(a, k), (-a, -k)] := by
    have h1 : mapSet m a k = m ++ [(a, k)] := mapSet_absent m _ k hA
    have h2 : (mapSet m a k).lookup (-a) = none := by
      rw [lookup_mapSet]
      have : ¬ (-a) = a := by omega
      rw [if_neg this, hB]
    rw [mapSet_absent _ _ _ h2, h1]
    simp
  have hkabs : ((k.natAbs : Nat) : Int) = k := Int.natAbs_of_nonneg (by omega)
  have hkabs2 : (((-k).natAbs : Nat) : Int) = k := by rw [Int.natAbs_neg]; exact hkabs
  refine ⟨⟨by omega, ?_, ?_, ?_⟩, hext, ?_⟩
  · rw [hm2]
    simp only [List.map_append, List.map_cons, List.map_nil]
    rw [List.nodup_append]
    refine ⟨hI.vals_nodup, ?_, ?_⟩
    · simp only [List.nodup_cons, List.mem_singleton, List.not_mem_nil, not_false_eq_true,
        List.nodup_nil, and_true]
      omega
    · intro x ha1 ha2
      simp only [List.mem_map] at ha1
      obtain ⟨p, hp, rfl⟩ := ha1
      have h3 := hI.vals_lt p hp
      simp only [List.mem_cons, List.mem_singleton, List.not_mem_nil, or_false] at ha2
      rcases ha2 with h | h
      · rw [h, hkabs] at h3; omega
      · rw [h, hkabs2] at h3; omega
  · intro p hp
    rw [hm2] at hp
    simp only [List.mem_append, List.mem_cons, List.mem_singleton, List.not_mem_nil,
      or_false] at hp
    rcases hp with hp | rfl | rfl
    · have := hI.vals_lt p hp; omega
    · show ((k.natAbs : Nat) : Int) < k + 1
      omega
    · show (((-k).natAbs : Nat) : Int) < k + 1
      omega
  · intro x v hx
    rw [hlook] at hx
    by_cases h1 : x = -a
    · rw [if_pos h1, Option.some.injEq] at hx
      subst hx
      refine ⟨by omega, by omega, by omega, ?_⟩
      rw [hlook, h1]
      have h5 : ¬ (- -a) = -a := by omega
      rw [if_neg h5, if_pos (neg_neg a), neg_neg]
    · by_cases h2 : x = a
      · rw [if_neg h1, if_pos h2, Option.some.injEq] at hx
        subst hx
        refine ⟨by omega, by omega, by omega, ?_⟩
        rw [hlook, h2, if_pos rfl]
      · rw [if_neg h1, if_neg h2] at hx
        obtain ⟨e1, e2, e3, e4⟩ := hI.entry x v hx
        exact ⟨e1, e2, e3, hext _ _ e4⟩
  · rw [hlook]
    rcases hcases with h | h
    · have h1 : ¬ l = -a := by omega
      rw [if_neg h1, if_pos h]; rfl
    · rw [if_pos h]; rfl

/-- The two assignments of lines 153-154 on a map where the literal is absent. -/
theorem RenInv.step {m : List (Int × Int)} {k : Int} (hI : RenInv m k) (l : Int) (hl : l ≠ 0)
    (habs : m.lookup l = none) :
    RenInv (mapSet (mapSet m (Int.natAbs l) k) (-(Int.natAbs l : Int)) (-k)) (k + 1)
      ∧ (∀ x v, m.lookup x = some v →
          (mapSet (mapSet m (Int.natAbs l) k) (-(Int.natAbs l : Int)) (-k)).lookup x = some v)
      ∧ ((mapSet (mapSet m (Int.natAbs l) k) (-(Int.natAbs l : Int)) (-k)).lookup l).isSome
          = true :=
  hI.step_aux l (Int.natAbs l) (by omega) (by omega) habs

theorem renameClause_spec (cl : List Int) :
    ∀ (m : List (Int × Int)) (k : Int) (sc : List Int), (∀ l ∈ cl, l ≠ 0) → RenInv m k →
      RenInv (Simplification.renameClause cl (m, k, sc)).1
          (Simplification.renameClause cl (m, k, sc)).2.1
        ∧ (∀ x v, m.lookup x = some v →
            (Simplification.renameClause cl (m, k, sc)).1.lookup x = some v)
        ∧ (∀ l ∈ cl, ((Simplification.renameClause cl (m, k, sc)).1.lookup l).isSome = true)
        ∧ (Simplification.renameClause cl (m, k, sc)).2.2
            = (cl.map (fun l =>
                ((Simplification.renameClause cl (m, k, sc)).1.lookup l).getD 0)).foldl
                (fun s x => setInsert x s) sc := by
  induction cl with
  | nil => intro m k sc _ hI; exact ⟨hI, fun _ _ h => h, by simp, rfl⟩
  | cons l rest ih =>
    intro m k sc hnz hI
    have hl : l ≠ 0 := hnz l (by simp)
    have hrest : ∀ x ∈ rest, x ≠ 0 := fun x hx => hnz x (by simp [hx])
    unfold Simplification.renameClause
    by_cases habs : m.lookup l = none
    · simp only [habs, if_true]
      obtain ⟨hI2, hext, hdef⟩ := hI.step l hl habs
      obtain ⟨r1, r2, r3, r4⟩ := ih _ (k + 1) (setInsert (((mapSet (mapSet m (Int.natAbs l) k)
        (-(Int.natAbs l : Int)) (-k)).lookup l).getD 0) sc) hrest hI2
      refine ⟨r1, fun x v hx => r2 x v (hext x v hx), ?_, ?_⟩
      · intro x hx
        rcases List.mem_cons.mp hx with rfl | hx
        · obtain ⟨v, hv⟩ := Option.isSome_iff_exists.mp hdef
          rw [r2 _ _ hv]; rfl
        · exact r3 x hx
      · rw [r4]
        obtain ⟨v, hv⟩ := Option.isSome_iff_exists.mp hdef
        simp only [List.map_cons, List.foldl_cons]
        rw [r2 _ _ hv, hv]
    · simp only [habs, if_false]
      obtain ⟨r1, r2, r3, r4⟩ := ih m k (setInsert ((m.lookup l).getD 0) sc) hrest hI
      obtain ⟨v, hv⟩ := Option.ne_none_iff_exists'.mp habs
      refine ⟨r1, r2, ?_, ?_⟩
      · intro x hx
        rcases List.mem_cons.mp hx with rfl | hx
        · rw [r2 _ _ hv]; rfl
        · exact r3 x hx
      · rw [r4]
        simp only [List.map_cons, List.foldl_cons]
        rw [r2 _ _ hv, hv]

theorem renameLoop_spec (cls : List (List Int)) :
    ∀ (r : Simplification.Renaming), (∀ cl ∈ cls, ∀ l ∈ cl, l ≠ 0) →
      RenInv r.lit_original_to_simplified r.k →
      RenInv (Simplification.renameLoop cls r).lit_original_to_simplified
          (Simplification.renameLoop cls r).k
        ∧ (∀ x v, r.lit_original_to_simplified.lookup x = some v →
            (Simplification.renameLoop cls r).lit_original_to_simplified.lookup x = some v)
        ∧ (∀ cl ∈ cls, ∀ l ∈ cl,
            ((Simplification.renameLoop cls r).lit_original_to_simplified.lookup l).isSome = true)
        ∧ (Simplification.renameLoop cls r).simplified_clauses
            = r.simplified_clauses ++ (cls.filter (fun cl => decide (cl.length ≠ 0))).map
                (fun cl => setOfList (cl.map (fun l =>
                  ((Simplification.renameLoop cls r).lit_original_to_simplified.lookup l).getD 0)))
          := by
  induction cls with
  | nil => intro r _ hI; exact ⟨hI, fun _ _ h => h, by simp, by simp [Simplification.renameLoop]⟩
  | cons cl rest ih =>
    intro r hnz hI
    have hrest : ∀ c ∈ rest, ∀ l ∈ c, l ≠ 0 := fun c hc => hnz c (by simp [hc])
    unfold Simplification.renameLoop
    by_cases hlen : cl.length = 0
    · simp only [hlen, if_true]
      obtain ⟨r1, r2, r3, r4⟩ := ih r hrest hI
      refine ⟨r1, r2, ?_, ?_⟩
      · intro c hc l hl
        rcases List.mem_cons.mp hc with rfl | hc
        · have : c = [] := List.length_eq_zero.mp hlen
          subst this; simp at hl
        · exact r3 c hc l hl
      · rw [r4]
        simp [List.filter, hlen]
    · simp only [hlen, if_false]
      obtain ⟨c1, c2, c3, c4⟩ := renameClause_spec cl r.lit_original_to_simplified r.k []
        (hnz cl (by simp)) hI
      generalize hres : Simplification.renameClause cl (r.lit_original_to_simplified, r.k, [])
        = res at c1 c2 c3 c4
      obtain ⟨m1, k1, sc1⟩ := res
      simp only at c1 c2 c3 c4 ⊢
      obtain ⟨r1, r2, r3, r4⟩ := ih
        { lit_original_to_simplified := m1
          simplified_clauses := r.simplified_clauses ++ [sc1]
          k := k1 } hrest c1
      simp only at r2 r4
      have hagree : ∀ l ∈ cl, m1.lookup l = (Simplification.renameLoop rest
          { lit_original_to_simplified := m1
            simplified_clauses := r.simplified_clauses ++ [sc1]
            k := k1 }).lit_original_to_simplified.lookup l := by
        intro l hl
        obtain ⟨v, hv⟩ := Option.isSome_iff_exists.mp (c3 l hl)
        rw [hv, r2 _ _ hv]
      have hsc : sc1 = setOfList (cl.map (fun l =>
          ((Simplification.renameLoop rest
            { lit_original_to_simplified := m1
              simplified_clauses := r.simplified_clauses ++ [sc1]
              k := k1 }).lit_original_to_simplified.lookup l).getD 0)) := by
        have hmap : cl.map (fun l => (m1.lookup l).getD 0) = cl.map (fun l =>
            ((Simplification.renameLoop rest
              { lit_original_to_simplified := m1
                simplified_clauses := r.simplified_clauses ++ [sc1]
                k := k1 }).lit_original_to_simplified.lookup l).getD 0) := by
          apply List.map_congr_left
          intro l hl
          rw [hagree l hl]
        rw [← hmap]; exact c4
      refine ⟨r1, fun x v hx => r2 x v (c2 x v hx), ?_, ?_⟩
      · intro c hc l hl
        rcases List.mem_cons.mp hc with rfl | hc
        · rw [← hagree l hl]; exact c3 l hl
        · exact r3 c hc l hl
      · rw [r4, List.filter_cons_of_pos (by simpa using hlen), List.map_cons, ← hsc]
        simp

theorem invert_lookup_other (m : List (Int × Int)) : ∀ (inv : List (Int × Int)) (v : Int),
    v ∉ m.map Prod.snd → (Simplification.invert m inv).lookup v = inv.lookup v := by
  induction m with
  | nil => intro inv v _; rfl
  | cons p rest ih =>
    intro inv v hv
    obtain ⟨a, b⟩ := p
    simp only [List.map_cons, List.mem_cons, not_or] at hv
    unfold Simplification.invert
    rw [ih _ _ hv.2, lookup_mapSet, if_neg hv.1]

theorem invert_lookup (m : List (Int × Int)) : ∀ (inv : List (Int × Int)),
    (m.map Prod.snd).Nodup → ∀ p ∈ m, (Simplification.invert m inv).lookup p.2 = some p.1 := by
  induction m with
  | nil => intro inv _ p hp; simp at hp
  | cons q rest ih =>
    intro inv hnd p hp
    obtain ⟨a, b⟩ := q
    simp only [List.map_cons, List.nodup_cons] at hnd
    unfold Simplification.invert
    rcases List.mem_cons.mp hp with rfl | hp
    · rw [invert_lookup_other _ _ _ hnd.1, lookup_mapSet, if_pos rfl]
    · exact ih _ hnd.2 p hp

/-- The renaming followed by the inverted map is the identity. -/
theorem invert_of_lookup (m : List (Int × Int)) (k : Int) (hI : RenInv m k) (l v : Int)
    (h : m.lookup l = some v) : (Simplification.invert m []).lookup v = some l :=
  invert_lookup m [] hI.vals_nodup (l, v) (lookup_mem m l v h)

/-- A renamed literal has, under the renamed valuation, the value of the
original literal. -/
theorem litTrue_renamed (m : List (Int × Int)) (k : Int) (hI : RenInv m k) (T : Nat → Bool)
    (l v : Int) (h : m.lookup l = some v) :
    litTrue (fun j => litTrue T (((Simplification.invert m []).lookup (j : Int)).getD 0)) v
      = litTrue T l := by
  obtain ⟨e1, e2, e3, e4⟩ := hI.entry l v h
  unfold litTrue
  by_cases hv : 0 < v
  · have hcast : ((v.natAbs : Nat) : Int) = v := by omega
    simp only [hv, if_true, hcast]
    rw [invert_of_lookup m k hI l v h]
    rfl
  · have hcast : ((v.natAbs : Nat) : Int) = -v := by omega
    simp only [hv, if_false, hcast]
    rw [invert_of_lookup m k hI (-l) (-v) e4]
    have hl : ¬ 0 < l := fun hl => hv (e3.mpr hl)
    have hl2 : 0 < -l := by omega
    have hcast2 : (((-l).natAbs : Nat) : Int) = -l := by omega
    simp only [Option.getD_some, hl, hl2, if_true, if_false, Int.natAbs_neg]

theorem RenInv.init : RenInv [] 1 :=
  ⟨le_refl _, by simp, by simp, by simp⟩

/-! ### The work loop under a satisfying valuation -/

theorem nonEmptyCount_set_le (tmp : List (List Int)) : ∀ (i : Nat) (c c1 : List Int),
    tmp[i]? = some c → c ≠ [] → nonEmptyCount (tmp.set i c1) ≤ nonEmptyCount tmp := by
  induction tmp with
  | nil => intro i c c1 h; simp at h
  | cons x xs ih =>
    intro i c c1 h hc
    cases i with
    | zero =>
      simp only [List.getElem?_cons_zero, Option.some.injEq] at h
      subst h
      simp only [List.set_cons_zero, nonEmptyCount, if_neg hc]
      split <;> omega
    | succ j =>
      simp only [List.getElem?_cons_succ] at h
      have := ih j c c1 h hc
      simp only [List.set_cons_succ, nonEmptyCount]
      omega

theorem nonEmptyCount_set_nil (tmp : List (List Int)) : ∀ (i : Nat) (c : List Int),
    tmp[i]? = some c → c ≠ [] → nonEmptyCount (tmp.set i []) + 1 = nonEmptyCount tmp := by
  induction tmp with
  | nil => intro i c h; simp at h
  | cons x xs ih =>
    intro i c h hc
    cases i with
    | zero =>
      simp only [List.getElem?_cons_zero, Option.some.injEq] at h
      subst h
      simp only [List.set_cons_zero, nonEmptyCount, if_neg hc, if_true]
      omega
    | succ j =>
      simp only [List.getElem?_cons_succ] at h
      have := ih j c h hc
      simp only [List.set_cons_succ, nonEmptyCount]
      omega

theorem nonEmptyCount_set_nil_le (tmp : List (List Int)) : ∀ (i : Nat),
    nonEmptyCount (tmp.set i []) ≤ nonEmptyCount tmp := by
  induction tmp with
  | nil => intro i; simp [nonEmptyCount]
  | cons x xs ih =>
    intro i
    cases i with
    | zero =>
      simp only [List.set_cons_zero, nonEmptyCount, if_true]
      omega
    | succ j =>
      have := ih j
      simp only [List.set_cons_succ, nonEmptyCount]
      omega

theorem nonEmptyCount_le_length (tmp : List (List Int)) : nonEmptyCount tmp ≤ tmp.length := by
  induction tmp with
  | nil => simp [nonEmptyCount]
  | cons x xs ih =>
    simp only [nonEmptyCount, List.length_cons]
    split <;> omega

theorem getElem?_set_cases {α : Type} (l : List α) (i j : Nat) (a b : α)
    (h : (l.set i a)[j]? = some b) : (j = i ∧ b = a) ∨ (j ≠ i ∧ l[j]? = some b) := by
  by_cases hij : i = j
  · subst hij
    by_cases hi : i < l.length
    · rw [List.getElem?_set_self hi] at h
      exact Or.inl ⟨rfl, (Option.some.inj h).symm⟩
    · rw [List.getElem?_eq_none (by simpa using hi)] at h
      simp at h
  · rw [List.getElem?_set_ne hij] at h
    exact Or.inr ⟨fun e => hij e.symm, h⟩

/-- The loop that empties the clauses of a true literal keeps the invariant and
does not increase the number of live clauses. -/
theorem satLoop_spec (cnf : CNF) (T : Nat → Bool) (idxs : List Nat) :
    ∀ (st : Simplification.State), WorkInv cnf T st →
      WorkInv cnf T { st with tmp_clauses := Simplification.satLoop idxs st.tmp_clauses }
        ∧ nonEmptyCount (Simplification.satLoop idxs st.tmp_clauses)
            ≤ nonEmptyCount st.tmp_clauses := by
  induction idxs with
  | nil => intro st h; exact ⟨h, le_refl _⟩
  | cons idx rest ih =>
    intro st h
    have h1 : WorkInv cnf T { st with tmp_clauses := st.tmp_clauses.set idx [] } := by
      refine ⟨by simpa using h.len, ?_, h.queue, h.assigned⟩
      intro i cl hget hne
      rcases getElem?_set_cases _ _ _ _ _ hget with ⟨_, rfl⟩ | ⟨_, h2⟩
      · exact absurd rfl hne
      · exact h.clause i cl h2 hne
    obtain ⟨r1, r2⟩ := ih _ h1
    exact ⟨r1, le_trans r2 (nonEmptyCount_set_nil_le _ _)⟩

/-- The loop for a false literal never fails an assertion when a valuation
satisfies the CNF and agrees with everything known; it keeps the invariant
and does not increase the measure. -/
theorem unsatLoop_spec (cnf : CNF) (T : Nat → Bool)
    (hnz : ∀ cl ∈ cnf.clauses, ∀ l ∈ cl, l ≠ 0)
    (lit : Int) (hlit : litTrue T lit = false) (idxs : List Nat) :
    ∀ (st : Simplification.State), WorkInv cnf T st →
      (∀ idx ∈ idxs, ∃ orig : List Int, cnf.clauses[idx]? = some orig ∧ lit ∈ orig) →
      ∃ st1, Simplification.unsatLoop lit idxs st = Except.ok st1 ∧ WorkInv cnf T st1
        ∧ st1.measure ≤ st.measure := by
  induction idxs with
  | nil => intro st h _; exact ⟨st, rfl, h, le_refl _⟩
  | cons idx rest ih =>
    intro st h hidx
    have hrest : ∀ i ∈ rest, ∃ orig : List Int, cnf.clauses[i]? = some orig ∧ lit ∈ orig :=
      fun i hi => hidx i (by simp [hi])
    obtain ⟨orig, horig, hmem⟩ := hidx idx (by simp)
    have hlt : idx < st.tmp_clauses.length := by
      rw [h.len]
      exact (List.getElem?_eq_some_iff.mp horig).1
    obtain ⟨clause, hget⟩ : ∃ clause, st.tmp_clauses[idx]? = some clause :=
      ⟨_, List.getElem?_eq_getElem hlt⟩
    unfold Simplification.unsatLoop
    rw [List.get?_eq_getElem?, hget]
    simp only
    by_cases h0 : clause.length = 0
    · rw [if_pos h0]; exact ih st h hrest
    · rw [if_neg h0]
      have hne : clause ≠ [] := fun e => h0 (by rw [e]; rfl)
      obtain ⟨orig1, horig1, hsub, htrue, hone⟩ := h.clause idx clause hget hne
      have horig_eq : orig1 = orig := by rw [horig] at horig1; exact (Option.some.inj horig1).symm
      subst horig_eq
      have horig_mem : orig1 ∈ cnf.clauses := List.getElem?_mem horig
      obtain ⟨l0, hl0, hl0t⟩ := (clauseTrue_iff T clause).mp htrue
      have hl0ne : l0 ≠ lit := by rintro rfl; rw [hlit] at hl0t; simp at hl0t
      by_cases h1 : clause.length = 1
      · exfalso
        have hc := hone h1
        rw [hc] at hl0 h1
        match orig1, h1, hl0, hmem with
        | [x], _, hl0, hmem =>
          simp only [List.mem_singleton] at hl0 hmem
          exact hl0ne (hl0.trans hmem.symm)
      · rw [if_neg h1]
        have hl0e : l0 ∈ clause.erase lit := (List.mem_erase_of_ne hl0ne).mpr hl0
        have hsub2 : (clause.erase lit).Sublist orig1 := (List.erase_sublist lit clause).trans hsub
        have htrue2 : clauseTrue T (clause.erase lit) = true :=
          (clauseTrue_iff T _).mpr ⟨l0, hl0e, hl0t⟩
        cases hE : clause.erase lit with
        | nil => rw [hE] at hl0e; simp at hl0e
        | cons a t =>
          cases t with
          | nil =>
            rw [hE] at hl0e hsub2
            have ha : l0 = a := by simpa using hl0e
            subst ha
            have hl0nz : l0 ≠ 0 := hnz orig1 horig_mem l0 (hsub2.subset (by simp))
            have hc1 : ¬ st.original_assignments.lookup l0 = some false := by
              intro hc
              have := h.assigned _ _ hc
              rw [hl0t] at this; simp at this
            have hc2 : ¬ st.original_assignments.lookup (-l0) = some true := by
              intro hc
              have := h.assigned _ _ hc
              rw [litTrue_neg T l0 hl0nz, hl0t] at this; simp at this
            simp only [hc1, hc2, if_false]
            have hinv : WorkInv cnf T
                { q := (-l0, false) :: (l0, true) :: st.q
                  tmp_clauses := st.tmp_clauses.set idx []
                  original_assignments := st.original_assignments } := by
              refine ⟨by simpa using h.len, ?_, ?_, h.assigned⟩
              · intro i cl hg hn
                rcases getElem?_set_cases _ _ _ _ _ hg with ⟨_, rfl⟩ | ⟨_, h2⟩
                · exact absurd rfl hn
                · exact h.clause i cl h2 hn
              · intro p hp
                simp only [List.mem_cons] at hp
                rcases hp with rfl | rfl | hp
                · exact ⟨by simpa using hl0nz, by simp [litTrue_neg T l0 hl0nz, hl0t]⟩
                · exact ⟨hl0nz, hl0t⟩
                · exact h.queue p hp
            obtain ⟨st1, r1, r2, r3⟩ := ih _ hinv hrest
            refine ⟨st1, r1, r2, le_trans r3 ?_⟩
            have := nonEmptyCount_set_nil st.tmp_clauses idx clause hget hne
            simp only [Simplification.State.measure, List.length_cons]
            omega
          | cons b t2 =>
            simp only
            have hinv : WorkInv cnf T
                { st with tmp_clauses := st.tmp_clauses.set idx (a :: b :: t2) } := by
              refine ⟨by simpa using h.len, ?_, h.queue, h.assigned⟩
              intro i cl hg hn
              rcases getElem?_set_cases _ _ _ _ _ hg with ⟨rfl, rfl⟩ | ⟨_, h2⟩
              · rw [hE] at hsub2 htrue2
                exact ⟨orig1, horig, hsub2, htrue2, by simp⟩
              · exact h.clause i cl h2 hn
            obtain ⟨st1, r1, r2, r3⟩ := ih _ hinv hrest
            refine ⟨st1, r1, r2, le_trans r3 ?_⟩
            have := nonEmptyCount_set_le st.tmp_clauses idx clause (a :: b :: t2) hget hne
            simp only [Simplification.State.measure]
            omega

theorem lit2clauses_mem (cnf : CNF) (lit : Int) (idx : Nat)
    (h : idx ∈ Simplification.lit2clauses cnf lit) :
    ∃ orig : List Int, cnf.clauses[idx]? = some orig ∧ lit ∈ orig := by
  simp only [Simplification.lit2clauses, List.mem_filter, List.mem_range, decide_eq_true_eq] at h
  cases hg : cnf.clauses[idx]? with
  | none => simp [List.getD, hg] at h
  | some orig => exact ⟨orig, rfl, by simpa [List.getD, hg] using h.2⟩

/-- One iteration of the work loop: no assertion fails, the invariant is kept
and the measure does not grow. -/
theorem step_spec (cnf : CNF) (T : Nat → Bool) (hnz : ∀ cl ∈ cnf.clauses, ∀ l ∈ cl, l ≠ 0)
    (lit : Int) (val : Bool) (st : Simplification.State) (h : WorkInv cnf T st)
    (hl : lit ≠ 0) (hv : litTrue T lit = val) :
    ∃ st1, Simplification.step cnf lit val st = Except.ok st1 ∧ WorkInv cnf T st1
      ∧ st1.measure ≤ st.measure := by
  have hoa : ∀ l v, (mapSet (mapSet st.original_assignments lit val) (-lit) (!val)).lookup l
      = some v → litTrue T l = v := by
    intro l v hlv
    rw [lookup_mapSet, lookup_mapSet] at hlv
    by_cases h1 : l = -lit
    · rw [if_pos h1, Option.some.injEq] at hlv
      rw [h1, litTrue_neg T lit hl, hv, hlv]
    · rw [if_neg h1] at hlv
      by_cases h2 : l = lit
      · rw [if_pos h2, Option.some.injEq] at hlv
        rw [h2, hv, hlv]
      · rw [if_neg h2] at hlv
        exact h.assigned l v hlv
  have hinv : WorkInv cnf T
      { q := st.q
        tmp_clauses := st.tmp_clauses
        original_assignments := mapSet (mapSet st.original_assignments lit val) (-lit) (!val) } :=
    ⟨h.len, h.clause, h.queue, hoa⟩
  unfold Simplification.step
  cases val with
  | true =>
    simp only [if_true]
    obtain ⟨r1, r2⟩ := satLoop_spec cnf T (Simplification.lit2clauses cnf lit) _ hinv
    refine ⟨_, rfl, r1, ?_⟩
    simp only [Simplification.State.measure] at r2 ⊢
    omega
  | false =>
    simp only [Bool.false_eq_true, if_false]
    obtain ⟨st1, r1, r2, r3⟩ := unsatLoop_spec cnf T hnz lit hv
      (Simplification.lit2clauses cnf lit) _ hinv (fun idx hi => lit2clauses_mem cnf lit idx hi)
    exact ⟨st1, r1, r2, r3⟩

/-- The work loop completes within the fuel, with the invariant and an empty
queue. -/
theorem workLoop_spec (cnf : CNF) (T : Nat → Bool) (hnz : ∀ cl ∈ cnf.clauses, ∀ l ∈ cl, l ≠ 0)
    (fuel : Nat) : ∀ (st : Simplification.State), WorkInv cnf T st → st.measure < fuel →
      ∃ st1, Simplification.workLoop cnf fuel st = Except.ok st1 ∧ WorkInv cnf T st1
        ∧ st1.q = [] := by
  induction fuel with
  | zero => intro st _ hm; omega
  | succ n ih =>
    intro st h hm
    unfold Simplification.workLoop
    cases hq : st.q with
    | nil => exact ⟨st, rfl, h, hq⟩
    | cons p q =>
      obtain ⟨lit, val⟩ := p
      simp only
      have hp := h.queue (lit, val) (by rw [hq]; simp)
      have hinv : WorkInv cnf T { st with q := q } :=
        ⟨h.len, h.clause, fun x hx => h.queue x (by rw [hq]; simp [hx]), h.assigned⟩
      obtain ⟨st1, r1, r2, r3⟩ := step_spec cnf T hnz lit val _ hinv hp.1 hp.2
      rw [r1]
      simp only
      have hm1 : st1.measure < n := by
        simp only [Simplification.State.measure, hq, List.length_cons] at hm r3 ⊢
        omega
      exact ih st1 r2 hm1

theorem seed_spec (A : List (Int × Bool)) : ∀ (q0 : List (Int × Bool)),
    (∀ p ∈ A, p.1 ≠ 0) →
    ∃ q, Simplification.seed A q0 = Except.ok q ∧ q.length = 2 * A.length + q0.length
      ∧ ∀ x ∈ q, x ∈ q0 ∨ ∃ p ∈ A, x = p ∨ x = (-p.1, !p.2) := by
  induction A with
  | nil => intro q0 _; exact ⟨q0, rfl, by simp, fun x hx => Or.inl hx⟩
  | cons p rest ih =>
    intro q0 hA
    obtain ⟨lit, val⟩ := p
    have hl : lit ≠ 0 := hA (lit, val) (by simp)
    obtain ⟨q, r1, r2, r3⟩ := ih ((-lit, !val) :: (lit, val) :: q0)
      (fun x hx => hA x (by simp [hx]))
    refine ⟨q, ?_, ?_, ?_⟩
    · unfold Simplification.seed
      rw [if_neg hl]; exact r1
    · simp only [List.length_cons] at r2 ⊢; omega
    · intro x hx
      rcases r3 x hx with h | ⟨p, hp, h⟩
      · simp only [List.mem_cons] at h
        rcases h with rfl | rfl | h
        · exact Or.inr ⟨(lit, val), by simp, Or.inr rfl⟩
        · exact Or.inr ⟨(lit, val), by simp, Or.inl rfl⟩
        · exact Or.inl h
      · exact Or.inr ⟨p, by simp [hp], h⟩

/-- C6 as stated fails: under the empty assignment `CNF({{2}}, 2)` is simplified
to `CNF({{1}}, 1)`, not to itself. -/
theorem C6_simplify_empty_not_identity :
    (CNF.ofClauses [[2]] 2).simplify [] = Except.ok (CNF.ofClauses [[1]] 1)
      ∧ CNF.ofClauses [[1]] 1 ≠ CNF.ofClauses [[2]] 2 :=
  ⟨rfl, by decide⟩

/-! ### The variable schedule of the BP driver -/

/-- C7, evaluation at the failing input: with the single valid factor
`3 = AND(1, 2)` and nothing observed, `initialise` creates the nodes 3, 1, 2, but
the map returned by `solveInternal` has the keys 1 and 2 only, whatever the
message passing computes: the variable with the largest index is missing. -/
theorem C7_largest_variable_missing (P : BPNumerics) :
    ∃ s sol s1,
      BPSolver.initialise
          { factors_ := [(3, { t := FactorType.AndFactor, output := 3, inputs := [1, 2], valid := true })]
            observed_ := []
            g_ := Graph.empty } = Except.ok s
      ∧ s.g_.nodes = [3, 1, 2]
      ∧ BPSolver.solveInternal P s = Except.ok (sol, s1)
      ∧ sol.map Prod.fst = [1, 2] :=
  ⟨_, _, _, rfl, rfl, rfl, rfl⟩

/-! ### numSatClauses and the Tseitin clauses -/

theorem addGateClauses_snd (gcs : List (List Int)) : ∀ (acc : Int × List (List Int)),
    (CNF.addGateClauses gcs acc).2 = acc.2 ++ gcs.map setOfList := by
  induction gcs with
  | nil => intro acc; simp [CNF.addGateClauses]
  | cons gc rest ih =>
    intro acc
    obtain ⟨nv, cls⟩ := acc
    simp [CNF.addGateClauses, ih]

theorem addGates_snd (gates : List LogicGate) : ∀ (acc : Int × List (List Int)),
    (CNF.addGates gates acc).2 = acc.2 ++ (gates.map (fun g => g.cnf.map setOfList)).flatten := by
  induction gates with
  | nil => intro acc; simp [CNF.addGates]
  | cons g rest ih =>
    intro acc
    simp [CNF.addGates, ih, addGateClauses_snd]

/-- Under a consistent map, a literal with an entry (its own or its
negation's) evaluates in `numSatClauses` to its value under the valuation. -/
theorem litVal_eq (A : List (Int × Bool)) (hc : Consistent A) (l : Int)
    (hd : (A.lookup l).isSome = true ∨ (A.lookup (-l)).isSome = true) :
    l ≠ 0 ∧ CNF.litVal A l = Except.ok (litTrue (valuation A) l) := by
  have hne : l ≠ 0 := by
    rintro rfl
    simp only [neg_zero, or_self] at hd
    obtain ⟨b, hb⟩ := Option.isSome_iff_exists.mp hd
    have hm := lookup_mem A 0 b hb
    have := hc _ hm _ hm (by simp)
    simp at this
  refine ⟨hne, ?_⟩
  have hcl : ∀ k b b', A.lookup k = some b → A.lookup (-k) = some b' → b' = !b :=
    fun k b b' h1 h2 => hc _ (lookup_mem A k b h1) _ (lookup_mem A (-k) b' h2) rfl
  unfold CNF.litVal litTrue valuation
  rcases lt_trichotomy l 0 with h1 | h1 | h1
  · have h3 : ¬ 0 < l := by omega
    have h4 : ((l.natAbs : Nat) : Int) = -l := by omega
    simp only [h3, if_false, h4, neg_neg]
    cases hl : A.lookup l with
    | some b =>
      cases hn : A.lookup (-l) with
      | some b' => simp [hcl l b b' hl hn]
      | none => simp
    | none =>
      cases hn : A.lookup (-l) with
      | some b' => simp
      | none => simp [hl, hn] at hd
  · exact absurd h1 hne
  · have h4 : ((l.natAbs : Nat) : Int) = l := by omega
    simp only [h1, if_true, h4]
    cases hl : A.lookup l with
    | some b => simp
    | none =>
      cases hn : A.lookup (-l) with
      | some b' => simp
      | none => simp [hl, hn] at hd

theorem clauseSat_eq (A : List (Int × Bool)) (hc : Consistent A) (cl : List Int)
    (hd : ∀ l ∈ cl, (A.lookup l).isSome = true ∨ (A.lookup (-l)).isSome = true) :
    CNF.clauseSat A cl = Except.ok (clauseTrue (valuation A) cl) := by
  induction cl with
  | nil => rfl
  | cons l rest ih =>
    have h1 := (litVal_eq A hc l (hd l (by simp))).2
    have h2 := ih (fun x hx => hd x (by simp [hx]))
    unfold CNF.clauseSat
    rw [h1]
    cases hv : litTrue (valuation A) l
    · simp [h2, clauseTrue, hv]
    · simp [clauseTrue, hv]

theorem numSatLoop_eq (A : List (Int × Bool)) (hc : Consistent A) (cls : List (List Int))
    (hd : ∀ cl ∈ cls, ∀ l ∈ cl, (A.lookup l).isSome = true ∨ (A.lookup (-l)).isSome = true) :
    ∀ n, CNF.numSatLoop A cls n
      = Except.ok (n + (cls.filter (clauseTrue (valuation A))).length) := by
  induction cls with
  | nil => intro n; rfl
  | cons cl rest ih =>
    intro n
    have h1 := clauseSat_eq A hc cl (hd cl (by simp))
    have h2 := ih (fun x hx => hd x (by simp [hx]))
    unfold CNF.numSatLoop
    rw [h1]
    cases hv : clauseTrue (valuation A) cl
    · simp [h2, hv]
    · simp [h2, hv]; omega

theorem filter_length_eq_iff {α : Type} (p : α → Bool) (xs : List α) :
    (xs.filter p).length = xs.length ↔ ∀ x ∈ xs, p x = true := by
  induction xs with
  | nil => simp
  | cons x xs ih =>
    have hle := List.length_filter_le p xs
    cases hp : p x
    · simp [List.filter, hp]; omega
    · simp [List.filter, hp, ih]

/-- The Tseitin clauses of a gate of canonical arity hold exactly when the
gate does. -/
theorem tseitin_iff (T : Nat → Bool) (g : LogicGate) (hcan : g.canonical = true)
    (hne : ∀ l ∈ g.output :: g.inputs, l ≠ 0) :
    (∀ gc ∈ g.cnf, clauseTrue T gc = true) ↔ gateHolds T g = true := by
  obtain ⟨t, y, inputs⟩ := g
  have hy : litTrue T (-y) = !litTrue T y := litTrue_neg T y (hne y (by simp))
  cases t
  case not_gate =>
    match inputs, hcan, hne with
    | [x], _, hne =>
      have hx := litTrue_neg T x (hne x (by simp))
      simp only [LogicGate.cnf, gateHolds, GateType.eval, clauseTrue, List.mem_cons,
        List.mem_singleton, forall_eq_or_imp, forall_eq, List.any_cons, List.any_nil, hy, hx,
        List.map, List.not_mem_nil, false_implies, implies_true, and_true, Bool.or_false]
      cases litTrue T y <;> cases litTrue T x <;> simp
  case and_gate =>
    match inputs, hcan, hne with
    | [x1, x2], _, hne =>
      have hx1 := litTrue_neg T x1 (hne x1 (by simp))
      have hx2 := litTrue_neg T x2 (hne x2 (by simp))
      simp only [LogicGate.cnf, gateHolds, GateType.eval, clauseTrue, List.mem_cons,
        List.mem_singleton, forall_eq_or_imp, forall_eq, List.any_cons, List.any_nil, hy, hx1, hx2,
        List.map, List.not_mem_nil, false_implies, implies_true, and_true, Bool.or_false]
      cases litTrue T y <;> cases litTrue T x1 <;> cases litTrue T x2 <;> simp
  case or_gate =>
    match inputs, hcan, hne with
    | [x1, x2], _, hne =>
      have hx1 := litTrue_neg T x1 (hne x1 (by simp))
      have hx2 := litTrue_neg T x2 (hne x2 (by simp))
      simp only [LogicGate.cnf, gateHolds, GateType.eval, clauseTrue, List.mem_cons,
        List.mem_singleton, forall_eq_or_imp, forall_eq, List.any_cons, List.any_nil, hy, hx1, hx2,
        List.map, List.not_mem_nil, false_implies, implies_true, and_true, Bool.or_false]
      cases litTrue T y <;> cases litTrue T x1 <;> cases litTrue T x2 <;> simp
  case xor_gate =>
    match inputs, hcan, hne with
    | [x1, x2], _, hne =>
      have hx1 := litTrue_neg T x1 (hne x1 (by simp))
      have hx2 := litTrue_neg T x2 (hne x2 (by simp))
      simp only [LogicGate.cnf, gateHolds, GateType.eval, clauseTrue, List.mem_cons,
        List.mem_singleton, forall_eq_or_imp, forall_eq, List.any_cons, List.any_nil, hy, hx1, hx2,
        List.map, List.not_mem_nil, false_implies, implies_true, and_true, Bool.or_false]
      cases litTrue T y <;> cases litTrue T x1 <;> cases litTrue T x2 <;> simp
  case maj3_gate =>
    match inputs, hcan, hne with
    | [x1, x2, x3], _, hne =>
      have hx1 := litTrue_neg T x1 (hne x1 (by simp))
      have hx2 := litTrue_neg T x2 (hne x2 (by simp))
      have hx3 := litTrue_neg T x3 (hne x3 (by simp))
      simp only [LogicGate.cnf, gateHolds, GateType.eval, clauseTrue, List.mem_cons,
        List.mem_singleton, forall_eq_or_imp, forall_eq, List.any_cons, List.any_nil, hy, hx1, hx2,
        hx3, List.map, List.not_mem_nil, false_implies, implies_true, and_true, Bool.or_false]
      cases litTrue T y <;> cases litTrue T x1 <;> cases litTrue T x2 <;> cases litTrue T x3 <;>
        simp

/-- Every literal of a Tseitin clause is a literal of the gate or its negation. -/
theorem cnf_literals (g : LogicGate) (gc : List Int) (hgc : gc ∈ g.cnf) (l : Int) (hl : l ∈ gc) :
    l ∈ g.output :: g.inputs ∨ -l ∈ g.output :: g.inputs := by
  obtain ⟨t, y, inputs⟩ := g
  unfold LogicGate.cnf at hgc
  split at hgc
  all_goals
    rename_i h1 h2
    simp only at h1 h2
  case h_6 => simp at hgc
  all_goals
    subst h2
    simp only [List.mem_cons, List.mem_singleton, List.not_mem_nil, or_false] at hgc
  case h_1 =>
    rcases hgc with rfl | rfl <;>
      simp only [List.mem_cons, List.mem_singleton, List.not_mem_nil, or_false] at hl <;>
      rcases hl with rfl | rfl <;> simp
  case h_2 =>
    rcases hgc with rfl | rfl | rfl <;>
      simp only [List.mem_cons, List.mem_singleton, List.not_mem_nil, or_false] at hl <;>
      rcases hl with rfl | rfl | rfl <;> simp
  case h_3 =>
    rcases hgc with rfl | rfl | rfl <;>
      simp only [List.mem_cons, List.mem_singleton, List.not_mem_nil, or_false] at hl <;>
      rcases hl with rfl | rfl | rfl <;> simp
  case h_4 =>
    rcases hgc with rfl | rfl | rfl | rfl <;>
      simp only [List.mem_cons, List.mem_singleton, List.not_mem_nil, or_false] at hl <;>
      rcases hl with rfl | rfl | rfl <;> simp
  case h_5 =>
    rcases hgc with rfl | rfl | rfl | rfl | rfl | rfl <;>
      simp only [List.mem_cons, List.mem_singleton, List.not_mem_nil, or_false] at hl <;>
      rcases hl with rfl | rfl | rfl <;> simp

/-- C8. For gates of canonical arity (NOT one input, AND / OR / XOR two, MAJ3
three) and a consistent assignment with an entry for each of their variables,
`CNF(gates).numSatClauses(assignment)` returns `num_clauses` if and only if
every gate holds under the assignment (output = kind(inputs)). -/
theorem C8_numSat_iff_gates (gates : List LogicGate) (A : List (Int × Bool))
    (hcan : ∀ g ∈ gates, g.canonical = true) (hc : Consistent A) (hd : DefinedOn A gates) :
    (CNF.ofGates gates).numSatClauses A = Except.ok (CNF.ofGates gates).num_clauses
      ↔ ∀ g ∈ gates, gateHolds (valuation A) g = true := by
  have hboth : ∀ g ∈ gates, ∀ l ∈ g.output :: g.inputs,
      l ≠ 0 ∧ ((A.lookup l).isSome = true ∨ (A.lookup (-l)).isSome = true)
        ∧ ((A.lookup (-l)).isSome = true ∨ (A.lookup (- -l)).isSome = true) := by
    intro g hg l hl
    have h := hd g hg l hl
    refine ⟨(litVal_eq A hc l h).1, h, ?_⟩
    rw [neg_neg]; exact h.symm
  have hcls : (CNF.ofGates gates).clauses = (gates.map (fun g => g.cnf.map setOfList)).flatten := by
    simp [CNF.ofGates, addGates_snd]
  have hdef : ∀ cl ∈ (CNF.ofGates gates).clauses, ∀ l ∈ cl,
      (A.lookup l).isSome = true ∨ (A.lookup (-l)).isSome = true := by
    intro cl hcl l hl
    rw [hcls] at hcl
    simp only [List.mem_flatten, List.mem_map, exists_exists_and_eq_and] at hcl
    obtain ⟨g, hg, gc, hgc, rfl⟩ := hcl
    rw [mem_setOfList] at hl
    rcases cnf_literals g gc hgc l hl with h | h
    · exact (hboth g hg l h).2.1
    · have := (hboth g hg (-l) h).2.2
      rwa [neg_neg] at this
  unfold CNF.numSatClauses
  rw [numSatLoop_eq A hc _ hdef 0]
  have hnum : (CNF.ofGates gates).num_clauses = (CNF.ofGates gates).clauses.length := rfl
  rw [hnum, Except.ok.injEq, Nat.zero_add, filter_length_eq_iff, hcls]
  constructor
  · intro h g hg
    refine (tseitin_iff (valuation A) g (hcan g hg) (fun l hl => (hboth g hg l hl).1)).mp ?_
    intro gc hgc
    rw [← clauseTrue_setOfList]
    exact h _ (by
      simp only [List.mem_flatten, List.mem_map, exists_exists_and_eq_and]
      exact ⟨g, hg, gc, hgc, rfl⟩)
  · intro h cl hcl
    simp only [List.mem_flatten, List.mem_map, exists_exists_and_eq_and] at hcl
    obtain ⟨g, hg, gc, hgc, rfl⟩ := hcl
    rw [clauseTrue_setOfList]
    exact (tseitin_iff (valuation A) g (hcan g hg) (fun l hl => (hboth g hg l hl).1)).mpr
      (h g hg) gc hgc

/-- Witness of C8 at `3 = AND(1, -2)`, `5 = MAJ3(1, 2, 4)`. -/
theorem C8_numSat_iff_gates_witness :
    (CNF.ofGates [{ t := GateType.and_gate, output := 3, inputs := [1, -2] },
                    { t := GateType.maj3_gate, output := 5, inputs := [1, 2, 4] }]).numSatClauses
        [(1, true), (2, false), (3, true), (-4, false), (5, true)]
      = Except.ok (CNF.ofGates [{ t := GateType.and_gate, output := 3, inputs := [1, -2] },
                    { t := GateType.maj3_gate, output := 5, inputs := [1, 2, 4] }]).num_clauses
      ↔ ∀ g ∈ [({ t := GateType.and_gate, output := 3, inputs := [1, -2] } : LogicGate),
                { t := GateType.maj3_gate, output := 5, inputs := [1, 2, 4] }],
          gateHolds (valuation [(1, true), (2, false), (3, true), (-4, false), (5, true)]) g = true :=
  C8_numSat_iff_gates _ _ (by decide) (by decide) (by decide)

/-! ### Ripple-carry addition on constants -/

/-- Numeric value of a bit. -/
theorem Sym.bind_ok {α β : Type} (m : Sym α) (f : α → Sym β) (L L1 : Ledger) (a : α)
    (h : m L = Except.ok (a, L1)) : (m >>= f) L = f a L1 := by
  show Sym.bind m f L = f a L1
  simp [Sym.bind, h]

theorem Bit.not_const (a : Bit) (L : Ledger) (ha : a.is_rv = false) :
    ∃ r, Bit.not a L = Except.ok (r, L) ∧ r.is_rv = false ∧ r.val = !a.val := by
  refine ⟨Bit.const (!a.val), ?_, rfl, rfl⟩
  simp [Bit.not, ha, Sym.ret]

theorem Bit.xor_const (a b : Bit) (L : Ledger) (ha : a.is_rv = false) (hb : b.is_rv = false) :
    ∃ r, Bit.xor a b L = Except.ok (r, L) ∧ r.is_rv = false ∧ r.val = Bool.xor a.val b.val := by
  unfold Bit.xor
  cases hv : a.val
  · exact ⟨b, by simp [ha, hv, Sym.ret], hb, by simp⟩
  · obtain ⟨r, h1, h2, h3⟩ := Bit.not_const b L hb
    exact ⟨r, by simp [ha, hv, h1], h2, by simp [h3]⟩

theorem Bit.and_const (a b : Bit) (L : Ledger) (ha : a.is_rv = false) (hb : b.is_rv = false) :
    ∃ r, Bit.and a b L = Except.ok (r, L) ∧ r.is_rv = false ∧ r.val = (a.val && b.val) := by
  unfold Bit.and
  cases hv : a.val
  · exact ⟨Bit.const false, by simp [ha, hv, Sym.ret], rfl, by simp [Bit.const]⟩
  · cases hw : b.val
    · exact ⟨Bit.const false, by simp [ha, hb, hv, hw, Sym.ret], rfl, by simp [Bit.const]⟩
    · exact ⟨b, by simp [ha, hb, hv, hw, Sym.ret], hb, by simp [hw]⟩

theorem Bit.or_const (a b : Bit) (L : Ledger) (ha : a.is_rv = false) (hb : b.is_rv = false) :
    ∃ r, Bit.or a b L = Except.ok (r, L) ∧ r.is_rv = false ∧ r.val = (a.val || b.val) := by
  unfold Bit.or
  cases hv : a.val
  · cases hw : b.val
    · exact ⟨b, by simp [ha, hb, hv, hw, Sym.ret], hb, by simp [hw]⟩
    · exact ⟨Bit.const true, by simp [ha, hb, hv, hw, Sym.ret], rfl, by simp [Bit.const]⟩
  · exact ⟨Bit.const true, by simp [ha, hv, Sym.ret], rfl, by simp [Bit.const]⟩

theorem Bit.add3_const (a b c : Bit) (L : Ledger) (ha : a.is_rv = false) (hb : b.is_rv = false)
    (hc : c.is_rv = false) :
    ∃ s co, Bit.add3 a b c L = Except.ok ((s, co), L) ∧ s.is_rv = false ∧ co.is_rv = false
      ∧ s.val = Bool.xor (Bool.xor a.val b.val) c.val
      ∧ co.val = ((a.val && b.val) || (c.val && Bool.xor a.val b.val)) := by
  obtain ⟨axb, h1, h1r, h1v⟩ := Bit.xor_const a b L ha hb
  obtain ⟨sum, h2, h2r, h2v⟩ := Bit.xor_const axb c L h1r hc
  obtain ⟨ab, h3, h3r, h3v⟩ := Bit.and_const a b L ha hb
  obtain ⟨cx, h4, h4r, h4v⟩ := Bit.and_const c axb L hc h1r
  obtain ⟨co, h5, h5r, h5v⟩ := Bit.or_const ab cx L h3r h4r
  refine ⟨sum, co, ?_, h2r, h5r, by rw [h2v, h1v], by rw [h5v, h3v, h4v, h1v]⟩
  unfold Bit.add3
  rw [Sym.bind_ok _ _ L L axb h1, Sym.bind_ok _ _ L L sum h2, Sym.bind_ok _ _ L L ab h3,
    Sym.bind_ok _ _ L L cx h4, Sym.bind_ok _ _ L L co h5]
  rfl

theorem bitsVal_lt (bs : List Bit) : SymBitVec.bitsVal bs < 2 ^ bs.length := by
  induction bs with
  | nil => simp [SymBitVec.bitsVal]
  | cons b bs ih =>
    simp only [SymBitVec.bitsVal, List.length_cons, pow_succ]
    split <;> omega

theorem mod_two_mul_aux (s q m : Nat) (hs : s < 2) :
    (s + 2 * q) % (2 * m) = s + 2 * (q % m) := by
  have h1 : (s + 2 * q) % 2 = s := by omega
  have h2 : (s + 2 * q) / 2 = q := by omega
  rw [Nat.mod_mul, h1, h2]

theorem ripple_arith (x y n : Nat) (av bv cv : Bool) :
    (if Bool.xor (Bool.xor av bv) cv = true then 1 else 0)
        + 2 * ((x + y + (if ((av && bv) || (cv && Bool.xor av bv)) = true then 1 else 0)) % 2 ^ n)
      = ((if av = true then 1 else 0) + 2 * x + ((if bv = true then 1 else 0) + 2 * y)
          + (if cv = true then 1 else 0)) % 2 ^ (n + 1) := by
  have hs : (if Bool.xor (Bool.xor av bv) cv = true then 1 else 0)
      = ((if av = true then 1 else 0) + (if bv = true then 1 else 0)
          + (if cv = true then 1 else 0)) % 2 := by
    cases av <;> cases bv <;> cases cv <;> rfl
  have hc : (if ((av && bv) || (cv && Bool.xor av bv)) = true then 1 else 0)
      = ((if av = true then 1 else 0) + (if bv = true then 1 else 0)
          + (if cv = true then 1 else 0)) / 2 := by
    cases av <;> cases bv <;> cases cv <;> rfl
  rw [hs, hc, pow_succ, Nat.mul_comm (2 ^ n) 2]
  generalize (if av = true then 1 else 0) = A
  generalize (if bv = true then 1 else 0) = B
  generalize (if cv = true then 1 else 0) = C
  rw [show A + 2 * x + (B + 2 * y) + C = (A + B + C) % 2 + 2 * (x + y + (A + B + C) / 2) by omega,
    mod_two_mul_aux _ _ _ (Nat.mod_lt _ (by norm_num))]

theorem rippleAdd_const (as : List Bit) :
    ∀ (bs : List Bit) (c : Bit) (L : Ledger), as.length = bs.length →
      (∀ x ∈ as, x.is_rv = false) → (∀ x ∈ bs, x.is_rv = false) → c.is_rv = false →
      ∃ rs, SymBitVec.rippleAdd as bs c L = Except.ok (rs, L) ∧ rs.length = as.length
        ∧ (∀ x ∈ rs, x.is_rv = false)
        ∧ SymBitVec.bitsVal rs =
            (SymBitVec.bitsVal as + SymBitVec.bitsVal bs + (if c.val then 1 else 0))
              % 2 ^ as.length := by
  induction as with
  | nil =>
    intro bs c L hlen _ _ _
    have : bs = [] := List.length_eq_zero.mp hlen.symm
    subst this
    exact ⟨[], rfl, rfl, by simp, by simp [SymBitVec.bitsVal, Nat.mod_one]⟩
  | cons a as ih =>
    intro bs c L hlen ha hb hc
    cases bs with
    | nil => simp at hlen
    | cons b bs =>
      have hlen1 : as.length = bs.length := by simpa using hlen
      obtain ⟨s, co, h1, hs, hco, hsv, hcov⟩ :=
        Bit.add3_const a b c L (ha a (by simp)) (hb b (by simp)) hc
      obtain ⟨rs, h2, hl, hr, hv⟩ := ih bs co L hlen1
        (fun x hx => ha x (by simp [hx])) (fun x hx => hb x (by simp [hx])) hco
      refine ⟨s :: rs, ?_, by simp [hl], ?_, ?_⟩
      · unfold SymBitVec.rippleAdd
        rw [Sym.bind_ok _ _ L L (s, co) h1]
        simp only []
        rw [Sym.bind_ok _ _ L L rs h2]
        rfl
      · intro x hx
        rcases List.mem_cons.mp hx with h | h
        · rw [h]; exact hs
        · exact hr x h
      · simp only [SymBitVec.bitsVal, List.length_cons, hv, hsv, hcov]
        exact ripple_arith _ _ _ a.val b.val c.val

/-- C9 (amended). For every width `w ≤ 64` and all constant vectors `a`, `b`, `c`
of width `w`, `a + b` completes without touching the ledger, is a constant
vector of width `w` with `intVal = (a.intVal + b.intVal) mod 2^w`, and
`(a + b) + c` has `intVal = (a.intVal + b.intVal + c.intVal) mod 2^w`. -/
theorem C9_add_mod_pow (w : Nat) (hw : w ≤ 64) (a b c : SymBitVec) (L : Ledger)
    (ha : a.size = w) (hb : b.size = w) (hc : c.size = w)
    (hac : a.isConst = true) (hbc : b.isConst = true) (hcc : c.isConst = true) :
    ∃ ab abc, SymBitVec.add a b L = Except.ok (ab, L)
      ∧ ab.size = w ∧ ab.isConst = true
      ∧ ab.intVal = (a.intVal + b.intVal) % 2 ^ w
      ∧ SymBitVec.add ab c L = Except.ok (abc, L)
      ∧ abc.size = w ∧ abc.isConst = true
      ∧ abc.intVal = (a.intVal + b.intVal + c.intVal) % 2 ^ w := by
  have hpow : 2 ^ w ≤ 2 ^ 64 := Nat.pow_le_pow_right (by norm_num) hw
  have small : ∀ v : SymBitVec, v.size = w → v.intVal = SymBitVec.bitsVal v.bits_ := by
    intro v hv
    have := bitsVal_lt v.bits_
    rw [SymBitVec.size] at hv
    rw [hv] at this
    exact Nat.mod_eq_of_lt (lt_of_lt_of_le this hpow)
  have cst : ∀ v : SymBitVec, v.isConst = true → ∀ x ∈ v.bits_, x.is_rv = false := by
    intro v hv x hx
    simpa using (List.all_eq_true.mp hv) x hx
  obtain ⟨r1, h1, hl1, hr1, hv1⟩ := rippleAdd_const a.bits_ b.bits_ (Bit.const false) L
    (by rw [SymBitVec.size] at ha hb; omega) (cst a hac) (cst b hbc) rfl
  have hsz1 : (SymBitVec.mk r1).size = w := by rw [SymBitVec.size, hl1]; exact ha
  obtain ⟨r2, h2, hl2, hr2, hv2⟩ := rippleAdd_const r1 c.bits_ (Bit.const false) L
    (by rw [SymBitVec.size] at ha hc; omega) hr1 (cst c hcc) rfl
  have hsz2 : (SymBitVec.mk r2).size = w := by rw [SymBitVec.size, hl2, hl1]; exact ha
  have hwa : a.bits_.length = w := ha
  refine ⟨⟨r1⟩, ⟨r2⟩, ?_, hsz1, ?_, ?_, ?_, hsz2, ?_, ?_⟩
  · unfold SymBitVec.add
    rw [Sym.bind_ok _ _ L L r1 h1]; rfl
  · simpa [SymBitVec.isConst, List.all_eq_true] using hr1
  · rw [small _ hsz1, small a ha, small b hb, hv1, hwa]; simp [Bit.const]
  · unfold SymBitVec.add
    rw [Sym.bind_ok _ _ L L r2 h2]; rfl
  · simpa [SymBitVec.isConst, List.all_eq_true] using hr2
  · rw [small _ hsz2, small a ha, small b hb, small c hc, hv2, hv1, hl1, hwa]
    simp [Bit.const]

/-- Witness of C9 (amended) at the 32-bit constants `0xDEADBEEF`, `0x12345678`, `7`. -/
theorem C9_add_mod_pow_witness :
    ∃ ab abc, SymBitVec.add (SymBitVec.ofUInt64 0xDEADBEEF 32) (SymBitVec.ofUInt64 0x12345678 32)
          Ledger.fresh = Except.ok (ab, Ledger.fresh)
      ∧ ab.size = 32 ∧ ab.isConst = true
      ∧ ab.intVal = ((SymBitVec.ofUInt64 0xDEADBEEF 32).intVal
          + (SymBitVec.ofUInt64 0x12345678 32).intVal) % 2 ^ 32
      ∧ SymBitVec.add ab (SymBitVec.ofUInt64 7 32) Ledger.fresh = Except.ok (abc, Ledger.fresh)
      ∧ abc.size = 32 ∧ abc.isConst = true
      ∧ abc.intVal = ((SymBitVec.ofUInt64 0xDEADBEEF 32).intVal
          + (SymBitVec.ofUInt64 0x12345678 32).intVal + (SymBitVec.ofUInt64 7 32).intVal) % 2 ^ 32 :=
  C9_add_mod_pow 32 (by decide) _ _ _ Ledger.fresh (by decide) (by decide) (by decide)
    (by decide) (by decide) (by decide)

set_option maxRecDepth 100000 in
/-- C9 as stated fails at width 65: for the constant vectors `a = b = 2^63` of 65
bits, `(a + b).intVal()` is `0` (the sum `2^64` does not fit the `uint64_t`
result), while `(a.intVal() + b.intVal()) mod 2^65` is `2^64`. -/
theorem C9_fails_at_width_65 :
    (SymBitVec.constant (2 ^ 63) 65).size = 65
      ∧ (SymBitVec.constant (2 ^ 63) 65).isConst = true
      ∧ (SymBitVec.add (SymBitVec.constant (2 ^ 63) 65) (SymBitVec.constant (2 ^ 63) 65)
            Ledger.fresh).toOption.map (fun r => r.1.intVal) = some 0
      ∧ ((SymBitVec.constant (2 ^ 63) 65).intVal + (SymBitVec.constant (2 ^ 63) 65).intVal)
          % 2 ^ 65 = 2 ^ 64 := by
  decide!

/-! ### Concatenation and extraction -/

/-- C10. `a.concat(b)` has length `a.size() + b.size()`, holds the bits of `a` at
the indices below `a.size()` and those of `b` above, and
`a.concat(b).extract(0, a.size())` is `a`, bit for bit. -/
theorem C10_concat_extract (a b : SymBitVec) :
    (a.concat b).size = a.size + b.size
      ∧ (∀ i, (a.concat b).bits_[i]? =
          if i < a.size then a.bits_[i]? else b.bits_[i - a.size]?)
      ∧ (a.concat b).extract 0 a.size = a := by
  refine ⟨?_, ?_, ?_⟩
  · simp [SymBitVec.concat, SymBitVec.size]
  · intro i
    simp only [SymBitVec.concat, SymBitVec.size]
    split
    · next h => exact List.getElem?_append_left h
    · next h => exact List.getElem?_append_right (Nat.le_of_not_lt h)
  · cases a with
    | mk as => simp [SymBitVec.concat, SymBitVec.extract, SymBitVec.size]

/-! ### Computations that always return -/

theorem Sym.Ok.ret {α : Type} {P : α → Prop} {a : α} (h : P a) : Sym.Ok (pure a : Sym α) P :=
  fun L => ⟨a, L, rfl, h⟩

theorem Sym.Ok.bind {α β : Type} {m : Sym α} {f : α → Sym β} {P : α → Prop} {Q : β → Prop}
    (hm : Sym.Ok m P) (hf : ∀ a, P a → Sym.Ok (f a) Q) : Sym.Ok (m >>= f) Q := by
  intro L
  obtain ⟨a, L1, h1, hP⟩ := hm L
  obtain ⟨b, L2, h2, hQ⟩ := hf a hP L1
  refine ⟨b, L2, ?_, hQ⟩
  show Sym.bind m f L = _
  simp [Sym.bind, h1, h2]

theorem Sym.Ok.mono {α : Type} {m : Sym α} {P Q : α → Prop} (hm : Sym.Ok m P)
    (h : ∀ a, P a → Q a) : Sym.Ok m Q := by
  intro L
  obtain ⟨a, L1, h1, hP⟩ := hm L
  exact ⟨a, L1, h1, h a hP⟩

theorem readAt_ok {α : Type} {xs : List α} {i : Nat} {P : α → Prop} (hP : ∀ v ∈ xs, P v)
    (hi : i < xs.length) : Sym.Ok (readAt xs i) P := by
  intro L
  refine ⟨xs[i], L, ?_, hP _ (List.getElem_mem hi)⟩
  simp [readAt, List.getElem?_eq_getElem hi]

theorem readAt_ok_eq {α : Type} {xs : List α} {i : Nat} (hi : i < xs.length) :
    Sym.Ok (readAt xs i) (fun v => xs[i]? = some v) := by
  intro L
  refine ⟨xs[i], L, ?_, List.getElem?_eq_getElem hi⟩
  simp [readAt, List.getElem?_eq_getElem hi]

theorem writeAt_ok {α : Type} {xs : List α} {i : Nat} (v : α) (hi : i < xs.length) :
    Sym.Ok (writeAt xs i v) (fun r => r = xs.set i v) := by
  intro L
  exact ⟨xs.set i v, L, by simp [writeAt, hi], rfl⟩

theorem assert_ok {c : Bool} (h : c = true) : Sym.Ok (assert c) (fun _ => True) := by
  intro L
  exact ⟨(), L, by simp [assert, h], trivial⟩

theorem Bit.emit_ok (t : GateType) (v : Bool) (inputs : List Int) :
    Sym.Ok (Bit.emit t v inputs) (fun _ => True) := by
  intro L
  simp [Bit.emit, Bit.create]

theorem Bit.not_ok (a : Bit) : Sym.Ok (Bit.not a) (fun _ => True) := by
  unfold Bit.not
  split
  · exact Bit.emit_ok _ _ _
  · exact fun L => ⟨_, L, rfl, trivial⟩

theorem Bit.and_ok (a b : Bit) : Sym.Ok (Bit.and a b) (fun _ => True) := by
  unfold Bit.and
  repeat' split
  all_goals first | exact Bit.emit_ok _ _ _ | exact fun L => ⟨_, L, rfl, trivial⟩

theorem Bit.or_ok (a b : Bit) : Sym.Ok (Bit.or a b) (fun _ => True) := by
  unfold Bit.or
  repeat' split
  all_goals first | exact Bit.emit_ok _ _ _ | exact fun L => ⟨_, L, rfl, trivial⟩

theorem Bit.xor_ok (a b : Bit) : Sym.Ok (Bit.xor a b) (fun _ => True) := by
  unfold Bit.xor
  repeat' split
  all_goals first
    | exact Bit.emit_ok _ _ _ | exact Bit.not_ok _ | exact fun L => ⟨_, L, rfl, trivial⟩

theorem Bit.add3_ok (a b c : Bit) : Sym.Ok (Bit.add3 a b c) (fun _ => True) := by
  unfold Bit.add3
  refine Sym.Ok.bind (Bit.xor_ok _ _) (fun _ _ => ?_)
  refine Sym.Ok.bind (Bit.xor_ok _ _) (fun _ _ => ?_)
  refine Sym.Ok.bind (Bit.and_ok _ _) (fun _ _ => ?_)
  refine Sym.Ok.bind (Bit.and_ok _ _) (fun _ _ => ?_)
  refine Sym.Ok.bind (Bit.or_ok _ _) (fun _ _ => ?_)
  exact Sym.Ok.ret trivial

theorem mapBits_ok (f : Bit → Sym Bit) (hf : ∀ b, Sym.Ok (f b) (fun _ => True)) (bs : List Bit) :
    Sym.Ok (SymBitVec.mapBits f bs) (fun r => r.length = bs.length) := by
  induction bs with
  | nil => exact fun L => ⟨[], L, rfl, rfl⟩
  | cons b bs ih =>
    unfold SymBitVec.mapBits
    refine Sym.Ok.bind (hf b) (fun _ _ => ?_)
    refine Sym.Ok.bind ih (fun rs hrs => ?_)
    exact Sym.Ok.ret (by simp [hrs])

theorem zipBits_ok (f : Bit → Bit → Sym Bit) (hf : ∀ a b, Sym.Ok (f a b) (fun _ => True))
    (as : List Bit) : ∀ (bs : List Bit), as.length = bs.length →
      Sym.Ok (SymBitVec.zipBits f as bs) (fun r => r.length = as.length) := by
  induction as with
  | nil =>
    intro bs h
    have : bs = [] := List.length_eq_zero.mp h.symm
    subst this
    exact fun L => ⟨[], L, rfl, rfl⟩
  | cons a as ih =>
    intro bs h
    cases bs with
    | nil => simp at h
    | cons b bs =>
      unfold SymBitVec.zipBits
      refine Sym.Ok.bind (hf a b) (fun _ _ => ?_)
      refine Sym.Ok.bind (ih bs (by simpa using h)) (fun rs hrs => ?_)
      exact Sym.Ok.ret (by simp [hrs])

theorem rippleAdd_ok (as : List Bit) : ∀ (bs : List Bit) (c : Bit), as.length = bs.length →
    Sym.Ok (SymBitVec.rippleAdd as bs c) (fun r => r.length = as.length) := by
  induction as with
  | nil =>
    intro bs c h
    have : bs = [] := List.length_eq_zero.mp h.symm
    subst this
    exact fun L => ⟨[], L, rfl, rfl⟩
  | cons a as ih =>
    intro bs c h
    cases bs with
    | nil => simp at h
    | cons b bs =>
      unfold SymBitVec.rippleAdd
      refine Sym.Ok.bind (Bit.add3_ok a b c) (fun sc _ => ?_)
      obtain ⟨s, co⟩ := sc
      refine Sym.Ok.bind (ih bs co (by simpa using h)) (fun rs hrs => ?_)
      exact Sym.Ok.ret (by simp [hrs])

theorem SymBitVec.bv_not_ok (a : SymBitVec) :
    Sym.Ok (SymBitVec.not a) (fun r => r.size = a.size) := by
  unfold SymBitVec.not
  refine Sym.Ok.bind (mapBits_ok _ Bit.not_ok _) (fun r hr => ?_)
  exact Sym.Ok.ret hr

theorem SymBitVec.bv_and_ok (a b : SymBitVec) (h : a.size = b.size) :
    Sym.Ok (SymBitVec.and a b) (fun r => r.size = a.size) := by
  unfold SymBitVec.and
  refine Sym.Ok.bind (zipBits_ok _ Bit.and_ok _ _ h) (fun r hr => ?_)
  exact Sym.Ok.ret hr

theorem SymBitVec.bv_or_ok (a b : SymBitVec) (h : a.size = b.size) :
    Sym.Ok (SymBitVec.or a b) (fun r => r.size = a.size) := by
  unfold SymBitVec.or
  refine Sym.Ok.bind (zipBits_ok _ Bit.or_ok _ _ h) (fun r hr => ?_)
  exact Sym.Ok.ret hr

theorem SymBitVec.bv_xor_ok (a b : SymBitVec) (h : a.size = b.size) :
    Sym.Ok (SymBitVec.xor a b) (fun r => r.size = a.size) := by
  unfold SymBitVec.xor
  refine Sym.Ok.bind (zipBits_ok _ Bit.xor_ok _ _ h) (fun r hr => ?_)
  exact Sym.Ok.ret hr

theorem SymBitVec.add_ok (a b : SymBitVec) (h : a.size = b.size) :
    Sym.Ok (SymBitVec.add a b) (fun r => r.size = a.size) := by
  unfold SymBitVec.add
  refine Sym.Ok.bind (rippleAdd_ok _ _ _ h) (fun r hr => ?_)
  exact Sym.Ok.ret hr

theorem SymBitVec.size_resize (a : SymBitVec) (n : Nat) : (a.resize n).size = n := by
  simp [SymBitVec.resize, SymBitVec.size]; omega

theorem SymBitVec.size_shl (a : SymBitVec) (n : Nat) : (a.shl n).size = a.size := by
  simp [SymBitVec.shl, SymBitVec.size]

theorem SymBitVec.size_shr (a : SymBitVec) (n : Nat) : (a.shr n).size = a.size := by
  simp [SymBitVec.shr, SymBitVec.size]; omega

theorem SymBitVec.size_extract (a : SymBitVec) (lb ub : Nat) :
    (a.extract lb ub).size = min (ub - lb) (a.size - lb) := by
  simp [SymBitVec.extract, SymBitVec.size]

theorem SymBitVec.size_ofUInt64 (n sz : Nat) : (SymBitVec.ofUInt64 n sz).size = sz := by
  simp [SymBitVec.ofUInt64, SymBitVec.size]

/-! ### The MD5 functions always return on 32-bit words -/

theorem MD5.F_ok (x y z : SymBitVec) (hx : x.size = 32) (hy : y.size = 32) (hz : z.size = 32) :
    Sym.Ok (MD5.F x y z) (fun r => r.size = 32) := by
  unfold MD5.F
  refine Sym.Ok.bind (SymBitVec.bv_and_ok x y (by omega)) (fun xy hxy => ?_)
  refine Sym.Ok.bind (SymBitVec.bv_not_ok x) (fun nx hnx => ?_)
  refine Sym.Ok.bind (SymBitVec.bv_and_ok nx z (by omega)) (fun nxz hnxz => ?_)
  exact (SymBitVec.bv_or_ok xy nxz (by omega)).mono (fun r hr => by omega)

theorem MD5.G_ok (x y z : SymBitVec) (hx : x.size = 32) (hy : y.size = 32) (hz : z.size = 32) :
    Sym.Ok (MD5.G x y z) (fun r => r.size = 32) := by
  unfold MD5.G
  refine Sym.Ok.bind (SymBitVec.bv_and_ok x z (by omega)) (fun xz hxz => ?_)
  refine Sym.Ok.bind (SymBitVec.bv_not_ok z) (fun nz hnz => ?_)
  refine Sym.Ok.bind (SymBitVec.bv_and_ok y nz (by omega)) (fun ynz hynz => ?_)
  exact (SymBitVec.bv_or_ok xz ynz (by omega)).mono (fun r hr => by omega)

theorem MD5.H_ok (x y z : SymBitVec) (hx : x.size = 32) (hy : y.size = 32) (hz : z.size = 32) :
    Sym.Ok (MD5.H x y z) (fun r => r.size = 32) := by
  unfold MD5.H
  refine Sym.Ok.bind (SymBitVec.bv_xor_ok x y (by omega)) (fun xy hxy => ?_)
  exact (SymBitVec.bv_xor_ok xy z (by omega)).mono (fun r hr => by omega)

theorem MD5.I_ok (x y z : SymBitVec) (hx : x.size = 32) (hy : y.size = 32) (hz : z.size = 32) :
    Sym.Ok (MD5.I x y z) (fun r => r.size = 32) := by
  unfold MD5.I
  refine Sym.Ok.bind (SymBitVec.bv_not_ok z) (fun nz hnz => ?_)
  refine Sym.Ok.bind (SymBitVec.bv_or_ok x nz (by omega)) (fun xnz hxnz => ?_)
  exact (SymBitVec.bv_xor_ok y xnz (by omega)).mono (fun r hr => by omega)

theorem MD5.rotateLeft_ok (x : SymBitVec) (n : Nat) :
    Sym.Ok (MD5.rotateLeft x n) (fun r => r.size = x.size) := by
  unfold MD5.rotateLeft
  exact (SymBitVec.bv_or_ok _ _ (by rw [SymBitVec.size_shl, SymBitVec.size_shr])).mono
    (fun r hr => by rw [hr, SymBitVec.size_shl])

theorem MD5.FF_ok (a b c d x : SymBitVec) (s : Nat) (ac : SymBitVec) (ha : a.size = 32)
    (hb : b.size = 32) (hc : c.size = 32) (hd : d.size = 32) (hx : x.size = 32)
    (hac : ac.size = 32) : Sym.Ok (MD5.FF a b c d x s ac) (fun r => r.size = 32) := by
  unfold MD5.FF
  refine Sym.Ok.bind (MD5.F_ok b c d hb hc hd) (fun f hf => ?_)
  refine Sym.Ok.bind (SymBitVec.add_ok a f (by omega)) (fun t1 ht1 => ?_)
  refine Sym.Ok.bind (SymBitVec.add_ok t1 x (by omega)) (fun t2 ht2 => ?_)
  refine Sym.Ok.bind (SymBitVec.add_ok t2 ac (by omega)) (fun t3 ht3 => ?_)
  refine Sym.Ok.bind (MD5.rotateLeft_ok t3 s) (fun r hr => ?_)
  exact (SymBitVec.add_ok r b (by omega)).mono (fun r hr => by omega)

theorem MD5.GG_ok (a b c d x : SymBitVec) (s : Nat) (ac : SymBitVec) (ha : a.size = 32)
    (hb : b.size = 32) (hc : c.size = 32) (hd : d.size = 32) (hx : x.size = 32)
    (hac : ac.size = 32) : Sym.Ok (MD5.GG a b c d x s ac) (fun r => r.size = 32) := by
  unfold MD5.GG
  refine Sym.Ok.bind (MD5.G_ok b c d hb hc hd) (fun f hf => ?_)
  refine Sym.Ok.bind (SymBitVec.add_ok a f (by omega)) (fun t1 ht1 => ?_)
  refine Sym.Ok.bind (SymBitVec.add_ok t1 x (by omega)) (fun t2 ht2 => ?_)
  refine Sym.Ok.bind (SymBitVec.add_ok t2 ac (by omega)) (fun t3 ht3 => ?_)
  refine Sym.Ok.bind (MD5.rotateLeft_ok t3 s) (fun r hr => ?_)
  exact (SymBitVec.add_ok r b (by omega)).mono (fun r hr => by omega)

theorem MD5.HH_ok (a b c d x : SymBitVec) (s : Nat) (ac : SymBitVec) (ha : a.size = 32)
    (hb : b.size = 32) (hc : c.size = 32) (hd : d.size = 32) (hx : x.size = 32)
    (hac : ac.size = 32) : Sym.Ok (MD5.HH a b c d x s ac) (fun r => r.size = 32) := by
  unfold MD5.HH
  refine Sym.Ok.bind (MD5.H_ok b c d hb hc hd) (fun f hf => ?_)
  refine Sym.Ok.bind (SymBitVec.add_ok a f (by omega)) (fun t1 ht1 => ?_)
  refine Sym.Ok.bind (SymBitVec.add_ok t1 x (by omega)) (fun t2 ht2 => ?_)
  refine Sym.Ok.bind (SymBitVec.add_ok t2 ac (by omega)) (fun t3 ht3 => ?_)
  refine Sym.Ok.bind (MD5.rotateLeft_ok t3 s) (fun r hr => ?_)
  exact (SymBitVec.add_ok r b (by omega)).mono (fun r hr => by omega)

theorem MD5.II_ok (a b c d x : SymBitVec) (s : Nat) (ac : SymBitVec) (ha : a.size = 32)
    (hb : b.size = 32) (hc : c.size = 32) (hd : d.size = 32) (hx : x.size = 32)
    (hac : ac.size = 32) : Sym.Ok (MD5.II a b c d x s ac) (fun r => r.size = 32) := by
  unfold MD5.II
  refine Sym.Ok.bind (MD5.I_ok b c d hb hc hd) (fun f hf => ?_)
  refine Sym.Ok.bind (SymBitVec.add_ok a f (by omega)) (fun t1 ht1 => ?_)
  refine Sym.Ok.bind (SymBitVec.add_ok t1 x (by omega)) (fun t2 ht2 => ?_)
  refine Sym.Ok.bind (SymBitVec.add_ok t2 ac (by omega)) (fun t3 ht3 => ?_)
  refine Sym.Ok.bind (MD5.rotateLeft_ok t3 s) (fun r hr => ?_)
  exact (SymBitVec.add_ok r b (by omega)).mono (fun r hr => by omega)

/-- Result of a round: four 32-bit words and the index advanced by 16. -/
theorem MD5.transformRound1_ok (m : MD5) (x : List SymBitVec) (a b c d : SymBitVec) (i : Nat)
    (hx : x.length = 16) (hxs : ∀ v ∈ x, v.size = 32) (hk : m.constants_.length = 64)
    (hks : ∀ v ∈ m.constants_, v.size = 32) (ha : a.size = 32) (hb : b.size = 32)
    (hc : c.size = 32) (hd : d.size = 32) (hi : i + 16 ≤ 64) :
    Sym.Ok (MD5.transformRound1 m x a b c d i) (fun r => r.1.size = 32 ∧ r.2.1.size = 32
      ∧ r.2.2.1.size = 32 ∧ r.2.2.2.1.size = 32 ∧ r.2.2.2.2 = i + 16) := by
  unfold MD5.transformRound1
  repeat
    first
    | refine Sym.Ok.bind (readAt_ok hxs (by rw [hx]; omega)) (fun _ _ => ?_)
    | refine Sym.Ok.bind (readAt_ok hks (by rw [hk]; omega)) (fun _ _ => ?_)
    | refine Sym.Ok.bind (MD5.FF_ok _ _ _ _ _ _ _ (by assumption) (by assumption)
        (by assumption) (by assumption) (by assumption) (by assumption)) (fun _ _ => ?_)
  exact Sym.Ok.ret ⟨by assumption, by assumption, by assumption, by assumption, rfl⟩

theorem MD5.transformRound2_ok (m : MD5) (x : List SymBitVec) (a b c d : SymBitVec) (i : Nat)
    (hx : x.length = 16) (hxs : ∀ v ∈ x, v.size = 32) (hk : m.constants_.length = 64)
    (hks : ∀ v ∈ m.constants_, v.size = 32) (ha : a.size = 32) (hb : b.size = 32)
    (hc : c.size = 32) (hd : d.size = 32) (hi : i + 16 ≤ 64) :
    Sym.Ok (MD5.transformRound2 m x a b c d i) (fun r => r.1.size = 32 ∧ r.2.1.size = 32
      ∧ r.2.2.1.size = 32 ∧ r.2.2.2.1.size = 32 ∧ r.2.2.2.2 = i + 16) := by
  unfold MD5.transformRound2
  repeat
    first
    | refine Sym.Ok.bind (readAt_ok hxs (by rw [hx]; omega)) (fun _ _ => ?_)
    | refine Sym.Ok.bind (readAt_ok hks (by rw [hk]; omega)) (fun _ _ => ?_)
    | refine Sym.Ok.bind (MD5.GG_ok _ _ _ _ _ _ _ (by assumption) (by assumption)
        (by assumption) (by assumption) (by assumption) (by assumption)) (fun _ _ => ?_)
  exact Sym.Ok.ret ⟨by assumption, by assumption, by assumption, by assumption, rfl⟩

theorem MD5.transformRound3_ok (m : MD5) (x : List SymBitVec) (a b c d : SymBitVec) (i : Nat)
    (hx : x.length = 16) (hxs : ∀ v ∈ x, v.size = 32) (hk : m.constants_.length = 64)
    (hks : ∀ v ∈ m.constants_, v.size = 32) (ha : a.size = 32) (hb : b.size = 32)
    (hc : c.size = 32) (hd : d.size = 32) (hi : i + 16 ≤ 64) :
    Sym.Ok (MD5.transformRound3 m x a b c d i) (fun r => r.1.size = 32 ∧ r.2.1.size = 32
      ∧ r.2.2.1.size = 32 ∧ r.2.2.2.1.size = 32 ∧ r.2.2.2.2 = i + 16) := by
  unfold MD5.transformRound3
  repeat
    first
    | refine Sym.Ok.bind (readAt_ok hxs (by rw [hx]; omega)) (fun _ _ => ?_)
    | refine Sym.Ok.bind (readAt_ok hks (by rw [hk]; omega)) (fun _ _ => ?_)
    | refine Sym.Ok.bind (MD5.HH_ok _ _ _ _ _ _ _ (by assumption) (by assumption)
        (by assumption) (by assumption) (by assumption) (by assumption)) (fun _ _ => ?_)
  exact Sym.Ok.ret ⟨by assumption, by assumption, by assumption, by assumption, rfl⟩

theorem MD5.transformRound4_ok (m : MD5) (x : List SymBitVec) (a b c d : SymBitVec) (i : Nat)
    (hx : x.length = 16) (hxs : ∀ v ∈ x, v.size = 32) (hk : m.constants_.length = 64)
    (hks : ∀ v ∈ m.constants_, v.size = 32) (ha : a.size = 32) (hb : b.size = 32)
    (hc : c.size = 32) (hd : d.size = 32) (hi : i + 16 ≤ 64) :
    Sym.Ok (MD5.transformRound4 m x a b c d i) (fun r => r.1.size = 32 ∧ r.2.1.size = 32
      ∧ r.2.2.1.size = 32 ∧ r.2.2.2.1.size = 32 ∧ r.2.2.2.2 = i + 16) := by
  unfold MD5.transformRound4
  repeat
    first
    | refine Sym.Ok.bind (readAt_ok hxs (by rw [hx]; omega)) (fun _ _ => ?_)
    | refine Sym.Ok.bind (readAt_ok hks (by rw [hk]; omega)) (fun _ _ => ?_)
    | refine Sym.Ok.bind (MD5.II_ok _ _ _ _ _ _ _ (by assumption) (by assumption)
        (by assumption) (by assumption) (by assumption) (by assumption)) (fun _ _ => ?_)
  exact Sym.Ok.ret ⟨by assumption, by assumption, by assumption, by assumption, rfl⟩

theorem decodeLoop_ok (input : List SymBitVec) (n : Nat) : ∀ (i : Nat) (output : List SymBitVec),
    4 * (i + n) ≤ input.length → i + n ≤ output.length →
    (∀ k v, k < i → output[k]? = some v → v.size = 32) →
    Sym.Ok (MD5.decodeLoop input n i output) (fun x => x.length = output.length
      ∧ ∀ k v, k < i + n → x[k]? = some v → v.size = 32) := by
  induction n with
  | zero =>
    intro i output _ _ hdone
    exact Sym.Ok.ret ⟨rfl, hdone⟩
  | succ n ih =>
    intro i output hin hout hdone
    unfold MD5.decodeLoop
    refine Sym.Ok.bind (readAt_ok (P := fun _ => True) (fun _ _ => trivial) (by omega))
      (fun b0 _ => ?_)
    refine Sym.Ok.bind (readAt_ok (P := fun _ => True) (fun _ _ => trivial) (by omega))
      (fun b1 _ => ?_)
    refine Sym.Ok.bind (readAt_ok (P := fun _ => True) (fun _ _ => trivial) (by omega))
      (fun b2 _ => ?_)
    refine Sym.Ok.bind (readAt_ok (P := fun _ => True) (fun _ _ => trivial) (by omega))
      (fun b3 _ => ?_)
    refine Sym.Ok.bind (SymBitVec.bv_or_ok _ _ (by
      rw [SymBitVec.size_shl, SymBitVec.size_resize, SymBitVec.size_resize])) (fun w01 h01 => ?_)
    rw [SymBitVec.size_resize] at h01
    refine Sym.Ok.bind (SymBitVec.bv_or_ok _ _ (by
      rw [SymBitVec.size_shl, SymBitVec.size_resize, h01])) (fun w012 h012 => ?_)
    refine Sym.Ok.bind (SymBitVec.bv_or_ok _ _ (by
      rw [SymBitVec.size_shl, SymBitVec.size_resize, h012, h01])) (fun w hw => ?_)
    refine Sym.Ok.bind (writeAt_ok w (by omega)) (fun out1 hout1 => ?_)
    subst hout1
    have := ih (i + 1) (output.set i w) (by omega) (by simp; omega) (by
      intro k v hk hget
      by_cases hki : i = k
      · subst hki
        rw [List.getElem?_set_self (by omega)] at hget
        rw [← Option.some.inj hget, hw, h012, h01]
      · rw [List.getElem?_set_ne hki] at hget
        exact hdone k v (by omega) hget)
    refine this.mono (fun x hx => ⟨by simpa using hx.1, fun k v hk hget => hx.2 k v (by omega) hget⟩)

theorem decode_ok (block : List SymBitVec) (hb : 64 ≤ block.length) :
    Sym.Ok (MD5.decode (List.replicate 16 SymBitVec.empty) block MD5_BLOCK_SIZE)
      (fun x => x.length = 16 ∧ ∀ v ∈ x, v.size = 32) := by
  unfold MD5.decode
  refine Sym.Ok.bind (assert_ok (by decide)) (fun _ _ => ?_)
  have := decodeLoop_ok block 16 0 (List.replicate 16 SymBitVec.empty) (by omega) (by simp)
    (by intro k v hk; omega)
  refine this.mono (fun x hx => ⟨by simpa using hx.1, ?_⟩)
  intro v hv
  obtain ⟨k, hk⟩ := List.mem_iff_getElem?.mp hv
  have hlt : k < x.length := (List.getElem?_eq_some_iff.mp hk).1
  exact hx.2 k v (by have := hx.1; simp at this; omega) hk

theorem set_initial_prop {α : Type} (xs : List α) (a : Nat) (w : α) (P : α → Prop) (hw : P w)
    (h : ∀ k v, k < a → xs[k]? = some v → P v) :
    ∀ k v, k < a + 1 → (xs.set a w)[k]? = some v → P v := by
  intro k v hk hget
  by_cases hak : a = k
  · subst hak
    by_cases hlt : a < xs.length
    · rw [List.getElem?_set_self hlt] at hget
      rw [← Option.some.inj hget]; exact hw
    · rw [List.getElem?_eq_none (by simpa using hlt)] at hget
      simp at hget
  · rw [List.getElem?_set_ne hak] at hget
    exact h k v (by omega) hget

theorem encodeLoop_ok (input : List SymBitVec) (hin : ∀ v ∈ input, v.size = 32) (n : Nat) :
    ∀ (i : Nat) (output : List SymBitVec),
    i + n ≤ input.length → 4 * (i + n) ≤ output.length →
    (∀ k v, k < 4 * i → output[k]? = some v → v.size = 8) →
    Sym.Ok (MD5.encodeLoop input n i output) (fun x => x.length = output.length
      ∧ ∀ k v, k < 4 * (i + n) → x[k]? = some v → v.size = 8) := by
  induction n with
  | zero =>
    intro i output _ _ hdone
    exact Sym.Ok.ret ⟨rfl, hdone⟩
  | succ n ih =>
    intro i output hi hout hdone
    unfold MD5.encodeLoop
    refine Sym.Ok.bind (readAt_ok hin (by omega)) (fun w hw => ?_)
    have hsz : ∀ s, ((w.shr s).extract 0 8).size = 8 := by
      intro s; rw [SymBitVec.size_extract, SymBitVec.size_shr, hw]; rfl
    have hsz0 : (w.extract 0 8).size = 8 := by rw [SymBitVec.size_extract, hw]; rfl
    refine Sym.Ok.bind (writeAt_ok _ (by omega)) (fun o1 ho1 => ?_)
    have hl1 : o1.length = output.length := by rw [ho1]; simp
    have hp1 := set_initial_prop output (4 * i) _ (fun v => v.size = 8) hsz0 hdone
    rw [← ho1] at hp1
    refine Sym.Ok.bind (writeAt_ok _ (by omega)) (fun o2 ho2 => ?_)
    have hl2 : o2.length = output.length := by rw [ho2]; simp [hl1]
    have hp2 := set_initial_prop o1 (4 * i + 1) _ (fun v => v.size = 8) (hsz 8) hp1
    rw [← ho2] at hp2
    refine Sym.Ok.bind (writeAt_ok _ (by omega)) (fun o3 ho3 => ?_)
    have hl3 : o3.length = output.length := by rw [ho3]; simp [hl2]
    have hp3 := set_initial_prop o2 (4 * i + 1 + 1) _ (fun v => v.size = 8) (hsz 16) hp2
    rw [← ho3] at hp3
    refine Sym.Ok.bind (writeAt_ok _ (by omega)) (fun o4 ho4 => ?_)
    have hl4 : o4.length = output.length := by rw [ho4]; simp [hl3]
    have hp4 := set_initial_prop o3 (4 * i + 1 + 1 + 1) _ (fun v => v.size = 8) (hsz 24) hp3
    rw [← ho4] at hp4
    have := ih (i + 1) o4 (by omega) (by omega)
      (fun k v hk hget => hp4 k v (by omega) hget)
    exact this.mono (fun x hx =>
      ⟨by rw [hx.1, hl4], fun k v hk hget => hx.2 k v (by omega) hget⟩)

/-- `encode(output, input, len)` on 32-bit words fills `output[0 .. len)` with
8-bit vectors. -/
theorem encode_ok (output input : List SymBitVec) (len : Nat) (hlen : len % 4 = 0)
    (hin : ∀ v ∈ input, v.size = 32) (hi : len / 4 ≤ input.length) (ho : output.length = len) :
    Sym.Ok (MD5.encode output input len)
      (fun x => x.length = len ∧ ∀ v ∈ x, v.size = 8) := by
  unfold MD5.encode
  refine Sym.Ok.bind (assert_ok (by simp [hlen])) (fun _ _ => ?_)
  have := encodeLoop_ok input hin (len / 4) 0 output (by omega) (by omega)
    (by intro k v hk; omega)
  refine this.mono (fun x hx => ⟨by rw [hx.1, ho], ?_⟩)
  intro v hv
  obtain ⟨k, hk⟩ := List.mem_iff_getElem?.mp hv
  have hlt : k < x.length := (List.getElem?_eq_some_iff.mp hk).1
  exact hx.2 k v (by have := hx.1; omega) hk

theorem size_of_mem_set (xs : List SymBitVec) (n : Nat) (i : Nat) (w : SymBitVec)
    (hxs : ∀ v ∈ xs, v.size = n) (hw : w.size = n) : ∀ v ∈ xs.set i w, v.size = n := by
  intro v hv
  rcases List.mem_or_eq_of_mem_set hv with h | h
  · exact hxs v h
  · rw [h]; exact hw

/-- `transform` returns on every object of the right shape and every block of
at least 64 vectors; it changes `state` only. -/
theorem MD5.transform_ok (m : MD5) (block : List SymBitVec) (hm : m.Shape)
    (hb : 64 ≤ block.length) :
    Sym.Ok (MD5.transform m block) (fun m1 => m1.Shape ∧ MD5.SameButState m m1) := by
  unfold MD5.transform
  have hs := hm.state_size
  have hl := hm.state_len
  refine Sym.Ok.bind (readAt_ok hs (by omega)) (fun a ha => ?_)
  refine Sym.Ok.bind (readAt_ok hs (by omega)) (fun b hb1 => ?_)
  refine Sym.Ok.bind (readAt_ok hs (by omega)) (fun c hc => ?_)
  refine Sym.Ok.bind (readAt_ok hs (by omega)) (fun d hd => ?_)
  refine Sym.Ok.bind (decode_ok block hb) (fun x hx => ?_)
  refine Sym.Ok.bind (MD5.transformRound1_ok m x a b c d 0 hx.1 hx.2 hm.constants_len
    hm.constants_size ha hb1 hc hd (by omega)) (fun r1 h1 => ?_)
  obtain ⟨a1, b1, c1, d1, i1⟩ := r1
  obtain ⟨ha1, hb1', hc1, hd1, hi1⟩ := h1
  simp only at ha1 hb1' hc1 hd1 hi1 ⊢
  refine Sym.Ok.bind (MD5.transformRound2_ok m x a1 b1 c1 d1 i1 hx.1 hx.2 hm.constants_len
    hm.constants_size ha1 hb1' hc1 hd1 (by omega)) (fun r2 h2 => ?_)
  obtain ⟨a2, b2, c2, d2, i2⟩ := r2
  obtain ⟨ha2, hb2, hc2, hd2, hi2⟩ := h2
  simp only at ha2 hb2 hc2 hd2 hi2 ⊢
  refine Sym.Ok.bind (MD5.transformRound3_ok m x a2 b2 c2 d2 i2 hx.1 hx.2 hm.constants_len
    hm.constants_size ha2 hb2 hc2 hd2 (by omega)) (fun r3 h3 => ?_)
  obtain ⟨a3, b3, c3, d3, i3⟩ := r3
  obtain ⟨ha3, hb3, hc3, hd3, hi3⟩ := h3
  simp only at ha3 hb3 hc3 hd3 hi3 ⊢
  refine Sym.Ok.bind (MD5.transformRound4_ok m x a3 b3 c3 d3 i3 hx.1 hx.2 hm.constants_len
    hm.constants_size ha3 hb3 hc3 hd3 (by omega)) (fun r4 h4 => ?_)
  obtain ⟨a4, b4, c4, d4, i4⟩ := r4
  obtain ⟨ha4, hb4, hc4, hd4, _⟩ := h4
  simp only at ha4 hb4 hc4 hd4 ⊢
  refine Sym.Ok.bind (readAt_ok hs (by omega)) (fun w0 hw0 => ?_)
  refine Sym.Ok.bind (SymBitVec.add_ok w0 a4 (by omega)) (fun s0 hs0 => ?_)
  refine Sym.Ok.bind (writeAt_ok s0 (by omega)) (fun st0 hst0 => ?_)
  have hl0 : st0.length = 4 := by rw [hst0]; simpa using hl
  have hz0 : ∀ v ∈ st0, v.size = 32 := by
    rw [hst0]; exact size_of_mem_set _ 32 _ _ hs (by omega)
  refine Sym.Ok.bind (readAt_ok hz0 (by omega)) (fun w1 hw1 => ?_)
  refine Sym.Ok.bind (SymBitVec.add_ok w1 b4 (by omega)) (fun s1 hs1 => ?_)
  refine Sym.Ok.bind (writeAt_ok s1 (by omega)) (fun st1 hst1 => ?_)
  have hl1 : st1.length = 4 := by rw [hst1]; simpa using hl0
  have hz1 : ∀ v ∈ st1, v.size = 32 := by
    rw [hst1]; exact size_of_mem_set _ 32 _ _ hz0 (by omega)
  refine Sym.Ok.bind (readAt_ok hz1 (by omega)) (fun w2 hw2 => ?_)
  refine Sym.Ok.bind (SymBitVec.add_ok w2 c4 (by omega)) (fun s2 hs2 => ?_)
  refine Sym.Ok.bind (writeAt_ok s2 (by omega)) (fun st2 hst2 => ?_)
  have hl2 : st2.length = 4 := by rw [hst2]; simpa using hl1
  have hz2 : ∀ v ∈ st2, v.size = 32 := by
    rw [hst2]; exact size_of_mem_set _ 32 _ _ hz1 (by omega)
  refine Sym.Ok.bind (readAt_ok hz2 (by omega)) (fun w3 hw3 => ?_)
  refine Sym.Ok.bind (SymBitVec.add_ok w3 d4 (by omega)) (fun s3 hs3 => ?_)
  refine Sym.Ok.bind (writeAt_ok s3 (by omega)) (fun st3 hst3 => ?_)
  have hl3 : st3.length = 4 := by rw [hst3]; simpa using hl2
  have hz3 : ∀ v ∈ st3, v.size = 32 := by
    rw [hst3]; exact size_of_mem_set _ 32 _ _ hz2 (by omega)
  exact Sym.Ok.ret ⟨⟨hm.buffer_len, hm.digest_len, hl3, hz3, hm.constants_len,
    hm.constants_size⟩, rfl, rfl, rfl, rfl, rfl, rfl⟩

theorem copyLoop_ok (input : List SymBitVec) (index off : Nat) (n : Nat) :
    ∀ (j : Nat) (buffer : List SymBitVec), index ≤ j → j + n ≤ buffer.length →
      off + (j + n) - index ≤ input.length →
      Sym.Ok (MD5.copyLoop input index off n j buffer) (fun r => r.length = buffer.length) := by
  induction n with
  | zero => intro j buffer _ _ _; exact Sym.Ok.ret rfl
  | succ n ih =>
    intro j buffer hj hb hi
    unfold MD5.copyLoop
    refine Sym.Ok.bind (readAt_ok (P := fun _ => True) (fun _ _ => trivial) (by omega))
      (fun v _ => ?_)
    refine Sym.Ok.bind (writeAt_ok v (by omega)) (fun b1 hb1 => ?_)
    have hl : b1.length = buffer.length := by rw [hb1]; simp
    exact (ih (j + 1) b1 (by omega) (by omega) (by omega)).mono (fun r hr => by rw [hr, hl])

theorem blockLoop_ok (input : List SymBitVec) (n : Nat) : ∀ (i : Nat) (m : MD5), m.Shape →
    i + 64 * n ≤ input.length →
    Sym.Ok (MD5.blockLoop input n i m)
      (fun r => r.1.Shape ∧ MD5.SameButState m r.1 ∧ r.2 = i + 64 * n) := by
  induction n with
  | zero =>
    intro i m hm _
    exact Sym.Ok.ret ⟨hm, ⟨rfl, rfl, rfl, rfl, rfl, rfl⟩, rfl⟩
  | succ n ih =>
    intro i m hm hi
    unfold MD5.blockLoop
    refine Sym.Ok.bind (MD5.transform_ok m (input.drop i) hm (by simp; omega))
      (fun m1 hm1 => ?_)
    refine (ih (i + MD5_BLOCK_SIZE) m1 hm1.1 (by simp [MD5_BLOCK_SIZE]; omega)).mono
      (fun r hr => ⟨hr.1, ?_, by rw [hr.2.2]; simp [MD5_BLOCK_SIZE]; omega⟩)
    obtain ⟨e1, e2, e3, e4, e5, e6⟩ := hm1.2
    obtain ⟨f1, f2, f3, f4, f5, f6⟩ := hr.2.1
    exact ⟨f1.trans e1, f2.trans e2, f3.trans e3, f4.trans e4, f5.trans e5, f6.trans e6⟩

/-- `update` returns on every object of the right shape and every input array
of at least `len` elements: no access leaves `buffer[64]` or `input[len]`. The
counters become `countAfter`. -/
theorem MD5.update_ok (m : MD5) (input : List SymBitVec) (len : Nat) (hm : m.Shape)
    (hlen : len ≤ input.length) :
    Sym.Ok (MD5.update m input len) (fun m1 => m1.Shape
      ∧ (m1.count0, m1.count1) = MD5.countAfter m.count0 m.count1 len
      ∧ m1.finalized = m.finalized ∧ m1.digest = m.digest ∧ m1.state.length = 4) := by
  unfold MD5.update
  simp only [MD5_BLOCK_SIZE]
  have hbl := hm.buffer_len
  split
  · next hge =>
    refine Sym.Ok.bind (copyLoop_ok input _ 0 _ _ m.buffer (le_refl _) (by omega) (by omega))
      (fun b1 hb1 => ?_)
    simp only at hb1
    refine Sym.Ok.bind (MD5.transform_ok _ b1
      ⟨by simp only; omega, hm.digest_len, hm.state_len, hm.state_size, hm.constants_len,
        hm.constants_size⟩ (by omega)) (fun m1 hm1 => ?_)
    obtain ⟨hs1, e1, e2, e3, e4, e5, e6⟩ := hm1
    simp only at e1 e2 e3 e4 e5 e6
    refine Sym.Ok.bind (blockLoop_ok input _ _ m1 hs1 (by omega)) (fun r hr => ?_)
    obtain ⟨m2, i⟩ := r
    obtain ⟨hs2, ⟨f1, f2, f3, f4, f5, f6⟩, hi⟩ := hr
    simp only at hs2 f1 f2 f3 f4 f5 f6 hi ⊢
    refine Sym.Ok.bind (copyLoop_ok input 0 i _ 0 m2.buffer (le_refl _)
      (by rw [hs2.buffer_len]; omega) (by omega)) (fun b2 hb2 => ?_)
    refine Sym.Ok.ret ⟨⟨by simp only; rw [hb2, hs2.buffer_len], hs2.digest_len, hs2.state_len,
      hs2.state_size, hs2.constants_len, hs2.constants_size⟩, ?_, ?_, ?_, hs2.state_len⟩
    · simp only [f2, f3, e2, e3, MD5.countAfter]
    · simp only [f4, e4]
    · simp only [f5, e5]
  · next hlt =>
    refine Sym.Ok.bind (copyLoop_ok input _ 0 _ _ m.buffer (le_refl _) (by omega) (by omega))
      (fun b1 hb1 => ?_)
    simp only at hb1
    exact Sym.Ok.ret ⟨⟨by simp only; omega, hm.digest_len, hm.state_len, hm.state_size,
      hm.constants_len, hm.constants_size⟩, by simp only [MD5.countAfter], rfl, rfl,
      hm.state_len⟩

theorem MD5.new_shape : MD5.new.Shape := by
  refine ⟨by simp [MD5.new, MD5_BLOCK_SIZE], by simp [MD5.new], by simp [MD5.new], ?_,
    by simp [MD5.new, MD5.raw_constants], ?_⟩
  · intro v hv
    simp only [MD5.new, List.mem_cons, List.mem_singleton, List.not_mem_nil, or_false] at hv
    rcases hv with h | h | h | h <;> rw [h] <;> exact SymBitVec.size_ofUInt64 _ _
  · intro v hv
    simp only [MD5.new, List.mem_map] at hv
    obtain ⟨c, _, rfl⟩ := hv
    exact SymBitVec.size_ofUInt64 _ _

/-- `finalize` returns on every object of the right shape; if the object was
not finalized, `digest` then holds 16 vectors of 8 bits. -/
theorem MD5.finalize_ok (m : MD5) (hm : m.Shape) (hf : m.finalized = false) :
    Sym.Ok (MD5.finalize m) (fun m1 => m1.Shape ∧ m1.finalized = true
      ∧ ∀ v ∈ m1.digest, v.size = 8) := by
  unfold MD5.finalize
  simp only [hf, Bool.false_eq_true, if_false]
  refine Sym.Ok.bind (encode_ok _ _ 8 (by decide) (by
      intro v hv
      simp only [List.mem_cons, List.mem_singleton, List.not_mem_nil, or_false] at hv
      rcases hv with h | h <;> rw [h] <;> exact SymBitVec.size_ofUInt64 _ _)
    (by simp) (by simp)) (fun bits hbits => ?_)
  refine Sym.Ok.bind (MD5.update_ok m _ _ hm (by
      simp only [MD5.padding_raw, List.length_map, List.length_cons, List.length_replicate]
      split <;> omega)) (fun m1 hm1 => ?_)
  refine Sym.Ok.bind (MD5.update_ok m1 bits 8 hm1.1 (by omega)) (fun m2 hm2 => ?_)
  refine Sym.Ok.bind (encode_ok m2.digest m2.state 16 (by decide) hm2.1.state_size
    (by rw [hm2.1.state_len]) hm2.1.digest_len) (fun dg hdg => ?_)
  exact Sym.Ok.ret ⟨⟨hm2.1.buffer_len, hdg.1, hm2.1.state_len, hm2.1.state_size,
    hm2.1.constants_len, hm2.1.constants_size⟩, rfl, hdg.2⟩

theorem combineLoop_ok (digest : List SymBitVec) (hd : ∀ v ∈ digest, v.size = 8) (n : Nat) :
    ∀ (i : Nat) (acc : SymBitVec), i + n ≤ digest.length →
      Sym.Ok (MD5.combineLoop digest n i acc) (fun r => r.size = acc.size + 8 * n) := by
  induction n with
  | zero => intro i acc _; exact Sym.Ok.ret rfl
  | succ n ih =>
    intro i acc hi
    unfold MD5.combineLoop
    refine Sym.Ok.bind (readAt_ok hd (by omega)) (fun di hdi => ?_)
    refine (ih (i + 1) (di.concat acc) (by omega)).mono (fun r hr => ?_)
    rw [hr]
    simp only [SymBitVec.concat, SymBitVec.size, List.length_append] at hdi ⊢
    omega

/-- C11. `MD5::hash` on a fresh object, for every input vector, difficulty and
gate ledger: when the size of the input is a multiple of 8 (size 0 included)
the call completes and the returned vector has exactly 128 bits; otherwise it
fails with the assertion error. So it fails exactly when the size is not a
multiple of 8. -/
theorem C11_hash_byte_aligned (hash_input : SymBitVec) (difficulty : Int) (L : Ledger) :
    if hash_input.size % 8 = 0 then
      ∃ d m L1, MD5.hash MD5.new hash_input difficulty L = Except.ok ((d, m), L1) ∧ d.size = 128
    else MD5.hash MD5.new hash_input difficulty L = Except.error Err.assertion := by
  split
  · next h8 =>
    have hok : Sym.Ok (MD5.hash MD5.new hash_input difficulty) (fun r => r.1.size = 128) := by
      unfold MD5.hash
      refine Sym.Ok.bind (assert_ok (by simp [h8])) (fun _ _ => ?_)
      refine Sym.Ok.bind (MD5.update_ok MD5.new _ _ MD5.new_shape (by simp)) (fun m1 hm1 => ?_)
      refine Sym.Ok.bind (MD5.finalize_ok m1 hm1.1 (by rw [hm1.2.2.1]; rfl)) (fun m2 hm2 => ?_)
      refine Sym.Ok.bind (combineLoop_ok m2.digest hm2.2.2 16 0 SymBitVec.empty
        (by rw [hm2.1.digest_len])) (fun d hd => ?_)
      exact Sym.Ok.ret (by rw [hd]; rfl)
    obtain ⟨⟨d, m⟩, L1, h1, h2⟩ := hok L
    exact ⟨d, m, L1, h1, h2⟩
  · next h8 =>
    unfold MD5.hash
    show Sym.bind _ _ L = _
    have : (hash_input.size % 8 == 0) = false := by simpa using h8
    simp [Sym.bind, assert, this]

/-- The shape is kept along every sequence of `update` calls. -/
theorem MD5.updates_ok (inputs : List (List SymBitVec)) : ∀ (m : MD5), m.Shape →
    Sym.Ok (MD5.updates m inputs) (fun m1 => m1.Shape) := by
  induction inputs with
  | nil => intro m hm; exact Sym.Ok.ret hm
  | cons input rest ih =>
    intro m hm
    unfold MD5.updates
    refine Sym.Ok.bind (MD5.update_ok m input input.length hm (le_refl _)) (fun m1 hm1 => ?_)
    exact ih m1 hm1.1

/-- C20. Every sequence of `update` calls on a fresh object, each with an array
of `len` elements and length `len`, completes: no read of `input`, no write of
`buffer` and no block handed to `transform` leaves its array (such an access
is the error `out_of_range` of `readAt` and `writeAt`, and `transform` reads
the 64 elements from `input[i]` on). The buffer keeps its 64 elements and the
buffered byte count `count[0] / 8 mod 64` is below 64 after the calls, hence
before and after each call since every initial part of the sequence is covered. -/
theorem C20_update_in_bounds (inputs : List (List SymBitVec)) (L : Ledger) :
    ∃ m L1, MD5.updates MD5.new inputs L = Except.ok (m, L1)
      ∧ m.buffer.length = 64 ∧ m.count0 / 8 % 64 < 64 := by
  obtain ⟨m, L1, h1, h2⟩ := MD5.updates_ok inputs MD5.new MD5.new_shape L
  exact ⟨m, L1, h1, h2.buffer_len, Nat.mod_lt _ (by decide)⟩

/-! ### The bit counter of the MD5 object -/

/-- C14, at the failing input: `update` on a fresh object (counter 0) with
`len = 2^29` completes with `count[0] = 0` and `count[1] = 2`, so the pair holds
`2^33`, which is not the previous value plus `8 * len = 2^32` modulo `2^64`. -/
theorem C14_counter_wrong_at_2_pow_29 :
    ∃ m1 L1, MD5.update MD5.new (List.replicate (2 ^ 29) (SymBitVec.ofUInt64 0 8)) (2 ^ 29)
        Ledger.fresh = Except.ok (m1, L1)
      ∧ m1.count0 = 0 ∧ m1.count1 = 2
      ∧ m1.count1 * 2 ^ 32 + m1.count0 ≠
          (MD5.new.count1 * 2 ^ 32 + MD5.new.count0 + 8 * 2 ^ 29) % 2 ^ 64 := by
  obtain ⟨m1, L1, h1, _, h2, _⟩ := MD5.update_ok MD5.new
    (List.replicate (2 ^ 29) (SymBitVec.ofUInt64 0 8)) (2 ^ 29) MD5.new_shape
    (by rw [List.length_replicate]) Ledger.fresh
  have h3 : MD5.countAfter MD5.new.count0 MD5.new.count1 (2 ^ 29) = (0, 2) := by decide
  rw [h3] at h2
  have h4 : m1.count0 = 0 := congrArg Prod.fst h2
  have h5 : m1.count1 = 2 := congrArg Prod.snd h2
  refine ⟨m1, L1, h1, h4, h5, ?_⟩
  rw [h4, h5]
  decide

/-- The length bytes `finalize` encodes from the counter `(0, 2)`. -/
theorem encode_count_2_pow_29 (L : Ledger) :
    MD5.encode (List.replicate 8 SymBitVec.empty)
        [SymBitVec.ofUInt64 0 32, SymBitVec.ofUInt64 2 32] 8 L
      = Except.ok ([0, 0, 0, 0, 2, 0, 0, 0].map (fun b => SymBitVec.ofUInt64 b 8), L) := by
  rfl

/-- C13, at the failing input: after `update` on a fresh object with an input of
`n = 2^29` bytes, the eight length bytes that `finalize` encodes from the
counter and appends as the end of the last block are `00 00 00 00 02 00 00 00`,
whereas `8n = 2^32` in eight little-endian bytes is `00 00 00 00 01 00 00 00`. -/
theorem C13_length_bytes_wrong_at_2_pow_29 :
    ∃ m1 L1 bits,
      MD5.update MD5.new (List.replicate (2 ^ 29) (SymBitVec.ofUInt64 0 8)) (2 ^ 29)
        Ledger.fresh = Except.ok (m1, L1)
      ∧ MD5.encode (List.replicate 8 SymBitVec.empty)
          [SymBitVec.ofUInt64 m1.count0 32, SymBitVec.ofUInt64 m1.count1 32] 8 L1
          = Except.ok (bits, L1)
      ∧ bits.map SymBitVec.intVal = [0, 0, 0, 0, 2, 0, 0, 0]
      ∧ (List.range 8).map (fun i => 8 * 2 ^ 29 / 2 ^ (8 * i) % 256)
          = [0, 0, 0, 0, 1, 0, 0, 0] := by
  obtain ⟨m1, L1, h1, _, h2, _⟩ := MD5.update_ok MD5.new
    (List.replicate (2 ^ 29) (SymBitVec.ofUInt64 0 8)) (2 ^ 29) MD5.new_shape
    (by rw [List.length_replicate]) Ledger.fresh
  have h3 : MD5.countAfter MD5.new.count0 MD5.new.count1 (2 ^ 29) = (0, 2) := by decide
  rw [h3] at h2
  have h4 : m1.count0 = 0 := congrArg Prod.fst h2
  have h5 : m1.count1 = 2 := congrArg Prod.snd h2
  refine ⟨m1, L1, [0, 0, 0, 0, 2, 0, 0, 0].map (fun b => SymBitVec.ofUInt64 b 8), h1, ?_,
    by decide, by decide⟩
  rw [h4, h5]
  exact encode_count_2_pow_29 L1

/-! ### `rotateLeft` -/

theorem Bit.or_zero_left (b : Bit) (hb : b.is_rv = false → b.index = 0) (L : Ledger) :
    Bit.or (Bit.const false) b L = Except.ok (b, L) := by
  rcases b with ⟨v, rv, idx⟩
  cases v <;> cases rv <;> simp [Bit.or, Bit.const, Sym.ret] at hb ⊢
  exact hb.symm

theorem Bit.or_zero_right (a : Bit) (ha : a.is_rv = false → a.index = 0) (L : Ledger) :
    Bit.or a (Bit.const false) L = Except.ok (a, L) := by
  rcases a with ⟨v, rv, idx⟩
  cases v <;> cases rv <;> simp [Bit.or, Bit.const, Sym.ret] at ha ⊢
  · exact ha.symm
  · exact ha.symm

theorem zipBits_or_zero_right (as : List Bit) (L : Ledger) :
    (∀ a ∈ as, a.is_rv = false → a.index = 0) →
    SymBitVec.zipBits Bit.or as (List.replicate as.length (Bit.const false)) L
      = Except.ok (as, L) := by
  induction as with
  | nil => intro _; rfl
  | cons a as ih =>
    intro h
    show (Bit.or a (Bit.const false) >>= _) L = _
    rw [Sym.bind_ok _ _ L L a (Bit.or_zero_right a (h a (List.mem_cons_self _ _)) L)]
    show (SymBitVec.zipBits Bit.or as _ >>= _) L = _
    rw [Sym.bind_ok _ _ L L as (ih (fun x hx => h x (List.mem_cons_of_mem _ hx)))]
    rfl

theorem zipBits_or_rotate (bs as : List Bit) (L : Ledger) :
    (∀ b ∈ bs, b.is_rv = false → b.index = 0) → (∀ a ∈ as, a.is_rv = false → a.index = 0) →
    SymBitVec.zipBits Bit.or (List.replicate bs.length (Bit.const false) ++ as)
        (bs ++ List.replicate as.length (Bit.const false)) L
      = Except.ok (bs ++ as, L) := by
  induction bs with
  | nil => intro _ ha; exact zipBits_or_zero_right as L ha
  | cons b bs ih =>
    intro hb ha
    show (Bit.or (Bit.const false) b >>= _) L = _
    rw [Sym.bind_ok _ _ L L b (Bit.or_zero_left b (hb b (List.mem_cons_self _ _)) L)]
    show (SymBitVec.zipBits Bit.or (List.replicate bs.length (Bit.const false) ++ as)
      (bs ++ List.replicate as.length (Bit.const false)) >>= _) L = _
    rw [Sym.bind_ok _ _ L L (bs ++ as) (ih (fun x hx => hb x (List.mem_cons_of_mem _ hx)) ha)]
    rfl

theorem rotate_index (bits : List Bit) (n : Nat) (hlen : bits.length = 32) (hn0 : 0 < n)
    (hn : n < 32) (i : Nat) (hi : i < 32) :
    (bits.drop (32 - n) ++ bits.take (32 - n))[(i + n) % 32]? = bits[i]? := by
  have hd : (bits.drop (32 - n)).length = n := by rw [List.length_drop, hlen]; omega
  by_cases h : i + n < 32
  · have e : (i + n) % 32 = i + n := Nat.mod_eq_of_lt h
    rw [e, List.getElem?_append_right (by rw [hd]; omega), hd, List.getElem?_take]
    have : i + n - n = i := by omega
    rw [this, if_pos (by omega)]
  · have e : (i + n) % 32 = i + n - 32 := by omega
    rw [e, List.getElem?_append_left (by rw [hd]; omega), List.getElem?_drop]
    congr 1
    omega

/-- C15. For every 32-bit vector `x` whose constant bits carry the reserved
index 0, every `n` with `0 < n < 32` and every ledger, `rotateLeft(x, n)`
completes without emitting a gate, has 32 bits, and its bit `(i + n) mod 32` is
bit `i` of `x` for every `i` in `0..31`; `<<` and `>>` shift towards higher and
lower indices and fill with constant 0. -/
theorem C15_rotateLeft_is_rotation (x : SymBitVec) (n : Nat) (L : Ledger) (hx : x.size = 32)
    (hn0 : 0 < n) (hn : n < 32) (hc : ∀ b ∈ x.bits_, b.is_rv = false → b.index = 0) :
    ∃ r, MD5.rotateLeft x n L = Except.ok (r, L) ∧ r.size = 32
      ∧ ∀ i, i < 32 → r.bits_[(i + n) % 32]? = x.bits_[i]? := by
  have hlen : x.bits_.length = 32 := hx
  have hd : (x.bits_.drop (32 - n)).length = n := by rw [List.length_drop, hlen]; omega
  have ht : (x.bits_.take (32 - n)).length = 32 - n := by rw [List.length_take, hlen]; omega
  have hshl : (x.shl n).bits_
      = List.replicate (x.bits_.drop (32 - n)).length (Bit.const false)
          ++ x.bits_.take (32 - n) := by
    show (List.replicate n (Bit.const false) ++ x.bits_).take x.bits_.length = _
    rw [hd, hlen, List.take_append_eq_append_take, List.length_replicate,
      List.take_of_length_le (by rw [List.length_replicate]; omega)]
  have hshr : (x.shr (32 - n)).bits_
      = x.bits_.drop (32 - n)
          ++ List.replicate (x.bits_.take (32 - n)).length (Bit.const false) := by
    show x.bits_.drop (32 - n) ++ List.replicate (min (32 - n) x.bits_.length) _ = _
    rw [ht, hlen, Nat.min_eq_left (by omega)]
  have hz := zipBits_or_rotate (x.bits_.drop (32 - n)) (x.bits_.take (32 - n)) L
    (fun b hb => hc b (List.mem_of_mem_drop hb)) (fun b hb => hc b (List.mem_of_mem_take hb))
  rw [← hshl, ← hshr] at hz
  refine ⟨{ bits_ := x.bits_.drop (32 - n) ++ x.bits_.take (32 - n) }, ?_, ?_, ?_⟩
  · show (SymBitVec.zipBits Bit.or _ _ >>= _) L = _
    rw [Sym.bind_ok _ _ L L _ hz]
    rfl
  · show (x.bits_.drop (32 - n) ++ x.bits_.take (32 - n)).length = 32
    rw [List.length_append, hd, ht]
    omega
  · intro i hi
    exact rotate_index x.bits_ n hlen hn0 hn i hi

theorem C15_rotateLeft_is_rotation_witness :
    ∃ r, MD5.rotateLeft (SymBitVec.ofUInt64 0x12345678 32) 7 Ledger.fresh
        = Except.ok (r, Ledger.fresh) ∧ r.size = 32
      ∧ ∀ i, i < 32 → r.bits_[(i + 7) % 32]? = (SymBitVec.ofUInt64 0x12345678 32).bits_[i]? :=
  C15_rotateLeft_is_rotation (SymBitVec.ofUInt64 0x12345678 32) 7 Ledger.fresh (by decide)
    (by decide) (by decide) (by decide)

/-! ### Belief-propagation driver: graph construction -/

theorem hasNode_iff (g : Graph) (rv : Nat) : g.hasNode rv = true ↔ rv ∈ g.nodes := by
  simp [Graph.hasNode]

theorem connectInputs_spec (fac : GraphFactor) (inputs : List Nat) :
    ∀ (g : Graph) (max_rv : Nat),
      (BPSolver.connectInputs fac inputs (g, max_rv)).1.edges
          = g.edges ++ inputs.map (fun inp =>
              { factor := fac, node := inp, dir := IODirection.Input })
        ∧ (∀ rv, rv ∈ (BPSolver.connectInputs fac inputs (g, max_rv)).1.nodes
              ↔ rv ∈ g.nodes ∨ rv ∈ inputs)
        ∧ (BPSolver.connectInputs fac inputs (g, max_rv)).1.factors = g.factors
        ∧ (BPSolver.connectInputs fac inputs (g, max_rv)).1.schedule_factor = g.schedule_factor
        ∧ (BPSolver.connectInputs fac inputs (g, max_rv)).1.schedule_variable
            = g.schedule_variable
        ∧ (BPSolver.connectInputs fac inputs (g, max_rv)).1.iterations = g.iterations := by
  induction inputs with
  | nil => intro g max_rv; simp [BPSolver.connectInputs]
  | cons inp rest ih =>
    intro g max_rv
    unfold BPSolver.connectInputs
    by_cases h : g.hasNode inp = true
    · have hin : inp ∈ g.nodes := (hasNode_iff g inp).mp h
      simp only [h, Bool.not_true, Bool.false_eq_true, if_false]
      obtain ⟨e1, e2, e3, e4, e5, e6⟩ :=
        ih (g.connectFactorNode fac inp IODirection.Input) max_rv
      refine ⟨?_, ?_, ?_, ?_, ?_, ?_⟩
      · rw [e1]; simp [Graph.connectFactorNode]
      · intro rv
        rw [e2]
        simp only [Graph.connectFactorNode, List.mem_cons]
        constructor
        · rintro (h1 | h1)
          · exact Or.inl h1
          · exact Or.inr (Or.inr h1)
        · rintro (h1 | h1 | h1)
          · exact Or.inl h1
          · exact Or.inl (h1 ▸ hin)
          · exact Or.inr h1
      · rw [e3]; rfl
      · rw [e4]; rfl
      · rw [e5]; rfl
      · rw [e6]; rfl
    · have h0 : g.hasNode inp = false := by simpa using h
      simp only [h0, Bool.not_false, if_true]
      obtain ⟨e1, e2, e3, e4, e5, e6⟩ :=
        ih ((g.addNode inp).connectFactorNode fac inp IODirection.Input) (max max_rv inp)
      refine ⟨?_, ?_, ?_, ?_, ?_, ?_⟩
      · rw [e1]; simp [Graph.connectFactorNode, Graph.addNode]
      · intro rv
        rw [e2]
        simp only [Graph.connectFactorNode, Graph.addNode, List.mem_cons, List.mem_append,
          List.mem_singleton]
        tauto
      · rw [e3]; rfl
      · rw [e4]; rfl
      · rw [e5]; rfl
      · rw [e6]; rfl

theorem connectInputs_eq (fac : GraphFactor) (inputs : List Nat) (g : Graph) (max_rv : Nat)
    (X : Graph × Nat) (hX : BPSolver.connectInputs fac inputs (g, max_rv) = X) :
    X.1.edges = g.edges ++ inputs.map (fun inp =>
        { factor := fac, node := inp, dir := IODirection.Input })
      ∧ (∀ rv, rv ∈ X.1.nodes ↔ rv ∈ g.nodes ∨ rv ∈ inputs)
      ∧ X.1.factors = g.factors
      ∧ X.1.schedule_factor = g.schedule_factor
      ∧ X.1.schedule_variable = g.schedule_variable
      ∧ X.1.iterations = g.iterations := by
  subst hX
  exact connectInputs_spec fac inputs g max_rv

theorem usedBy_cons_valid (rv0 : Nat) (f : Factor) (rest : List (Nat × Factor)) (rv : Nat)
    (hv : f.valid = true) :
    BPSolver.usedBy ((rv0, f) :: rest) rv
      ↔ (rv = f.output ∨ rv ∈ f.inputs) ∨ BPSolver.usedBy rest rv := by
  simp [BPSolver.usedBy, BPSolver.validEntries, hv]

theorem usedBy_cons_invalid (rv0 : Nat) (f : Factor) (rest : List (Nat × Factor)) (rv : Nat)
    (hv : f.valid = false) :
    BPSolver.usedBy ((rv0, f) :: rest) rv ↔ BPSolver.usedBy rest rv := by
  simp [BPSolver.usedBy, BPSolver.validEntries, hv]

theorem addFactors_spec (fs : List (Nat × Factor)) :
    ∀ (g : Graph) (max_rv : Nat) (sf0 : List GraphFactor) (sfr : List (List GraphFactor)),
      g.schedule_factor = sf0 :: sfr →
      ∃ g1 m1, BPSolver.addFactors fs (g, max_rv) = Except.ok (g1, m1)
        ∧ g1.factors = g.factors ++ (BPSolver.validEntries fs).map BPSolver.gateFactor
        ∧ g1.schedule_factor
            = (sf0 ++ (BPSolver.validEntries fs).map BPSolver.gateFactor) :: sfr
        ∧ g1.edges = g.edges ++ (BPSolver.validEntries fs).flatMap BPSolver.gateEdges
        ∧ (∀ rv, rv ∈ g1.nodes ↔ rv ∈ g.nodes ∨ BPSolver.usedBy fs rv)
        ∧ g1.schedule_variable = g.schedule_variable
        ∧ g1.iterations = g.iterations := by
  induction fs with
  | nil =>
    intro g max_rv sf0 sfr hsf
    refine ⟨g, max_rv, rfl, ?_, ?_, ?_, ?_, rfl, rfl⟩
    · simp [BPSolver.validEntries]
    · simp [BPSolver.validEntries, hsf]
    · simp [BPSolver.validEntries]
    · intro rv; simp [BPSolver.usedBy, BPSolver.validEntries]
  | cons p rest ih =>
    intro g max_rv sf0 sfr hsf
    obtain ⟨rv0, f⟩ := p
    unfold BPSolver.addFactors
    by_cases hv : f.valid = true
    · simp only [hv, Bool.not_true, Bool.false_eq_true, if_false]
      have hpush : Graph.pushFirst (g.addFactor
            { index := rv0, t := BPSolver.convertFactorType f.t, prior_bit := none }).schedule_factor
            { index := rv0, t := BPSolver.convertFactorType f.t, prior_bit := none }
          = Except.ok ((sf0 ++ [BPSolver.gateFactor (rv0, f)]) :: sfr) := by
        show Graph.pushFirst g.schedule_factor _ = _
        rw [hsf]; rfl
      simp only [hpush]
      have hval : BPSolver.validEntries ((rv0, f) :: rest)
          = (rv0, f) :: BPSolver.validEntries rest := by
        simp [BPSolver.validEntries, hv]
      split
      · dsimp only
        generalize hX : BPSolver.connectInputs _ _ _ = X
        obtain ⟨c1, c2, c3, c4, c5, c6⟩ := connectInputs_eq _ _ _ _ _ hX
        obtain ⟨g1, m1, r0, r1, r2, r3, r4, r5, r6⟩ := ih X.1 X.2
          (sf0 ++ [BPSolver.gateFactor (rv0, f)]) sfr (by rw [c4]; rfl)
        refine ⟨g1, m1, r0, ?_, ?_, ?_, ?_, ?_, ?_⟩
        · rw [r1, c3, hval]
          simp [Graph.connectFactorNode, Graph.addNode, Graph.addFactor, BPSolver.gateFactor]
        · rw [r2, hval]; simp
        · rw [r3, c1, hval]
          simp [Graph.connectFactorNode, Graph.addNode, Graph.addFactor, BPSolver.gateEdges,
            BPSolver.gateFactor]
        · intro rv
          rw [r4, c2]
          rw [usedBy_cons_valid rv0 f rest rv hv]
          simp only [Graph.connectFactorNode, Graph.addNode, Graph.addFactor, List.mem_append,
            List.mem_singleton]
          tauto
        · rw [r5, c5]; rfl
        · rw [r6, c6]; rfl
      · rename_i hh
        have hin : f.output ∈ g.nodes := by
          simpa [Graph.hasNode, Graph.addFactor] using hh
        dsimp only
        generalize hX : BPSolver.connectInputs _ _ _ = X
        obtain ⟨c1, c2, c3, c4, c5, c6⟩ := connectInputs_eq _ _ _ _ _ hX
        obtain ⟨g1, m1, r0, r1, r2, r3, r4, r5, r6⟩ := ih X.1 X.2
          (sf0 ++ [BPSolver.gateFactor (rv0, f)]) sfr (by rw [c4]; rfl)
        refine ⟨g1, m1, r0, ?_, ?_, ?_, ?_, ?_, ?_⟩
        · rw [r1, c3, hval]
          simp [Graph.connectFactorNode, Graph.addFactor, BPSolver.gateFactor]
        · rw [r2, hval]; simp
        · rw [r3, c1, hval]
          simp [Graph.connectFactorNode, Graph.addFactor, BPSolver.gateEdges,
            BPSolver.gateFactor]
        · intro rv
          rw [r4, c2]
          rw [usedBy_cons_valid rv0 f rest rv hv]
          simp only [Graph.connectFactorNode, Graph.addFactor]
          constructor
          · rintro ((h1 | h1) | h1)
            · exact Or.inl h1
            · exact Or.inr (Or.inl (Or.inr h1))
            · exact Or.inr (Or.inr h1)
          · rintro (h1 | (h1 | h1) | h1)
            · exact Or.inl (Or.inl h1)
            · exact Or.inl (Or.inl (h1 ▸ hin))
            · exact Or.inl (Or.inr h1)
            · exact Or.inr h1
        · rw [r5, c5]; rfl
        · rw [r6, c6]; rfl
    · have hv0 : f.valid = false := by simpa using hv
      simp only [hv0, Bool.not_false, if_true]
      obtain ⟨g1, m1, r0, r1, r2, r3, r4, r5, r6⟩ := ih g max_rv sf0 sfr hsf
      have hval : BPSolver.validEntries ((rv0, f) :: rest) = BPSolver.validEntries rest := by
        simp [BPSolver.validEntries, hv0]
      refine ⟨g1, m1, r0, ?_, ?_, ?_, ?_, r5, r6⟩
      · rw [r1, hval]
      · rw [r2, hval]
      · rw [r3, hval]
      · intro rv
        rw [r4, usedBy_cons_invalid rv0 f rest rv hv0]

theorem scheduleVariables_spec (rvs : List Nat) :
    ∀ (g : Graph) (sv0 : List Nat) (svr : List (List Nat)), g.schedule_variable = sv0 :: svr →
      ∃ g1, BPSolver.scheduleVariables rvs g = Except.ok g1
        ∧ g1.nodes = g.nodes ∧ g1.factors = g.factors ∧ g1.edges = g.edges
        ∧ g1.schedule_factor = g.schedule_factor ∧ g1.iterations = g.iterations := by
  induction rvs with
  | nil => intro g sv0 svr _; exact ⟨g, rfl, rfl, rfl, rfl, rfl, rfl⟩
  | cons rv rest ih =>
    intro g sv0 svr hsv
    unfold BPSolver.scheduleVariables
    by_cases h : g.hasNode rv = true
    · simp only [h, if_true, hsv, Graph.pushFirst]
      exact ih { g with schedule_variable := (sv0 ++ [rv]) :: svr } (sv0 ++ [rv]) svr rfl
    · simp only [h, Bool.false_eq_true, if_false]
      exact ih g sv0 svr hsv

theorem initialise_spec (s : BPSolver) :
    ∃ s1, BPSolver.initialise s = Except.ok s1
      ∧ s1.g_.factors = (BPSolver.validEntries s.factors_).map BPSolver.gateFactor
      ∧ s1.g_.schedule_factor = [(BPSolver.validEntries s.factors_).map BPSolver.gateFactor]
      ∧ s1.g_.edges = (BPSolver.validEntries s.factors_).flatMap BPSolver.gateEdges
      ∧ (∀ rv, rv ∈ s1.g_.nodes ↔ BPSolver.usedBy s.factors_ rv)
      ∧ s1.g_.iterations = 0 := by
  obtain ⟨g1, m1, r0, r1, r2, r3, r4, r5, r6⟩ := addFactors_spec s.factors_
    { Graph.empty with schedule_variable := [[]], schedule_factor := [[]] } 0 [] [] rfl
  obtain ⟨g2, q0, q1, q2, q3, q4, q5⟩ := scheduleVariables_spec (List.range m1) g1 [] []
    (by rw [r5])
  refine ⟨{ s with g_ := g2 }, ?_, ?_, ?_, ?_, ?_, ?_⟩
  · unfold BPSolver.initialise
    simp only [r0, q0]
  · show g2.factors = _
    rw [q2, r1]; simp [Graph.empty]
  · show g2.schedule_factor = _
    rw [q4, r2]; simp
  · show g2.edges = _
    rw [q3, r3]; simp [Graph.empty]
  · intro rv
    show rv ∈ g2.nodes ↔ _
    rw [q1, r4]; simp [Graph.empty]
  · show g2.iterations = _
    rw [q5, r6]; rfl

theorem addPriors_ok (obs : List (Nat × Bool)) :
    ∀ (g : Graph) (prior_rvs : List Nat), (∀ p ∈ obs, p.1 ∈ g.nodes) →
      ∃ g1 pr1, BPSolver.addPriors obs (g, prior_rvs) = Except.ok (g1, pr1)
        ∧ g1.factors = g.factors ++ obs.map BPSolver.priorFactor
        ∧ g1.edges = g.edges ++ obs.map (fun p =>
            { factor := BPSolver.priorFactor p, node := p.1, dir := IODirection.Prior })
        ∧ g1.nodes = g.nodes
        ∧ g1.schedule_variable = g.schedule_variable
        ∧ g1.schedule_factor = g.schedule_factor
        ∧ g1.iterations = g.iterations := by
  induction obs with
  | nil => intro g pr _; exact ⟨g, pr, rfl, by simp, by simp, rfl, rfl, rfl, rfl⟩
  | cons p rest ih =>
    intro g pr h
    obtain ⟨rv, bit_val⟩ := p
    have hin : g.hasNode rv = true := (hasNode_iff g rv).mpr (h (rv, bit_val) (List.mem_cons_self _ _))
    unfold BPSolver.addPriors
    simp only [hin, Bool.not_true, Bool.false_eq_true, if_false]
    obtain ⟨g1, pr1, r0, r1, r2, r3, r4, r5, r6⟩ := ih
      ((g.addFactor { index := rv, t := BPFactorType.Prior, prior_bit := some bit_val }).connectFactorNode
        { index := rv, t := BPFactorType.Prior, prior_bit := some bit_val } rv IODirection.Prior)
      (pr ++ [rv]) (fun q hq => h q (List.mem_cons_of_mem _ hq))
    refine ⟨g1, pr1, r0, ?_, ?_, ?_, ?_, ?_, ?_⟩
    · rw [r1]; simp [Graph.addFactor, Graph.connectFactorNode, BPSolver.priorFactor]
    · rw [r2]; simp [Graph.addFactor, Graph.connectFactorNode, BPSolver.priorFactor]
    · rw [r3]; rfl
    · rw [r4]; rfl
    · rw [r5]; rfl
    · rw [r6]; rfl

theorem addPriors_fail (obs : List (Nat × Bool)) :
    ∀ (g : Graph) (prior_rvs : List Nat), (∃ p ∈ obs, p.1 ∉ g.nodes) →
      BPSolver.addPriors obs (g, prior_rvs) = Except.error Err.assertion := by
  induction obs with
  | nil => intro g pr h; obtain ⟨p, hp, _⟩ := h; cases hp
  | cons p rest ih =>
    intro g pr h
    obtain ⟨rv, bit_val⟩ := p
    unfold BPSolver.addPriors
    by_cases hin : g.hasNode rv = true
    · simp only [hin, Bool.not_true, Bool.false_eq_true, if_false]
      apply ih
      obtain ⟨q, hq, hq2⟩ := h
      rcases List.mem_cons.mp hq with h1 | h1
      · subst h1
        exact absurd ((hasNode_iff g rv).mp hin) hq2
      · exact ⟨q, h1, hq2⟩
    · simp [hin]

/-- C17. For every solver state whose map `factors_` is ascending in the key,
`initialize` completes; the factors of the graph and `schedule_factor[0]` are,
in the order of the map (ascending key), one gate factor per entry whose
`valid` flag is set, with id the key of the entry and the converted kind; the
edges are, per such entry, the `Output` edge to the node of `f.output` followed
by one `Input` edge to the node of each element of `f.inputs`; and a variable
is a node exactly when it is the output or an input of such an entry. Entries
with `valid = false` contribute no factor, no node and no edge. -/
theorem C17_initialize_graph (s : BPSolver)
    (hkeys : (s.factors_.map Prod.fst).Pairwise (fun a b => a < b)) :
    ∃ s1, BPSolver.initialise s = Except.ok s1
      ∧ s1.g_.factors = (BPSolver.validEntries s.factors_).map BPSolver.gateFactor
      ∧ s1.g_.schedule_factor = [(BPSolver.validEntries s.factors_).map BPSolver.gateFactor]
      ∧ (s1.g_.factors.map (fun fac => fac.index)).Pairwise (fun a b => a < b)
      ∧ s1.g_.edges = (BPSolver.validEntries s.factors_).flatMap BPSolver.gateEdges
      ∧ (∀ rv, rv ∈ s1.g_.nodes ↔ BPSolver.usedBy s.factors_ rv) := by
  obtain ⟨s1, h0, h1, h2, h3, h4, _⟩ := initialise_spec s
  refine ⟨s1, h0, h1, h2, ?_, h3, h4⟩
  rw [h1, List.map_map]
  have hsub : ((BPSolver.validEntries s.factors_).map Prod.fst).Sublist
      (s.factors_.map Prod.fst) := (List.filter_sublist _).map _
  exact hkeys.sublist hsub

theorem C17_initialize_graph_witness :
    ∃ s1, BPSolver.initialise
        { factors_ := [(3, { t := FactorType.AndFactor, output := 3, inputs := [1, 2], valid := true }),
                       (4, { t := FactorType.NotFactor, output := 4, inputs := [3], valid := false }),
                       (5, { t := FactorType.XorFactor, output := 5, inputs := [3, 1], valid := true })],
          observed_ := [], g_ := Graph.empty } = Except.ok s1
      ∧ s1.g_.factors = [{ index := 3, t := BPFactorType.And, prior_bit := none },
                         { index := 5, t := BPFactorType.Xor, prior_bit := none }]
      ∧ s1.g_.schedule_factor = [[{ index := 3, t := BPFactorType.And, prior_bit := none },
                                  { index := 5, t := BPFactorType.Xor, prior_bit := none }]]
      ∧ (s1.g_.factors.map (fun fac => fac.index)).Pairwise (fun a b => a < b)
      ∧ s1.g_.edges = (BPSolver.validEntries
          [(3, { t := FactorType.AndFactor, output := 3, inputs := [1, 2], valid := true }),
           (4, { t := FactorType.NotFactor, output := 4, inputs := [3], valid := false }),
           (5, { t := FactorType.XorFactor, output := 5, inputs := [3, 1], valid := true })]).flatMap
            BPSolver.gateEdges
      ∧ (∀ rv, rv ∈ s1.g_.nodes ↔ BPSolver.usedBy
          [(3, { t := FactorType.AndFactor, output := 3, inputs := [1, 2], valid := true }),
           (4, { t := FactorType.NotFactor, output := 4, inputs := [3], valid := false }),
           (5, { t := FactorType.XorFactor, output := 5, inputs := [3, 1], valid := true })] rv) :=
  C17_initialize_graph _ (by decide)

/-- C18. For every solver state and every observed map set after `initialize`:
when every observed variable is the output or an input of a valid entry of
`factors_`, `solveInternal` completes and the graph has gained, in the order of
the map, exactly one `PRIOR` factor per observed variable and one `Prior` edge
from it to that variable's node, the nodes being unchanged; otherwise
`solveInternal` fails with the assertion error. -/
theorem C18_priors (P : BPNumerics) (s : BPSolver) (obs : List (Nat × Bool)) :
    ∃ s1, BPSolver.initialise s = Except.ok s1
      ∧ if (∀ p ∈ obs, BPSolver.usedBy s.factors_ p.1) then
          ∃ sol s2, BPSolver.solveInternal P { s1 with observed_ := obs } = Except.ok (sol, s2)
            ∧ s2.g_.factors = s1.g_.factors ++ obs.map BPSolver.priorFactor
            ∧ s2.g_.edges = s1.g_.edges ++ obs.map (fun p =>
                { factor := BPSolver.priorFactor p, node := p.1, dir := IODirection.Prior })
            ∧ s2.g_.nodes = s1.g_.nodes
        else
          BPSolver.solveInternal P { s1 with observed_ := obs } = Except.error Err.assertion := by
  obtain ⟨s1, h0, _, _, _, h4, _⟩ := initialise_spec s
  refine ⟨s1, h0, ?_⟩
  split
  · rename_i hall
    obtain ⟨g1, pr1, r0, r1, r2, r3, _⟩ := addPriors_ok obs s1.g_ []
      (fun p hp => (h4 p.1).mpr (hall p hp))
    unfold BPSolver.solveInternal
    simp only [r0]
    exact ⟨_, _, rfl, r1, r2, r3⟩
  · rename_i hall
    have hex : ∃ p ∈ obs, p.1 ∉ s1.g_.nodes := by
      by_contra hcon
      apply hall
      intro p hp
      by_contra hp2
      exact hcon ⟨p, hp, fun hin => hp2 ((h4 p.1).mp hin)⟩
    unfold BPSolver.solveInternal
    simp only [addPriors_fail obs s1.g_ [] hex]

theorem RenDense.weaken {seen : List Int} {m : List (Int × Int)} {k : Int}
    (h : RenDense seen m k) (more : List Int) : RenDense (seen ++ more) m k :=
  ⟨h.onto, fun x v hx => by
    rcases h.keys x v hx with h1 | h1
    · exact Or.inl (List.mem_append_left _ h1)
    · exact Or.inr (List.mem_append_left _ h1)⟩

theorem RenDense.add_entry {seen : List Int} {m : List (Int × Int)} {k : Int} (hI : RenInv m k)
    (hD : RenDense seen m k) (l : Int) (hl : l ≠ 0) (habs : m.lookup l = none) :
    RenDense (seen ++ [l])
      (mapSet (mapSet m (Int.natAbs l) k) (-(Int.natAbs l : Int)) (-k)) (k + 1) := by
  obtain ⟨_, hpres, _⟩ := RenInv.step hI l hl habs
  have habs0 : (Int.natAbs l : Int) ≠ 0 := by
    intro h; exact hl (Int.natAbs_eq_zero.mp (by exact_mod_cast h))
  have hcases : l = (Int.natAbs l : Int) ∨ l = -(Int.natAbs l : Int) := Int.natAbs_eq l
  refine ⟨?_, ?_⟩
  · intro j h1 h2
    by_cases hj : j = k
    · refine ⟨(Int.natAbs l : Int), ?_⟩
      rw [lookup_mapSet, lookup_mapSet, hj]
      have hne : ¬ ((Int.natAbs l : Int) = -(Int.natAbs l : Int)) := by omega
      rw [if_neg hne, if_pos rfl]
    · obtain ⟨x, hx⟩ := hD.onto j h1 (by omega)
      exact ⟨x, hpres x j hx⟩
  · intro x v hx
    rw [lookup_mapSet, lookup_mapSet] at hx
    by_cases hx1 : x = -(Int.natAbs l : Int)
    · rcases hcases with h | h
      · exact Or.inr (List.mem_append_right _ (by rw [hx1, neg_neg, ← h]; simp))
      · exact Or.inl (List.mem_append_right _ (by rw [hx1, ← h]; simp))
    · rw [if_neg hx1] at hx
      by_cases hx2 : x = (Int.natAbs l : Int)
      · rcases hcases with h | h
        · exact Or.inl (List.mem_append_right _ (by rw [hx2, ← h]; simp))
        · refine Or.inr (List.mem_append_right _ ?_)
          have : -x = l := by rw [hx2]; exact h.symm
          rw [this]; simp
      · rw [if_neg hx2] at hx
        rcases hD.keys x v hx with h | h
        · exact Or.inl (List.mem_append_left _ h)
        · exact Or.inr (List.mem_append_left _ h)

theorem renameClause_dense (cl : List Int) :
    ∀ (m : List (Int × Int)) (k : Int) (sc : List Int) (seen : List Int),
      (∀ l ∈ cl, l ≠ 0) → RenInv m k → RenDense seen m k →
      RenDense (seen ++ cl) (Simplification.renameClause cl (m, k, sc)).1
        (Simplification.renameClause cl (m, k, sc)).2.1 := by
  induction cl with
  | nil =>
    intro m k sc seen _ _ hD
    simpa [Simplification.renameClause] using hD
  | cons l rest ih =>
    intro m k sc seen hnz hI hD
    have hl : l ≠ 0 := hnz l (List.mem_cons_self _ _)
    have hrest : ∀ x ∈ rest, x ≠ 0 := fun x hx => hnz x (List.mem_cons_of_mem _ hx)
    have happ : seen ++ l :: rest = (seen ++ [l]) ++ rest := by simp
    rw [happ]
    unfold Simplification.renameClause
    by_cases habs : m.lookup l = none
    · rw [if_pos habs]
      exact ih _ _ _ _ hrest (RenInv.step hI l hl habs).1 (RenDense.add_entry hI hD l hl habs)
    · rw [if_neg habs]
      exact ih _ _ _ _ hrest hI (hD.weaken [l])

theorem renameLoop_dense (cls : List (List Int)) :
    ∀ (r : Simplification.Renaming) (seen : List Int), (∀ cl ∈ cls, ∀ l ∈ cl, l ≠ 0) →
      RenInv r.lit_original_to_simplified r.k →
      RenDense seen r.lit_original_to_simplified r.k →
      RenDense (seen ++ cls.flatten)
        (Simplification.renameLoop cls r).lit_original_to_simplified
        (Simplification.renameLoop cls r).k := by
  induction cls with
  | nil =>
    intro r seen _ _ hD
    simpa [Simplification.renameLoop] using hD
  | cons cl rest ih =>
    intro r seen hnz hI hD
    have hcl : ∀ l ∈ cl, l ≠ 0 := hnz cl (List.mem_cons_self _ _)
    have hrest : ∀ c ∈ rest, ∀ l ∈ c, l ≠ 0 := fun c hc => hnz c (List.mem_cons_of_mem _ hc)
    have happ : seen ++ (cl :: rest).flatten = (seen ++ cl) ++ rest.flatten := by simp
    rw [happ]
    unfold Simplification.renameLoop
    by_cases hlen : cl.length = 0
    · rw [if_pos hlen]
      have : cl = [] := List.length_eq_zero.mp hlen
      subst this
      simpa using ih r seen hrest hI hD
    · rw [if_neg hlen]
      have h1 := (renameClause_spec cl r.lit_original_to_simplified r.k [] hcl hI).1
      have h2 := renameClause_dense cl r.lit_original_to_simplified r.k [] seen hcl hI hD
      exact ih _ _ hrest h1 h2

theorem unsatLoop_cons_ok (lit : Int) (idx : Nat) (rest : List Nat)
    (st st1 : Simplification.State)
    (h : Simplification.unsatLoop lit (idx :: rest) st = Except.ok st1) :
    ∃ clause, st.tmp_clauses[idx]? = some clause ∧
      ((clause = [] ∧ Simplification.unsatLoop lit rest st = Except.ok st1)
      ∨ (2 ≤ clause.length ∧ ∃ last_lit, clause.erase lit = [last_lit]
          ∧ st.original_assignments.lookup last_lit ≠ some false
          ∧ st.original_assignments.lookup (-last_lit) ≠ some true
          ∧ Simplification.unsatLoop lit rest
              { q := (-last_lit, false) :: (last_lit, true) :: st.q
                tmp_clauses := st.tmp_clauses.set idx []
                original_assignments := st.original_assignments } = Except.ok st1)
      ∨ (2 ≤ clause.length ∧ (∀ last_lit, clause.erase lit ≠ [last_lit])
          ∧ Simplification.unsatLoop lit rest
              { st with tmp_clauses := st.tmp_clauses.set idx (clause.erase lit) }
              = Except.ok st1)) := by
  unfold Simplification.unsatLoop at h
  split at h
  · cases h
  · rename_i clause hget
    have hget1 : st.tmp_clauses[idx]? = some clause := by
      rw [← List.get?_eq_getElem?]; exact hget
    refine ⟨clause, hget1, ?_⟩
    split at h
    · rename_i h0
      exact Or.inl ⟨List.length_eq_zero.mp h0, h⟩
    · rename_i h0
      split at h
      · cases h
      · rename_i h1
        have h2 : 2 ≤ clause.length := by omega
        dsimp only at h
        split at h
        · rename_i last_lit heq
          split at h
          · cases h
          · rename_i hc1
            split at h
            · cases h
            · rename_i hc2
              exact Or.inr (Or.inl ⟨h2, last_lit, heq, hc1, hc2, h⟩)
        · rename_i hne
          exact Or.inr (Or.inr ⟨h2, fun last_lit he => hne last_lit he, h⟩)

theorem unsatLoop_nz (lit : Int) (idxs : List Nat) :
    ∀ (st st1 : Simplification.State), Simplification.unsatLoop lit idxs st = Except.ok st1 →
      (∀ cl ∈ st.tmp_clauses, ∀ l ∈ cl, l ≠ 0) → ∀ cl ∈ st1.tmp_clauses, ∀ l ∈ cl, l ≠ 0 := by
  induction idxs with
  | nil =>
    intro st st1 h hnz
    simp only [Simplification.unsatLoop, Except.ok.injEq] at h
    subst h; exact hnz
  | cons idx rest ih =>
    intro st st1 h hnz
    obtain ⟨clause, hget, hcases⟩ := unsatLoop_cons_ok lit idx rest st st1 h
    have hmem : clause ∈ st.tmp_clauses := List.getElem?_mem hget
    rcases hcases with ⟨_, h1⟩ | ⟨_, last_lit, _, _, _, h1⟩ | ⟨_, _, h1⟩
    · exact ih st st1 h1 hnz
    · refine ih _ st1 h1 ?_
      intro cl hcl l hl
      rcases List.mem_or_eq_of_mem_set hcl with h2 | h2
      · exact hnz cl h2 l hl
      · subst h2; cases hl
    · refine ih _ st1 h1 ?_
      intro cl hcl l hl
      rcases List.mem_or_eq_of_mem_set hcl with h2 | h2
      · exact hnz cl h2 l hl
      · subst h2
        exact hnz clause hmem l (List.mem_of_mem_erase hl)

theorem satLoop_nz (idxs : List Nat) :
    ∀ (tmp : List (List Int)), (∀ cl ∈ tmp, ∀ l ∈ cl, l ≠ 0) →
      ∀ cl ∈ Simplification.satLoop idxs tmp, ∀ l ∈ cl, l ≠ 0 := by
  induction idxs with
  | nil => intro tmp h; exact h
  | cons idx rest ih =>
    intro tmp h
    refine ih _ ?_
    intro cl hcl l hl
    rcases List.mem_or_eq_of_mem_set hcl with h1 | h1
    · exact h cl h1 l hl
    · subst h1; cases hl

theorem workLoop_nz (cnf : CNF) (fuel : Nat) :
    ∀ (st st1 : Simplification.State), Simplification.workLoop cnf fuel st = Except.ok st1 →
      (∀ cl ∈ st.tmp_clauses, ∀ l ∈ cl, l ≠ 0) → ∀ cl ∈ st1.tmp_clauses, ∀ l ∈ cl, l ≠ 0 := by
  induction fuel with
  | zero =>
    intro st st1 h hnz
    unfold Simplification.workLoop at h
    split at h
    · cases h; exact hnz
    · cases h
  | succ fuel ih =>
    intro st st1 h hnz
    unfold Simplification.workLoop at h
    split at h
    · cases h; exact hnz
    · rename_i lit val q hq
      split at h
      · rename_i st2 hstep
        refine ih st2 st1 h ?_
        unfold Simplification.step at hstep
        split at hstep
        · cases hstep
          exact satLoop_nz _ _ hnz
        · exact unsatLoop_nz lit _ _ st2 hstep hnz
      · cases h

theorem RenDense.initial : RenDense [] [] 1 :=
  ⟨fun j h1 h2 => by omega, fun x v hx => by simp at hx⟩

theorem run_ok (cnf : CNF) (A : List (Int × Bool)) (s : Simplification)
    (h : Simplification.run cnf A = Except.ok s) :
    ∃ q st, Simplification.seed A [] = Except.ok q
      ∧ Simplification.workLoop cnf (Simplification.fuelFor cnf A)
          { q := q, tmp_clauses := cnf.clauses, original_assignments := A } = Except.ok st
      ∧ s = { original_cnf := cnf
              simplified_cnf := CNF.ofClauses
                (Simplification.renameLoop st.tmp_clauses
                  { lit_original_to_simplified := [], simplified_clauses := [], k := 1 }).simplified_clauses
                ((Simplification.renameLoop st.tmp_clauses
                  { lit_original_to_simplified := [], simplified_clauses := [], k := 1 }).k - 1)
              original_assignments := st.original_assignments
              lit_simplified_to_original := Simplification.invert
                (Simplification.renameLoop st.tmp_clauses
                  { lit_original_to_simplified := [], simplified_clauses := [], k := 1 }).lit_original_to_simplified []
              lit_original_to_simplified :=
                (Simplification.renameLoop st.tmp_clauses
                  { lit_original_to_simplified := [], simplified_clauses := [], k := 1 }).lit_original_to_simplified } := by
  unfold Simplification.run at h
  split at h
  · cases h
  · rename_i q hq
    split at h
    · cases h
    · rename_i st hst
      refine ⟨q, st, hq, hst, ?_⟩
      simp only [Except.ok.injEq] at h
      exact h.symm

/-! ### The work loop on every run -/

theorem Shrinks.refl (tmp : List (List Int)) : Shrinks tmp tmp :=
  ⟨rfl, fun _ cl1 h => ⟨cl1, h, List.Sublist.refl _⟩⟩

theorem Shrinks.trans {a b c : List (List Int)} (h1 : Shrinks a b) (h2 : Shrinks b c) :
    Shrinks a c := by
  refine ⟨h2.1.trans h1.1, ?_⟩
  intro i cl2 hc
  obtain ⟨cl1, hb, s1⟩ := h2.2 i cl2 hc
  obtain ⟨cl, ha, s2⟩ := h1.2 i cl1 hb
  exact ⟨cl, ha, s1.trans s2⟩

theorem Shrinks.set (tmp : List (List Int)) (idx : Nat) (cl cl1 : List Int)
    (h : tmp[idx]? = some cl) (hs : cl1.Sublist cl) : Shrinks tmp (tmp.set idx cl1) := by
  refine ⟨List.length_set _ _ _, ?_⟩
  intro i c hc
  rcases getElem?_set_cases tmp idx i cl1 c hc with ⟨h1, h2⟩ | ⟨_, h2⟩
  · subst h1; subst h2
    exact ⟨cl, h, hs⟩
  · exact ⟨c, h2, List.Sublist.refl _⟩

theorem Processed.of_shrinks {cnf : CNF} {tmp tmp1 : List (List Int)} {x : Int} {v : Bool}
    (h : Processed cnf tmp x v) (hs : Shrinks tmp tmp1) : Processed cnf tmp1 x v := by
  intro i cl1 hc
  obtain ⟨cl, hcl, hsub⟩ := hs.2 i cl1 hc
  obtain ⟨p1, p2⟩ := h i cl hcl
  refine ⟨?_, ?_⟩
  · intro hv o ho hx
    have : cl = [] := p1 hv o ho hx
    subst this
    exact List.sublist_nil.mp hsub
  · intro hv hx
    exact p2 hv (hsub.subset hx)

theorem PropInv.shrink {cnf : CNF} {Q : Int × Bool → Prop} {tmp tmp1 : List (List Int)}
    {oa : List (Int × Bool)} (h : PropInv cnf Q tmp oa) (hs : Shrinks tmp tmp1)
    (hj : ∀ (i : Nat) (cl cl1 : List Int), tmp[i]? = some cl → tmp1[i]? = some cl1 → cl1 ≠ [] →
      ∀ x ∈ cl, x ∉ cl1 → oa.lookup x = some false ∨ Q (x, true)) :
    PropInv cnf Q tmp1 oa := by
  refine ⟨hs.1.trans h.len, ?_, h.qnz, ?_, ?_, ?_, h.both⟩
  · intro i cl1 hc
    obtain ⟨cl, hcl, hsub⟩ := hs.2 i cl1 hc
    obtain ⟨o, ho, hsub2⟩ := h.sub i cl hcl
    exact ⟨o, ho, hsub.trans hsub2⟩
  · intro x v hx
    rcases h.assigned x v hx with h1 | h1
    · exact Or.inl (h1.of_shrinks hs)
    · exact Or.inr h1
  · intro p hp
    rcases h.paired p hp with h1 | h1
    · exact Or.inl h1
    · exact Or.inr (h1.of_shrinks hs)
  · intro i cl1 o hc hne ho x hx hx1
    obtain ⟨cl, hcl, hsub⟩ := hs.2 i cl1 hc
    by_cases hxc : x ∈ cl
    · exact hj i cl cl1 hcl hc hne x hxc hx1
    · have hne2 : cl ≠ [] := by
        intro e; subst e
        exact hne (List.sublist_nil.mp hsub)
      exact h.removed i cl o hcl hne2 ho x hx hxc

theorem PropInv.extend {cnf : CNF} {Q Q1 : Int × Bool → Prop} {tmp : List (List Int)}
    {oa : List (Int × Bool)} (h : PropInv cnf Q tmp oa) (hmono : ∀ p, Q p → Q1 p)
    (hnew : ∀ p, Q1 p → ¬ Q p → p.1 ≠ 0 ∧ Q1 (-p.1, !p.2)) : PropInv cnf Q1 tmp oa := by
  refine ⟨h.len, h.sub, ?_, ?_, ?_, ?_, ?_⟩
  · intro p hp
    by_cases hq : Q p
    · exact h.qnz p hq
    · exact (hnew p hp hq).1
  · intro x v hx
    rcases h.assigned x v hx with h1 | h1
    · exact Or.inl h1
    · exact Or.inr (hmono _ h1)
  · intro p hp
    by_cases hq : Q p
    · rcases h.paired p hq with h1 | h1
      · exact Or.inl (hmono _ h1)
      · exact Or.inr h1
    · exact Or.inl (hnew p hp hq).2
  · intro i cl o hc hne ho x hx hx1
    rcases h.removed i cl o hc hne ho x hx hx1 with h1 | h1
    · exact Or.inl h1
    · exact Or.inr (hmono _ h1)
  · intro l v hl
    rcases h.both l v hl with h1 | ⟨w, h1⟩
    · exact Or.inl h1
    · exact Or.inr ⟨w, hmono _ h1⟩

theorem lookup_assign (oa : List (Int × Bool)) (y : Int) (u : Bool) (x : Int) (hy : y ≠ 0) :
    (mapSet (mapSet oa y u) (-y) (!u)).lookup x
      = if x = y then some u else if x = -y then some (!u) else oa.lookup x := by
  rw [lookup_mapSet, lookup_mapSet]
  by_cases h1 : x = -y
  · have h2 : x ≠ y := by omega
    rw [if_pos h1, if_neg h2, if_pos h1]
  · rw [if_neg h1, if_neg h1]

theorem PropInv.assign {cnf : CNF} {Q : Int × Bool → Prop} {tmp : List (List Int)}
    {oa : List (Int × Bool)} (h : PropInv cnf Q tmp oa) (y : Int) (u : Bool) (hq : Q (y, u)) :
    PropInv cnf Q tmp (mapSet (mapSet oa y u) (-y) (!u)) := by
  have hy : y ≠ 0 := h.qnz (y, u) hq
  have hpair : Q (-y, !u) ∨ Processed cnf tmp (-y) (!u) := h.paired (y, u) hq
  refine ⟨h.len, h.sub, h.qnz, ?_, h.paired, ?_, ?_⟩
  · intro x v hx
    rw [lookup_assign oa y u x hy] at hx
    by_cases h1 : x = y
    · rw [if_pos h1] at hx
      cases hx; subst h1
      exact Or.inr hq
    · rw [if_neg h1] at hx
      by_cases h2 : x = -y
      · rw [if_pos h2] at hx
        cases hx; subst h2
        rcases hpair with h3 | h3
        · exact Or.inr h3
        · exact Or.inl h3
      · rw [if_neg h2] at hx
        exact h.assigned x v hx
  · intro i cl o hc hne ho x hx hx1
    rw [lookup_assign oa y u x hy]
    rcases h.removed i cl o hc hne ho x hx hx1 with h3 | h3
    · by_cases h1 : x = y
      · rw [if_pos h1]
        subst h1
        cases u
        · exact Or.inl rfl
        · exact Or.inr hq
      · rw [if_neg h1]
        by_cases h2 : x = -y
        · rw [if_pos h2]
          cases u
          · -- the head is `(-x, false)`: its partner `(x, true)` is pending
            right
            rcases hpair with h4 | h4
            · rw [h2]; exact h4
            · exfalso
              have h5 := (h4 i cl hc).1 rfl o ho (by rw [← h2]; exact hx)
              exact hne h5
          · exact Or.inl rfl
        · rw [if_neg h2]
          exact Or.inl h3
    · exact Or.inr h3
  · intro l v hl
    rw [lookup_assign oa y u l hy] at hl
    rw [lookup_assign oa y u (-l) hy]
    by_cases h1 : l = y
    · rw [if_pos h1] at hl
      cases hl
      have e1 : -l ≠ y := by omega
      have e2 : -l = -y := by omega
      rw [if_neg e1, if_pos e2]
      exact Or.inl rfl
    · rw [if_neg h1] at hl
      by_cases h2 : l = -y
      · rw [if_pos h2] at hl
        cases hl
        have e1 : -l = y := by omega
        rw [if_pos e1]
        exact Or.inl (by simp)
      · rw [if_neg h2] at hl
        have e1 : -l ≠ y := by omega
        have e2 : -l ≠ -y := by omega
        rw [if_neg e1, if_neg e2]
        exact h.both l v hl

theorem PropInv.finish {cnf : CNF} {Q Q1 : Int × Bool → Prop} {tmp : List (List Int)}
    {oa : List (Int × Bool)} (h : PropInv cnf Q tmp oa) (y : Int) (u : Bool)
    (hdone : Processed cnf tmp y u) (hy : oa.lookup y = some u)
    (hny : oa.lookup (-y) = some (!u))
    (hsplit : ∀ p, Q p → p = (y, u) ∨ Q1 p) (hback : ∀ p, Q1 p → Q p) :
    PropInv cnf Q1 tmp oa := by
  refine ⟨h.len, h.sub, fun p hp => h.qnz p (hback p hp), ?_, ?_, ?_, ?_⟩
  · intro x v hx
    rcases h.assigned x v hx with h1 | h1
    · exact Or.inl h1
    · rcases hsplit _ h1 with h2 | h2
      · cases h2; exact Or.inl hdone
      · exact Or.inr h2
  · intro p hp
    rcases h.paired p (hback p hp) with h1 | h1
    · rcases hsplit _ h1 with h2 | h2
      · obtain ⟨e1, e2⟩ := Prod.mk.inj h2
        rw [e1, e2]; exact Or.inr hdone
      · exact Or.inl h2
    · exact Or.inr h1
  · intro i cl o hc hne ho x hx hx1
    rcases h.removed i cl o hc hne ho x hx hx1 with h1 | h1
    · exact Or.inl h1
    · rcases hsplit _ h1 with h2 | h2
      · exfalso
        cases h2
        exact hne ((hdone i cl hc).1 rfl o ho hx)
      · exact Or.inr h2
  · intro l v hl
    rcases h.both l v hl with h1 | ⟨w, h1⟩
    · exact Or.inl h1
    · rcases hsplit _ h1 with h2 | h2
      · cases h2
        rw [hy] at hl
        cases hl
        exact Or.inl hny
      · exact Or.inr ⟨w, h2⟩

theorem Shrinks.set_nil (tmp : List (List Int)) (idx : Nat) : Shrinks tmp (tmp.set idx []) := by
  cases h : tmp[idx]? with
  | none =>
    have : tmp.length ≤ idx := List.getElem?_eq_none_iff.mp h
    rw [List.set_eq_of_length_le this]
    exact Shrinks.refl tmp
  | some cl => exact Shrinks.set tmp idx cl [] h (List.nil_sublist _)

theorem satLoop_spec2 (idxs : List Nat) :
    ∀ (tmp : List (List Int)),
      Shrinks tmp (Simplification.satLoop idxs tmp)
        ∧ (∀ (i : Nat) (cl1 : List Int), (Simplification.satLoop idxs tmp)[i]? = some cl1 →
            cl1 = [] ∨ tmp[i]? = some cl1)
        ∧ (∀ i ∈ idxs, ∀ cl1 : List Int,
            (Simplification.satLoop idxs tmp)[i]? = some cl1 → cl1 = []) := by
  induction idxs with
  | nil =>
    intro tmp
    exact ⟨Shrinks.refl tmp, fun i cl1 h => Or.inr h, fun i hi => by cases hi⟩
  | cons idx rest ih =>
    intro tmp
    obtain ⟨h1, h2, h3⟩ := ih (tmp.set idx [])
    refine ⟨(Shrinks.set_nil tmp idx).trans h1, ?_, ?_⟩
    · intro i cl1 hc
      rcases h2 i cl1 hc with h4 | h4
      · exact Or.inl h4
      · rcases getElem?_set_cases tmp idx i [] cl1 h4 with ⟨_, h5⟩ | ⟨_, h5⟩
        · exact Or.inl h5
        · exact Or.inr h5
    · intro i hi cl1 hc
      rcases List.mem_cons.mp hi with h4 | h4
      · subst h4
        obtain ⟨cl, hcl, hsub⟩ := h1.2 i cl1 hc
        rcases getElem?_set_cases tmp i i [] cl hcl with ⟨_, h5⟩ | ⟨h5, _⟩
        · subst h5
          exact List.sublist_nil.mp hsub
        · exact absurd rfl h5
      · exact h3 i h4 cl1 hc

theorem mem_lit2clauses (cnf : CNF) (hnum : cnf.num_clauses = cnf.clauses.length) (lit : Int)
    (i : Nat) (o : List Int) (ho : cnf.clauses[i]? = some o) (hl : lit ∈ o) :
    i ∈ Simplification.lit2clauses cnf lit := by
  unfold Simplification.lit2clauses
  have hlt : i < cnf.clauses.length := by
    by_contra hc
    rw [List.getElem?_eq_none_iff.mpr (by omega)] at ho
    cases ho
  refine List.mem_filter.mpr ⟨List.mem_range.mpr (by omega), ?_⟩
  have : cnf.clauses.getD i [] = o := by
    rw [List.getD_eq_getElem?_getD, ho]; rfl
  rw [this]
  simpa using hl

theorem IsSet.nodup {s : List Int} (h : IsSet s) : s.Nodup :=
  List.Pairwise.imp (fun hab => ne_of_lt hab) h

theorem unsatLoop_inv (cnf : CNF) (hset : ∀ cl ∈ cnf.clauses, IsSet cl)
    (hnz : ∀ cl ∈ cnf.clauses, ∀ l ∈ cl, l ≠ 0) (y : Int) (idxs : List Nat) :
    ∀ (st st1 : Simplification.State), Simplification.unsatLoop y idxs st = Except.ok st1 →
      PropInv cnf (fun p => p = (y, false) ∨ p ∈ st.q) st.tmp_clauses st.original_assignments →
      st.original_assignments.lookup y = some false →
      PropInv cnf (fun p => p = (y, false) ∨ p ∈ st1.q) st1.tmp_clauses
          st1.original_assignments
        ∧ st1.original_assignments = st.original_assignments
        ∧ Shrinks st.tmp_clauses st1.tmp_clauses
        ∧ (∀ idx ∈ idxs, ∀ cl : List Int, st1.tmp_clauses[idx]? = some cl → y ∉ cl) := by
  induction idxs with
  | nil =>
    intro st st1 h hinv _
    simp only [Simplification.unsatLoop, Except.ok.injEq] at h
    subst h
    exact ⟨hinv, rfl, Shrinks.refl _, fun idx hidx => by cases hidx⟩
  | cons idx rest ih =>
    intro st st1 h hinv hy
    obtain ⟨clause, hget, hcases⟩ := unsatLoop_cons_ok y idx rest st st1 h
    obtain ⟨o, ho, hsub⟩ := hinv.sub idx clause hget
    have ho_mem : o ∈ cnf.clauses := List.getElem?_mem ho
    have hnodup : clause.Nodup := hsub.nodup (hset o ho_mem).nodup
    rcases hcases with ⟨hnil, h1⟩ | ⟨_, last_lit, heq, _, _, h1⟩ | ⟨_, _, h1⟩
    · obtain ⟨r1, r2, r3, r4⟩ := ih st st1 h1 hinv hy
      refine ⟨r1, r2, r3, ?_⟩
      intro i hi cl hcl
      rcases List.mem_cons.mp hi with h2 | h2
      · subst h2
        obtain ⟨cl0, hcl0, hs0⟩ := r3.2 i cl hcl
        rw [hget] at hcl0
        cases hcl0
        subst hnil
        rw [List.sublist_nil.mp hs0]
        simp
      · exact r4 i h2 cl hcl
    · have hlast_mem : last_lit ∈ clause := by
        have : last_lit ∈ clause.erase y := by rw [heq]; simp
        exact List.mem_of_mem_erase this
      have hlast : last_lit ≠ 0 := hnz o ho_mem last_lit (hsub.subset hlast_mem)
      have hs1 : Shrinks st.tmp_clauses (st.tmp_clauses.set idx []) :=
        Shrinks.set_nil _ _
      have hinv1 : PropInv cnf (fun p => p = (y, false) ∨ p ∈ st.q)
          (st.tmp_clauses.set idx []) st.original_assignments := by
        refine hinv.shrink hs1 ?_
        intro i cl cl1 hcl hcl1 hne x hx hx1
        rcases getElem?_set_cases _ idx i [] cl1 hcl1 with ⟨_, h5⟩ | ⟨_, h5⟩
        · exact absurd h5 hne
        · rw [hcl] at h5
          cases h5
          exact absurd hx hx1
      have hinv2 : PropInv cnf
          (fun p => p = (y, false) ∨ p ∈ (-last_lit, false) :: (last_lit, true) :: st.q)
          (st.tmp_clauses.set idx []) st.original_assignments := by
        refine hinv1.extend ?_ ?_
        · intro p hp
          rcases hp with h2 | h2
          · exact Or.inl h2
          · exact Or.inr (List.mem_cons_of_mem _ (List.mem_cons_of_mem _ h2))
        · intro p hp hnp
          rcases hp with h2 | h2
          · exact absurd (Or.inl h2) hnp
          · rcases List.mem_cons.mp h2 with h3 | h3
            · subst h3
              exact ⟨by simpa using hlast, Or.inr (by simp)⟩
            · rcases List.mem_cons.mp h3 with h4 | h4
              · subst h4
                exact ⟨hlast, Or.inr (by simp)⟩
              · exact absurd (Or.inr h4) hnp
      obtain ⟨r1, r2, r3, r4⟩ := ih _ st1 h1 hinv2 hy
      refine ⟨r1, r2, hs1.trans r3, ?_⟩
      intro i hi cl hcl
      rcases List.mem_cons.mp hi with h2 | h2
      · subst h2
        obtain ⟨cl0, hcl0, hs0⟩ := r3.2 i cl hcl
        rcases getElem?_set_cases _ i i [] cl0 hcl0 with ⟨_, h5⟩ | ⟨h5, _⟩
        · subst h5
          rw [List.sublist_nil.mp hs0]
          simp
        · exact absurd rfl h5
      · exact r4 i h2 cl hcl
    · have hs1 : Shrinks st.tmp_clauses (st.tmp_clauses.set idx (clause.erase y)) :=
        Shrinks.set _ _ clause _ hget (List.erase_sublist _ _)
      have hinv1 : PropInv cnf (fun p => p = (y, false) ∨ p ∈ st.q)
          (st.tmp_clauses.set idx (clause.erase y)) st.original_assignments := by
        refine hinv.shrink hs1 ?_
        intro i cl cl1 hcl hcl1 hne x hx hx1
        rcases getElem?_set_cases _ idx i _ cl1 hcl1 with ⟨h4, h5⟩ | ⟨_, h5⟩
        · subst h4; subst h5
          rw [hget] at hcl
          cases hcl
          by_cases hxy : x = y
          · subst hxy
            exact Or.inl hy
          · exact absurd ((List.mem_erase_of_ne hxy).mpr hx) hx1
        · rw [hcl] at h5
          cases h5
          exact absurd hx hx1
      obtain ⟨r1, r2, r3, r4⟩ := ih _ st1 h1 hinv1 hy
      refine ⟨r1, r2, hs1.trans r3, ?_⟩
      intro i hi cl hcl
      rcases List.mem_cons.mp hi with h2 | h2
      · subst h2
        obtain ⟨cl0, hcl0, hs0⟩ := r3.2 i cl hcl
        rcases getElem?_set_cases _ i i _ cl0 hcl0 with ⟨_, h5⟩ | ⟨h5, _⟩
        · subst h5
          intro hmem
          have := hs0.subset hmem
          exact absurd rfl ((hnodup.mem_erase_iff.mp this).1)
        · exact absurd rfl h5
      · exact r4 i h2 cl hcl

theorem step_inv (cnf : CNF) (hnum : cnf.num_clauses = cnf.clauses.length)
    (hset : ∀ cl ∈ cnf.clauses, IsSet cl) (hnz : ∀ cl ∈ cnf.clauses, ∀ l ∈ cl, l ≠ 0)
    (y : Int) (u : Bool) (st st1 : Simplification.State)
    (h : Simplification.step cnf y u st = Except.ok st1)
    (hinv : PropInv cnf (fun p => p = (y, u) ∨ p ∈ st.q) st.tmp_clauses
      st.original_assignments) :
    PropInv cnf (fun p => p ∈ st1.q) st1.tmp_clauses st1.original_assignments := by
  have hy : y ≠ 0 := hinv.qnz (y, u) (Or.inl rfl)
  have hinv1 := hinv.assign y u (Or.inl rfl)
  have hl1 : (mapSet (mapSet st.original_assignments y u) (-y) (!u)).lookup y = some u := by
    rw [lookup_assign _ y u y hy, if_pos rfl]
  have hl2 : (mapSet (mapSet st.original_assignments y u) (-y) (!u)).lookup (-y)
      = some (!u) := by
    have e1 : -y ≠ y := by omega
    rw [lookup_assign _ y u (-y) hy, if_neg e1, if_pos rfl]
  unfold Simplification.step at h
  cases u with
  | true =>
    simp only [if_true, Except.ok.injEq] at h
    subst h
    obtain ⟨s1, s2, s3⟩ := satLoop_spec2 (Simplification.lit2clauses cnf y) st.tmp_clauses
    have hinv2 : PropInv cnf (fun p => p = (y, true) ∨ p ∈ st.q)
        (Simplification.satLoop (Simplification.lit2clauses cnf y) st.tmp_clauses)
        (mapSet (mapSet st.original_assignments y true) (-y) (!true)) := by
      refine hinv1.shrink s1 ?_
      intro i cl cl1 hcl hcl1 hne x hx hx1
      rcases s2 i cl1 hcl1 with h4 | h4
      · exact absurd h4 hne
      · rw [hcl] at h4
        cases h4
        exact absurd hx hx1
    refine hinv2.finish y true ?_ hl1 hl2 (fun p hp => ?_) (fun p hp => Or.inr hp)
    · intro i cl hcl
      refine ⟨fun _ o ho hyo => ?_, (fun hc => by cases hc)⟩
      exact s3 i (mem_lit2clauses cnf hnum y i o ho hyo) cl hcl
    · rcases hp with h4 | h4
      · exact Or.inl h4
      · exact Or.inr h4
  | false =>
    simp only [Bool.false_eq_true, if_false] at h
    obtain ⟨r1, r2, r3, r4⟩ := unsatLoop_inv cnf hset hnz y _ _ st1 h hinv1 hl1
    have hl1a : st1.original_assignments.lookup y = some false := by rw [r2]; exact hl1
    have hl2a : st1.original_assignments.lookup (-y) = some (!false) := by rw [r2]; exact hl2
    have hdone : Processed cnf st1.tmp_clauses y false := by
      intro i cl hcl
      refine ⟨(fun hc => by cases hc), fun _ hmem => ?_⟩
      obtain ⟨o, ho, hsub⟩ := r1.sub i cl hcl
      exact r4 i (mem_lit2clauses cnf hnum y i o ho (hsub.subset hmem)) cl hcl hmem
    refine r1.finish y false hdone hl1a hl2a (fun p hp => ?_) (fun p hp => Or.inr hp)
    rcases hp with h4 | h4
    · exact Or.inl h4
    · exact Or.inr h4

theorem workLoop_inv (cnf : CNF) (hnum : cnf.num_clauses = cnf.clauses.length)
    (hset : ∀ cl ∈ cnf.clauses, IsSet cl) (hnz : ∀ cl ∈ cnf.clauses, ∀ l ∈ cl, l ≠ 0)
    (fuel : Nat) :
    ∀ (st st1 : Simplification.State), Simplification.workLoop cnf fuel st = Except.ok st1 →
      PropInv cnf (fun p => p ∈ st.q) st.tmp_clauses st.original_assignments →
      PropInv cnf (fun p => p ∈ st1.q) st1.tmp_clauses st1.original_assignments
        ∧ st1.q = [] := by
  induction fuel with
  | zero =>
    intro st st1 h hinv
    unfold Simplification.workLoop at h
    split at h
    · rename_i hq
      cases h
      exact ⟨hinv, hq⟩
    · cases h
  | succ fuel ih =>
    intro st st1 h hinv
    unfold Simplification.workLoop at h
    split at h
    · rename_i hq
      cases h
      exact ⟨hinv, hq⟩
    · rename_i lit val q hq
      split at h
      · rename_i st2 hstep
        refine ih st2 st1 h (step_inv cnf hnum hset hnz lit val _ st2 hstep ?_)
        refine hinv.extend ?_ ?_
        · intro p hp
          rw [hq] at hp
          rcases List.mem_cons.mp hp with h1 | h1
          · exact Or.inl h1
          · exact Or.inr h1
        · intro p hp hnp
          exfalso
          apply hnp
          show p ∈ st.q
          rw [hq]
          rcases hp with h1 | h1
          · rw [h1]; exact List.mem_cons_self _ _
          · exact List.mem_cons_of_mem _ h1
      · cases h

theorem seed_inv (A : List (Int × Bool)) :
    ∀ (q0 q : List (Int × Bool)), Simplification.seed A q0 = Except.ok q →
      (∀ p ∈ A, p.1 ≠ 0)
        ∧ (∀ p ∈ q, p ∈ q0 ∨ ∃ a ∈ A, p = a ∨ p = (-a.1, !a.2))
        ∧ (∀ p ∈ q0, p ∈ q)
        ∧ (∀ a ∈ A, a ∈ q ∧ (-a.1, !a.2) ∈ q) := by
  induction A with
  | nil =>
    intro q0 q h
    simp only [Simplification.seed, Except.ok.injEq] at h
    subst h
    exact ⟨(fun p hp => by cases hp), fun p hp => Or.inl hp, fun p hp => hp,
      (fun a ha => by cases ha)⟩
  | cons a rest ih =>
    intro q0 q h
    obtain ⟨lit, val⟩ := a
    unfold Simplification.seed at h
    split at h
    · cases h
    · rename_i hlit
      obtain ⟨r1, r2, r3, r4⟩ := ih _ q h
      refine ⟨?_, ?_, ?_, ?_⟩
      · intro p hp
        rcases List.mem_cons.mp hp with h1 | h1
        · subst h1; exact hlit
        · exact r1 p h1
      · intro p hp
        rcases r2 p hp with h1 | ⟨a, ha, h1⟩
        · rcases List.mem_cons.mp h1 with h2 | h2
          · exact Or.inr ⟨(lit, val), List.mem_cons_self _ _, Or.inr h2⟩
          · rcases List.mem_cons.mp h2 with h3 | h3
            · exact Or.inr ⟨(lit, val), List.mem_cons_self _ _, Or.inl h3⟩
            · exact Or.inl h3
        · exact Or.inr ⟨a, List.mem_cons_of_mem _ ha, h1⟩
      · intro p hp
        exact r3 p (List.mem_cons_of_mem _ (List.mem_cons_of_mem _ hp))
      · intro a ha
        rcases List.mem_cons.mp ha with h1 | h1
        · subst h1
          exact ⟨r3 _ (by simp), r3 _ (by simp)⟩
        · exact r4 a h1

theorem PropInv.at_seed (cnf : CNF) (A q : List (Int × Bool))
    (h : Simplification.seed A [] = Except.ok q) :
    PropInv cnf (fun p => p ∈ q) cnf.clauses A := by
  obtain ⟨r1, r2, _, r4⟩ := seed_inv A [] q h
  refine ⟨rfl, fun i cl hcl => ⟨cl, hcl, List.Sublist.refl _⟩, ?_, ?_, ?_, ?_, ?_⟩
  · intro p hp
    rcases r2 p hp with h1 | ⟨a, ha, h1 | h1⟩
    · cases h1
    · rw [h1]; exact r1 a ha
    · rw [h1]
      have := r1 a ha
      simpa using this
  · intro x v hx
    exact Or.inr (r4 (x, v) (lookup_mem A x v hx)).1
  · intro p hp
    left
    rcases r2 p hp with h1 | ⟨a, ha, h1 | h1⟩
    · cases h1
    · rw [h1]; exact (r4 a ha).2
    · rw [h1]
      have := (r4 a ha).1
      simpa using this
  · intro i cl o hcl _ ho x hx hx1
    rw [hcl] at ho
    cases ho
    exact absurd hx hx1
  · intro l v hl
    exact Or.inr ⟨v, (r4 (l, v) (lookup_mem A l v hl)).1⟩

theorem combineLoop_pure (digest : List SymBitVec) (n : Nat) :
    ∀ (i : Nat) (acc : SymBitVec), i + n ≤ digest.length →
      ∃ r, ∀ L : Ledger, MD5.combineLoop digest n i acc L = Except.ok (r, L) := by
  induction n with
  | zero => intro i acc _; exact ⟨acc, fun L => rfl⟩
  | succ n ih =>
    intro i acc hi
    have hlt : i < digest.length := by omega
    have hr : ∀ L : Ledger, readAt digest i L = Except.ok (digest[i], L) := by
      intro L
      simp [readAt, List.getElem?_eq_getElem hlt]
    obtain ⟨r, hr2⟩ := ih (i + 1) (digest[i].concat acc) (by omega)
    refine ⟨r, fun L => ?_⟩
    unfold MD5.combineLoop
    rw [Sym.bind_ok _ _ L L _ (hr L)]
    exact hr2 L

theorem combineLoop_pure_ok (digest : List SymBitVec) (n i : Nat) (acc : SymBitVec)
    (hi : i + n ≤ digest.length) :
    Sym.Ok (MD5.combineLoop digest n i acc)
      (fun r => ∀ L : Ledger, MD5.combineLoop digest n i acc L = Except.ok (r, L)) := by
  obtain ⟨r, hr⟩ := combineLoop_pure digest n i acc hi
  exact fun L => ⟨r, L, hr L, hr⟩

/-- `hash` on an object of the right shape and a byte-aligned input returns; the
object is then finalized, the returned vector is the concatenation of its
digest bytes, and the digest is the one the object had if it was already
finalized. -/
theorem MD5.hash_spec (m : MD5) (hash_input : SymBitVec) (difficulty : Int) (hm : m.Shape)
    (h8 : hash_input.size % 8 = 0) :
    Sym.Ok (MD5.hash m hash_input difficulty) (fun r => r.2.Shape ∧ r.2.finalized = true
      ∧ (∀ L : Ledger, MD5.combineLoop r.2.digest 16 0 SymBitVec.empty L = Except.ok (r.1, L))
      ∧ (m.finalized = true → r.2.digest = m.digest)
      ∧ (m.finalized = false → r.1.size = 128)) := by
  unfold MD5.hash
  refine Sym.Ok.bind (assert_ok (by simp [h8])) (fun _ _ => ?_)
  refine Sym.Ok.bind (MD5.update_ok m _ _ hm (by simp)) (fun m1 hm1 => ?_)
  have hfin : Sym.Ok (MD5.finalize m1) (fun m2 => m2.Shape ∧ m2.finalized = true
      ∧ (m.finalized = true → m2.digest = m.digest)
      ∧ (m.finalized = false → ∀ v ∈ m2.digest, v.size = 8)) := by
    cases hf : m.finalized with
    | true =>
      have hf1 : m1.finalized = true := by rw [hm1.2.2.1, hf]
      unfold MD5.finalize
      simp only [hf1, if_true]
      exact Sym.Ok.ret ⟨hm1.1, hf1, fun _ => hm1.2.2.2.1, fun h => by cases h⟩
    | false =>
      have hf1 : m1.finalized = false := by rw [hm1.2.2.1, hf]
      exact (MD5.finalize_ok m1 hm1.1 hf1).mono
        (fun m2 h2 => ⟨h2.1, h2.2.1, (fun h => by cases h), fun _ => h2.2.2⟩)
  refine Sym.Ok.bind hfin (fun m2 hm2 => ?_)
  have hsize : Sym.Ok (MD5.combineLoop m2.digest 16 0 SymBitVec.empty)
      (fun d => (∀ L : Ledger, MD5.combineLoop m2.digest 16 0 SymBitVec.empty L
          = Except.ok (d, L)) ∧ (m.finalized = false → d.size = 128)) := by
    intro L
    obtain ⟨d, L1, h1, h2⟩ := combineLoop_pure_ok m2.digest 16 0 SymBitVec.empty
      (by rw [hm2.1.digest_len]) L
    refine ⟨d, L1, h1, h2, fun hf => ?_⟩
    obtain ⟨d1, L2, h3, h4⟩ := combineLoop_ok m2.digest (hm2.2.2.2 hf) 16 0 SymBitVec.empty
      (by rw [hm2.1.digest_len]) L
    rw [h1] at h3
    cases h3
    rw [h4]; rfl
  refine Sym.Ok.bind hsize (fun d hd => ?_)
  exact Sym.Ok.ret ⟨hm2.1, hm2.2.1, hd.1, hm2.2.2.1, hd.2⟩

/-- C21. For all byte-aligned inputs `x1` and `x2`, a fresh object and every
ledger: the first call `hash(x1)` returns a vector `d` of 128 bits, and a second
call `hash(x2)` on the same object, on whatever ledger, returns and gives the
same vector `d`: `update` runs again but `finalize` returns early, so `digest`
is the one of the first call. -/
theorem C21_second_hash_same_digest (x1 x2 : SymBitVec) (difficulty1 difficulty2 : Int)
    (L : Ledger) (h1 : x1.size % 8 = 0) (h2 : x2.size % 8 = 0) :
    ∃ d m1 L1, MD5.hash MD5.new x1 difficulty1 L = Except.ok ((d, m1), L1)
      ∧ d.size = 128
      ∧ ∀ L2 : Ledger, ∃ m2 L3, MD5.hash m1 x2 difficulty2 L2 = Except.ok ((d, m2), L3) := by
  obtain ⟨⟨d, m1⟩, L1, e1, s1, f1, c1, _, z1⟩ :=
    MD5.hash_spec MD5.new x1 difficulty1 MD5.new_shape h1 L
  refine ⟨d, m1, L1, e1, z1 rfl, fun L2 => ?_⟩
  obtain ⟨⟨d2, m2⟩, L3, e2, _, _, c2, g2, _⟩ := MD5.hash_spec m1 x2 difficulty2 s1 h2 L2
  have hd : m2.digest = m1.digest := g2 f1
  have hc := c2 L
  simp only at hc hd c1
  rw [hd, c1 L] at hc
  have : d = d2 := by
    have := Except.ok.inj hc
    exact (Prod.mk.inj this).1
  subst this
  exact ⟨m2, L3, e2⟩

/-- Witness of C21: `abc` first, then the empty input. -/
theorem C21_second_hash_same_digest_witness :
    ∃ d m1 L1, MD5.hash MD5.new (SymBitVec.ofUInt64 0x636261 24) 0 Ledger.fresh
        = Except.ok ((d, m1), L1)
      ∧ d.size = 128
      ∧ ∀ L2 : Ledger, ∃ m2 L3, MD5.hash m1 SymBitVec.empty 0 L2 = Except.ok ((d, m2), L3) :=
  C21_second_hash_same_digest (SymBitVec.ofUInt64 0x636261 24) SymBitVec.empty 0 0 Ledger.fresh
    (by decide) (by decide)

/-! ### The work loop ends within its bound -/

theorem lit2clauses_lt (cnf : CNF) (lit : Int) (idx : Nat)
    (h : idx ∈ Simplification.lit2clauses cnf lit) : idx < cnf.num_clauses := by
  unfold Simplification.lit2clauses at h
  exact List.mem_range.mp (List.mem_filter.mp h).1

theorem satLoop_count (n : Nat) (idxs : List Nat) : ∀ (tmp : List (List Int)),
    nonEmptyCount ((Simplification.satLoop idxs tmp).take n) ≤ nonEmptyCount (tmp.take n) := by
  induction idxs with
  | nil => intro tmp; exact le_refl _
  | cons idx rest ih =>
    intro tmp
    refine le_trans (ih (tmp.set idx [])) ?_
    rw [List.set_take]
    exact nonEmptyCount_set_nil_le _ _

theorem unsatLoop_pending (cnf : CNF) (y : Int) (idxs : List Nat) :
    ∀ (st st1 : Simplification.State), (∀ idx ∈ idxs, idx < cnf.num_clauses) →
      Simplification.unsatLoop y idxs st = Except.ok st1 →
      st1.pending cnf ≤ st.pending cnf := by
  induction idxs with
  | nil =>
    intro st st1 _ h
    simp only [Simplification.unsatLoop, Except.ok.injEq] at h
    subst h; exact le_refl _
  | cons idx rest ih =>
    intro st st1 hidx h
    have hlt : idx < cnf.num_clauses := hidx idx (List.mem_cons_self _ _)
    have hrest : ∀ i ∈ rest, i < cnf.num_clauses := fun i hi => hidx i (List.mem_cons_of_mem _ hi)
    obtain ⟨clause, hget, hcases⟩ := unsatLoop_cons_ok y idx rest st st1 h
    have hget1 : (st.tmp_clauses.take cnf.num_clauses)[idx]? = some clause := by
      rw [List.getElem?_take_of_lt hlt]; exact hget
    rcases hcases with ⟨_, h1⟩ | ⟨hlen, last_lit, _, _, _, h1⟩ | ⟨hlen, _, h1⟩
    · exact ih st st1 hrest h1
    · refine le_trans (ih _ st1 hrest h1) ?_
      have hne : clause ≠ [] := by
        intro e; rw [e] at hlen; simp at hlen
      have := nonEmptyCount_set_nil (st.tmp_clauses.take cnf.num_clauses) idx clause hget1 hne
      simp only [Simplification.State.pending, List.set_take, List.length_cons]
      omega
    · refine le_trans (ih _ st1 hrest h1) ?_
      have hne : clause ≠ [] := by
        intro e; rw [e] at hlen; simp at hlen
      have := nonEmptyCount_set_le (st.tmp_clauses.take cnf.num_clauses) idx clause
        (clause.erase y) hget1 hne
      simp only [Simplification.State.pending, List.set_take]
      omega

theorem unsatLoop_not_fuel (y : Int) (idxs : List Nat) :
    ∀ (st : Simplification.State),
      Simplification.unsatLoop y idxs st ≠ Except.error Err.fuel := by
  induction idxs with
  | nil => intro st h; simp [Simplification.unsatLoop] at h
  | cons idx rest ih =>
    intro st h
    unfold Simplification.unsatLoop at h
    split at h
    · cases h
    · split at h
      · exact ih _ h
      · split at h
        · cases h
        · dsimp only at h
          split at h
          · split at h
            · cases h
            · split at h
              · cases h
              · exact ih _ h
          · exact ih _ h

theorem step_pending (cnf : CNF) (y : Int) (u : Bool) (st st1 : Simplification.State)
    (h : Simplification.step cnf y u st = Except.ok st1) :
    st1.pending cnf ≤ st.pending cnf := by
  unfold Simplification.step at h
  cases u with
  | true =>
    simp only [if_true, Except.ok.injEq] at h
    subst h
    have := satLoop_count cnf.num_clauses (Simplification.lit2clauses cnf y) st.tmp_clauses
    simp only [Simplification.State.pending]
    omega
  | false =>
    simp only [Bool.false_eq_true, if_false] at h
    exact unsatLoop_pending cnf y _
      { st with original_assignments := mapSet (mapSet st.original_assignments y false) (-y) (!false) }
      st1 (fun idx hidx => lit2clauses_lt cnf y idx hidx) h

theorem step_not_fuel (cnf : CNF) (y : Int) (u : Bool) (st : Simplification.State) :
    Simplification.step cnf y u st ≠ Except.error Err.fuel := by
  unfold Simplification.step
  cases u with
  | true => intro h; simp at h
  | false =>
    simp only [Bool.false_eq_true, if_false]
    exact unsatLoop_not_fuel y _ _

theorem workLoop_bounded (cnf : CNF) (fuel : Nat) :
    ∀ (st : Simplification.State), st.pending cnf ≤ fuel →
      (∀ extra, Simplification.workLoop cnf (fuel + extra) st
          = Simplification.workLoop cnf fuel st)
        ∧ Simplification.workLoop cnf fuel st ≠ Except.error Err.fuel := by
  induction fuel with
  | zero =>
    intro st hp
    have hq : st.q = [] := by
      apply List.length_eq_zero.mp
      simp only [Simplification.State.pending] at hp
      omega
    refine ⟨fun extra => ?_, ?_⟩
    · cases extra with
      | zero => rfl
      | succ e =>
        rw [Nat.zero_add]
        simp only [Simplification.workLoop, hq, if_true]
    · simp [Simplification.workLoop, hq]
  | succ fuel ih =>
    intro st hp
    cases hq : st.q with
    | nil =>
      refine ⟨fun extra => ?_, ?_⟩
      · have e : fuel + 1 + extra = (fuel + extra) + 1 := by omega
        rw [e]
        simp only [Simplification.workLoop, hq]
      · simp [Simplification.workLoop, hq]
    | cons p rest =>
      obtain ⟨lit, val⟩ := p
      cases hstep : Simplification.step cnf lit val { st with q := rest } with
      | error e =>
        have hne : e ≠ Err.fuel := by
          intro he
          rw [he] at hstep
          exact step_not_fuel cnf lit val _ hstep
        refine ⟨fun extra => ?_, ?_⟩
        · have e1 : fuel + 1 + extra = (fuel + extra) + 1 := by omega
          rw [e1]
          simp only [Simplification.workLoop, hq, hstep]
        · simp only [Simplification.workLoop, hq, hstep]
          intro h
          exact hne (Except.error.inj h)
      | ok st1 =>
        have h1 := step_pending cnf lit val _ st1 hstep
        have h2 : st1.pending cnf ≤ fuel := by
          have : ({ st with q := rest } : Simplification.State).pending cnf + 1
              = st.pending cnf := by
            simp only [Simplification.State.pending, hq, List.length_cons]
            omega
          omega
        obtain ⟨i1, i2⟩ := ih st1 h2
        refine ⟨fun extra => ?_, ?_⟩
        · have e1 : fuel + 1 + extra = (fuel + extra) + 1 := by omega
          rw [e1]
          simp only [Simplification.workLoop, hq, hstep]
          exact i1 extra
        · simp only [Simplification.workLoop, hq, hstep]
          exact i2

theorem seed_length (A : List (Int × Bool)) :
    ∀ (q0 q : List (Int × Bool)), Simplification.seed A q0 = Except.ok q →
      q.length = 2 * A.length + q0.length := by
  induction A with
  | nil =>
    intro q0 q h
    simp only [Simplification.seed, Except.ok.injEq] at h
    subst h; simp
  | cons a rest ih =>
    intro q0 q h
    obtain ⟨lit, val⟩ := a
    unfold Simplification.seed at h
    split at h
    · cases h
    · rw [ih _ q h]
      simp only [List.length_cons]
      omega

theorem seed_not_fuel (A : List (Int × Bool)) :
    ∀ (q0 : List (Int × Bool)), Simplification.seed A q0 ≠ Except.error Err.fuel := by
  induction A with
  | nil => intro q0 h; simp [Simplification.seed] at h
  | cons a rest ih =>
    intro q0 h
    obtain ⟨lit, val⟩ := a
    unfold Simplification.seed at h
    split at h
    · cases h
    · exact ih _ h

theorem pending_initial (cnf : CNF) (A q : List (Int × Bool))
    (hq : Simplification.seed A [] = Except.ok q) :
    ({ q := q, tmp_clauses := cnf.clauses, original_assignments := A }
        : Simplification.State).pending cnf ≤ 2 * A.length + 2 * cnf.num_clauses := by
  have h1 := seed_length A [] q hq
  have h2 := nonEmptyCount_le_length (cnf.clauses.take cnf.num_clauses)
  have h3 : (cnf.clauses.take cnf.num_clauses).length ≤ cnf.num_clauses := by
    rw [List.length_take]; omega
  simp only [Simplification.State.pending, List.length_nil] at h1 ⊢
  omega

/-- C22. For every CNF and every assignment whose keys pass the assertion of
the seeding loop, the work loop ends within `2 * |A| + 2 * num_clauses`
iterations (one pair is popped per iteration, so no more pairs than that are
ever popped): run with that many iterations allowed it never reaches the
cut-off, and allowing more iterations does not change its result. The
constructor as a whole never stops at the cut-off. -/
theorem C22_work_loop_terminates (cnf : CNF) (A q : List (Int × Bool))
    (hq : Simplification.seed A [] = Except.ok q) :
    (∀ extra, Simplification.workLoop cnf (2 * A.length + 2 * cnf.num_clauses + extra)
          { q := q, tmp_clauses := cnf.clauses, original_assignments := A }
        = Simplification.workLoop cnf (2 * A.length + 2 * cnf.num_clauses)
          { q := q, tmp_clauses := cnf.clauses, original_assignments := A })
      ∧ Simplification.workLoop cnf (2 * A.length + 2 * cnf.num_clauses)
          { q := q, tmp_clauses := cnf.clauses, original_assignments := A }
          ≠ Except.error Err.fuel
      ∧ Simplification.run cnf A ≠ Except.error Err.fuel := by
  obtain ⟨h1, h2⟩ := workLoop_bounded cnf (2 * A.length + 2 * cnf.num_clauses) _
    (pending_initial cnf A q hq)
  refine ⟨h1, h2, ?_⟩
  unfold Simplification.run
  simp only [hq, Simplification.fuelFor]
  rw [h1 1]
  intro h
  split at h
  · rename_i e he
    cases h
    exact h2 he
  · cases h

/-- Witness of C22 at `CNF({{-1,2},{-2,3},{1,3,4},{-5,6}}, 6)` and `{1 -> true}`. -/
theorem C22_work_loop_terminates_witness :
    (∀ extra, Simplification.workLoop (CNF.ofClauses [[-1, 2], [-2, 3], [1, 3, 4], [-5, 6]] 6)
          (2 * [((1 : Int), true)].length
            + 2 * (CNF.ofClauses [[-1, 2], [-2, 3], [1, 3, 4], [-5, 6]] 6).num_clauses + extra)
          { q := [(-1, false), (1, true)]
            tmp_clauses := (CNF.ofClauses [[-1, 2], [-2, 3], [1, 3, 4], [-5, 6]] 6).clauses
            original_assignments := [(1, true)] }
        = Simplification.workLoop (CNF.ofClauses [[-1, 2], [-2, 3], [1, 3, 4], [-5, 6]] 6)
          (2 * [((1 : Int), true)].length
            + 2 * (CNF.ofClauses [[-1, 2], [-2, 3], [1, 3, 4], [-5, 6]] 6).num_clauses)
          { q := [(-1, false), (1, true)]
            tmp_clauses := (CNF.ofClauses [[-1, 2], [-2, 3], [1, 3, 4], [-5, 6]] 6).clauses
            original_assignments := [(1, true)] })
      ∧ Simplification.workLoop (CNF.ofClauses [[-1, 2], [-2, 3], [1, 3, 4], [-5, 6]] 6)
          (2 * [((1 : Int), true)].length
            + 2 * (CNF.ofClauses [[-1, 2], [-2, 3], [1, 3, 4], [-5, 6]] 6).num_clauses)
          { q := [(-1, false), (1, true)]
            tmp_clauses := (CNF.ofClauses [[-1, 2], [-2, 3], [1, 3, 4], [-5, 6]] 6).clauses
            original_assignments := [(1, true)] }
          ≠ Except.error Err.fuel
      ∧ Simplification.run (CNF.ofClauses [[-1, 2], [-2, 3], [1, 3, 4], [-5, 6]] 6) [(1, true)]
          ≠ Except.error Err.fuel :=
  C22_work_loop_terminates (CNF.ofClauses [[-1, 2], [-2, 3], [1, 3, 4], [-5, 6]] 6)
    [(1, true)] [(-1, false), (1, true)] rfl

/-! ### No unit clause is left -/

theorem unsatLoop_clauses (P : List Int → Prop) (h0 : P [])
    (he : ∀ (cl : List Int) (y : Int), P cl → (∀ last_lit, cl.erase y ≠ [last_lit]) →
      P (cl.erase y))
    (y : Int) (idxs : List Nat) :
    ∀ (st st1 : Simplification.State), Simplification.unsatLoop y idxs st = Except.ok st1 →
      (∀ cl ∈ st.tmp_clauses, P cl) → ∀ cl ∈ st1.tmp_clauses, P cl := by
  induction idxs with
  | nil =>
    intro st st1 h hP
    simp only [Simplification.unsatLoop, Except.ok.injEq] at h
    subst h; exact hP
  | cons idx rest ih =>
    intro st st1 h hP
    obtain ⟨clause, hget, hcases⟩ := unsatLoop_cons_ok y idx rest st st1 h
    have hmem : clause ∈ st.tmp_clauses := List.getElem?_mem hget
    rcases hcases with ⟨_, h1⟩ | ⟨_, last_lit, _, _, _, h1⟩ | ⟨_, hne, h1⟩
    · exact ih st st1 h1 hP
    · refine ih _ st1 h1 ?_
      intro cl hcl
      rcases List.mem_or_eq_of_mem_set hcl with h2 | h2
      · exact hP cl h2
      · rw [h2]; exact h0
    · refine ih _ st1 h1 ?_
      intro cl hcl
      rcases List.mem_or_eq_of_mem_set hcl with h2 | h2
      · exact hP cl h2
      · rw [h2]; exact he clause y (hP clause hmem) hne

theorem satLoop_clauses (P : List Int → Prop) (h0 : P []) (idxs : List Nat) :
    ∀ (tmp : List (List Int)), (∀ cl ∈ tmp, P cl) →
      ∀ cl ∈ Simplification.satLoop idxs tmp, P cl := by
  induction idxs with
  | nil => intro tmp h; exact h
  | cons idx rest ih =>
    intro tmp h
    refine ih _ ?_
    intro cl hcl
    rcases List.mem_or_eq_of_mem_set hcl with h1 | h1
    · exact h cl h1
    · rw [h1]; exact h0

theorem workLoop_clauses (P : List Int → Prop) (h0 : P [])
    (he : ∀ (cl : List Int) (y : Int), P cl → (∀ last_lit, cl.erase y ≠ [last_lit]) →
      P (cl.erase y))
    (cnf : CNF) (fuel : Nat) :
    ∀ (st st1 : Simplification.State), Simplification.workLoop cnf fuel st = Except.ok st1 →
      (∀ cl ∈ st.tmp_clauses, P cl) → ∀ cl ∈ st1.tmp_clauses, P cl := by
  induction fuel with
  | zero =>
    intro st st1 h hP
    unfold Simplification.workLoop at h
    split at h
    · cases h; exact hP
    · cases h
  | succ fuel ih =>
    intro st st1 h hP
    unfold Simplification.workLoop at h
    split at h
    · cases h; exact hP
    · rename_i lit val q hq
      split at h
      · rename_i st2 hstep
        refine ih st2 st1 h ?_
        unfold Simplification.step at hstep
        split at hstep
        · cases hstep
          exact satLoop_clauses P h0 _ _ hP
        · exact unsatLoop_clauses P h0 he lit _ _ st2 hstep hP
      · cases h

theorem two_le_length_of_mem {l : List Int} {a b : Int} (ha : a ∈ l) (hb : b ∈ l)
    (hab : a ≠ b) : 2 ≤ l.length := by
  match l, ha, hb with
  | [], ha, _ => cases ha
  | [x], ha, hb =>
    rw [List.mem_singleton] at ha hb
    exact absurd (ha.trans hb.symm) hab
  | _ :: _ :: _, _, _ => simp

/-- C23. Whenever `CNF::Simplification(c, A)` completes on a CNF whose clauses
are sets of nonzero literals with at least 2 literals each (and `num_clauses`
their number), every clause of `simplified_cnf` has at least 2 literals and
`simplified_cnf.num_clauses` is at most the `num_clauses` of `c`. -/
theorem C23_no_new_unit_clause (cnf : CNF) (A : List (Int × Bool)) (s : Simplification)
    (hnum : cnf.num_clauses = cnf.clauses.length)
    (hset : ∀ cl ∈ cnf.clauses, IsSet cl)
    (hnz : ∀ cl ∈ cnf.clauses, ∀ l ∈ cl, l ≠ 0)
    (h2 : ∀ cl ∈ cnf.clauses, 2 ≤ cl.length)
    (hrun : Simplification.run cnf A = Except.ok s) :
    (∀ cl ∈ s.simplified_cnf.clauses, 2 ≤ cl.length)
      ∧ s.simplified_cnf.num_clauses ≤ cnf.num_clauses := by
  obtain ⟨q, st, hseed, hst, hs⟩ := run_ok cnf A s hrun
  obtain ⟨hinv, _⟩ := workLoop_inv cnf hnum hset hnz _ _ st hst (PropInv.at_seed cnf A q hseed)
  have hnz1 : ∀ cl ∈ st.tmp_clauses, ∀ l ∈ cl, l ≠ 0 := workLoop_nz cnf _ _ st hst hnz
  have hP : ∀ cl ∈ st.tmp_clauses, cl.Nodup ∧ cl.length ≠ 1 := by
    refine workLoop_clauses (fun cl => cl.Nodup ∧ cl.length ≠ 1) ⟨List.nodup_nil, by simp⟩
      ?_ cnf _ _ st hst ?_
    · intro cl y hcl hne
      refine ⟨hcl.1.erase y, fun hlen => ?_⟩
      obtain ⟨a, ha⟩ := List.length_eq_one.mp hlen
      exact hne a ha
    · intro cl hcl
      have := h2 cl hcl
      exact ⟨(hset cl hcl).nodup, by omega⟩
  obtain ⟨hI, _, r3, r4⟩ := renameLoop_spec st.tmp_clauses
    { lit_original_to_simplified := [], simplified_clauses := [], k := 1 } hnz1 RenInv.init
  generalize hr : Simplification.renameLoop st.tmp_clauses
    { lit_original_to_simplified := [], simplified_clauses := [], k := 1 } = r at hs hI r3 r4
  rw [List.nil_append] at r4
  subst hs
  simp only [CNF.ofClauses]
  refine ⟨?_, ?_⟩
  · intro cl hcl
    rw [r4] at hcl
    obtain ⟨cl0, hcl0, rfl⟩ := List.mem_map.mp hcl
    obtain ⟨hcl1, hcl2⟩ := List.mem_filter.mp hcl0
    obtain ⟨hnd, hlen⟩ := hP cl0 hcl1
    have hlen0 : cl0.length ≠ 0 := by simpa using hcl2
    match cl0, hnd, hlen, hlen0, hcl1 with
    | [], _, _, h0, _ => exact absurd rfl h0
    | [_], _, h1, _, _ => exact absurd rfl h1
    | a :: b :: rest, hnd, _, _, hcl1 =>
      have hab : a ≠ b := by
        intro e
        rw [e] at hnd
        exact (List.nodup_cons.mp hnd).1 (List.mem_cons_self _ _)
      obtain ⟨va, hva⟩ := Option.isSome_iff_exists.mp
        (r3 _ hcl1 a (List.mem_cons_self _ _))
      obtain ⟨vb, hvb⟩ := Option.isSome_iff_exists.mp
        (r3 _ hcl1 b (List.mem_cons_of_mem _ (List.mem_cons_self _ _)))
      have hv : va ≠ vb := by
        intro e
        have e1 := invert_of_lookup _ _ hI a va hva
        have e2 := invert_of_lookup _ _ hI b vb hvb
        rw [e, e2] at e1
        exact hab (Option.some.inj e1).symm
      refine two_le_length_of_mem ?_ ?_ hv
      · rw [mem_setOfList]
        exact List.mem_map.mpr ⟨a, List.mem_cons_self _ _, by rw [hva]; rfl⟩
      · rw [mem_setOfList]
        exact List.mem_map.mpr
          ⟨b, List.mem_cons_of_mem _ (List.mem_cons_self _ _), by rw [hvb]; rfl⟩
  · rw [r4, List.length_map, hnum, ← hinv.len]
    exact List.length_filter_le _ _

/-- Witness of C23: `1 = true` on `{-1,2}`, `{-2,3}`, `{1,3,4}`, `{-5,6}`,
`{-3,7,8}` leaves `{-5,6}` and `{7,8}`. -/
theorem C23_no_new_unit_clause_witness :
    ∃ s, Simplification.run
        (CNF.ofClauses [[-1, 2], [-2, 3], [1, 3, 4], [-5, 6], [-3, 7, 8]] 8) [(1, true)]
        = Except.ok s
      ∧ (∀ cl ∈ s.simplified_cnf.clauses, 2 ≤ cl.length)
      ∧ s.simplified_cnf.num_clauses
          ≤ (CNF.ofClauses [[-1, 2], [-2, 3], [1, 3, 4], [-5, 6], [-3, 7, 8]] 8).num_clauses := by
  have h : ∃ s, Simplification.run
      (CNF.ofClauses [[-1, 2], [-2, 3], [1, 3, 4], [-5, 6], [-3, 7, 8]] 8) [(1, true)]
      = Except.ok s := ⟨_, rfl⟩
  obtain ⟨s, hs⟩ := h
  exact ⟨s, hs, C23_no_new_unit_clause
    (CNF.ofClauses [[-1, 2], [-2, 3], [1, 3, 4], [-5, 6], [-3, 7, 8]] 8) [(1, true)] s rfl
    (by decide) (by decide) (by decide) hs⟩

/-! ### The simplification on literals in range -/

theorem IntLit.natAbs_le (l : Int) (h : IntLit l) : l.natAbs ≤ 2 ^ 31 - 2 := by
  unfold IntLit at h
  omega

theorem IntLit.neg (l : Int) (h : IntLit l) : IntLit (-l) := by
  unfold IntLit at h ⊢
  omega

theorem mem_mapSet {β : Type} (m : List (Int × β)) (k : Int) (v : β) (p : Int × β)
    (h : p ∈ mapSet m k v) : p ∈ m ∨ p = (k, v) := by
  induction m with
  | nil =>
    simp only [mapSet, List.mem_singleton] at h
    exact Or.inr h
  | cons p1 rest ih =>
    obtain ⟨k1, v1⟩ := p1
    unfold mapSet at h
    split at h
    · rcases List.mem_cons.mp h with h1 | h1
      · exact Or.inr h1
      · exact Or.inl (List.mem_cons_of_mem _ h1)
    · rcases List.mem_cons.mp h with h1 | h1
      · exact Or.inl (by rw [h1]; exact List.mem_cons_self _ _)
      · rcases ih h1 with h2 | h2
        · exact Or.inl (List.mem_cons_of_mem _ h2)
        · exact Or.inr h2

theorem seed_range (A : List (Int × Bool)) :
    ∀ (q q1 : List (Int × Bool)), Simplification.seed A q = Except.ok q1 →
      (∀ p ∈ A, IntLit p.1) → (∀ p ∈ q, IntLit p.1) → ∀ p ∈ q1, IntLit p.1 := by
  induction A with
  | nil =>
    intro q q1 h _ hq
    simp only [Simplification.seed, Except.ok.injEq] at h
    subst h
    exact hq
  | cons a rest ih =>
    intro q q1 h hA hq
    obtain ⟨lit, val⟩ := a
    unfold Simplification.seed at h
    split at h
    · cases h
    · have hl : IntLit lit := hA (lit, val) (List.mem_cons_self _ _)
      refine ih _ q1 h (fun p hp => hA p (List.mem_cons_of_mem _ hp)) ?_
      intro p hp
      rcases List.mem_cons.mp hp with h1 | h1
      · rw [h1]; exact IntLit.neg lit hl
      · rcases List.mem_cons.mp h1 with h2 | h2
        · rw [h2]; exact hl
        · exact hq p h2

theorem unsatLoop_range (y : Int) (idxs : List Nat) :
    ∀ (st st1 : Simplification.State), Simplification.unsatLoop y idxs st = Except.ok st1 →
      st.InRange → st1.InRange := by
  induction idxs with
  | nil =>
    intro st st1 h hP
    simp only [Simplification.unsatLoop, Except.ok.injEq] at h
    subst h; exact hP
  | cons idx rest ih =>
    intro st st1 h hP
    obtain ⟨hc, hq, ha⟩ := hP
    obtain ⟨clause, hget, hcases⟩ := unsatLoop_cons_ok y idx rest st st1 h
    have hmem : clause ∈ st.tmp_clauses := List.getElem?_mem hget
    rcases hcases with ⟨_, h1⟩ | ⟨_, last_lit, he, _, _, h1⟩ | ⟨_, _, h1⟩
    · exact ih st st1 h1 ⟨hc, hq, ha⟩
    · have hl : IntLit last_lit := by
        have hin : last_lit ∈ clause.erase y := by
          rw [he]
          exact List.mem_singleton.mpr rfl
        exact hc clause hmem last_lit (List.mem_of_mem_erase hin)
      refine ih _ st1 h1 ⟨?_, ?_, ha⟩
      · intro cl hcl l hlm
        rcases List.mem_or_eq_of_mem_set hcl with h2 | h2
        · exact hc cl h2 l hlm
        · rw [h2] at hlm; cases hlm
      · intro p hp
        rcases List.mem_cons.mp hp with h2 | h2
        · rw [h2]; exact IntLit.neg last_lit hl
        · rcases List.mem_cons.mp h2 with h3 | h3
          · rw [h3]; exact hl
          · exact hq p h3
    · refine ih _ st1 h1 ⟨?_, hq, ha⟩
      intro cl hcl l hlm
      rcases List.mem_or_eq_of_mem_set hcl with h2 | h2
      · exact hc cl h2 l hlm
      · rw [h2] at hlm
        exact hc clause hmem l (List.mem_of_mem_erase hlm)

theorem workLoop_range (cnf : CNF) (fuel : Nat) :
    ∀ (st st1 : Simplification.State), Simplification.workLoop cnf fuel st = Except.ok st1 →
      st.InRange → st1.InRange := by
  induction fuel with
  | zero =>
    intro st st1 h hP
    unfold Simplification.workLoop at h
    split at h
    · cases h; exact hP
    · cases h
  | succ fuel ih =>
    intro st st1 h hP
    unfold Simplification.workLoop at h
    split at h
    · cases h; exact hP
    · rename_i lit val q hq
      obtain ⟨hc, hqr, ha⟩ := hP
      have hl : IntLit lit := hqr (lit, val) (by rw [hq]; exact List.mem_cons_self _ _)
      have hq1 : ∀ p ∈ q, IntLit p.1 := fun p hp =>
        hqr p (by rw [hq]; exact List.mem_cons_of_mem _ hp)
      have hoa : ∀ p ∈ mapSet (mapSet st.original_assignments lit val) (-lit) (!val),
          IntLit p.1 := by
        intro p hp
        rcases mem_mapSet _ _ _ _ hp with h1 | h1
        · rcases mem_mapSet _ _ _ _ h1 with h2 | h2
          · exact ha p h2
          · rw [h2]; exact hl
        · rw [h1]; exact IntLit.neg lit hl
      split at h
      · rename_i st2 hstep
        refine ih st2 st1 h ?_
        unfold Simplification.step at hstep
        split at hstep
        · cases hstep
          exact ⟨satLoop_clauses (fun cl => ∀ l ∈ cl, IntLit l) (by simp) _ _ hc, hq1, hoa⟩
        · exact unsatLoop_range lit _ _ st2 hstep ⟨hc, hq1, hoa⟩
      · cases h

/-- On a completed run over literals and keys in range, every literal recorded
in `original_assignments`, that is every literal the constructor has negated, is
in range. -/
theorem run_range (cnf : CNF) (A : List (Int × Bool)) (s : Simplification)
    (hrange : ∀ cl ∈ cnf.clauses, ∀ l ∈ cl, IntLit l)
    (hkeys : ∀ p ∈ A, IntLit p.1)
    (hrun : Simplification.run cnf A = Except.ok s) :
    ∀ p ∈ s.original_assignments, IntLit p.1 := by
  obtain ⟨q, st, hseed, hst, hs⟩ := run_ok cnf A s hrun
  have hq : ∀ p ∈ q, IntLit p.1 :=
    seed_range A [] q hseed hkeys (fun p hp => by cases hp)
  have h1 := workLoop_range cnf _ _ st hst ⟨hrange, hq, hkeys⟩
  subst hs
  exact h1.2.2

/-- A dense renaming of variables bounded by `B` has at most `B` indices. -/
theorem renaming_card (m : List (Int × Int)) (k : Int) (seen : List Int) (B : Nat)
    (hI : RenInv m k) (hD : RenDense seen m k) (hB : ∀ x ∈ seen, x.natAbs ≤ B) :
    k ≤ (B : Int) + 1 := by
  classical
  by_contra hlt
  have hex : ∀ j : Nat, j ∈ Finset.Icc 1 (B + 1) → ∃ x, m.lookup x = some (j : Int) := by
    intro j hj
    rw [Finset.mem_Icc] at hj
    exact hD.onto j (by omega) (by omega)
  have hcard := Finset.card_le_card_of_injOn (s := Finset.Icc 1 (B + 1)) (t := Finset.Icc 1 B)
    (fun j => if h : ∃ x, m.lookup x = some (j : Int) then (Classical.choose h).natAbs else 0)
    (by
      intro j hj
      have h := hex j hj
      simp only [dif_pos h]
      have hx := Classical.choose_spec h
      obtain ⟨hx0, _, _, _⟩ := hI.entry _ _ hx
      have hb : (Classical.choose h).natAbs ≤ B := by
        rcases hD.keys _ _ hx with hm | hm
        · exact hB _ hm
        · have := hB _ hm
          simpa using this
      rw [Finset.mem_Icc]
      exact ⟨by omega, hb⟩)
    (by
      intro j1 hj1 j2 hj2 heq
      have h1 := hex j1 hj1
      have h2 := hex j2 hj2
      simp only [dif_pos h1, dif_pos h2] at heq
      have hx1 := Classical.choose_spec h1
      have hx2 := Classical.choose_spec h2
      rw [Finset.mem_coe, Finset.mem_Icc] at hj1 hj2
      rcases Int.natAbs_eq_natAbs_iff.mp heq with e | e
      · rw [e, hx2] at hx1
        have := Option.some.inj hx1
        omega
      · obtain ⟨_, _, _, hneg⟩ := hI.entry _ _ hx2
        rw [e, hneg] at hx1
        have := Option.some.inj hx1
        omega)
  simp only [Nat.card_Icc] at hcard
  omega

/-- On a completed run over literals in range the counter `k` of the renaming,
one more than `simplified_cnf.num_vars`, is an `int`. -/
theorem run_counter_lt (cnf : CNF) (A : List (Int × Bool)) (s : Simplification)
    (hnz : ∀ cl ∈ cnf.clauses, ∀ l ∈ cl, l ≠ 0)
    (hrange : ∀ cl ∈ cnf.clauses, ∀ l ∈ cl, IntLit l)
    (hrun : Simplification.run cnf A = Except.ok s) :
    1 ≤ s.simplified_cnf.num_vars + 1 ∧ s.simplified_cnf.num_vars + 1 < 2 ^ 31 := by
  obtain ⟨q, st, _, hst, hs⟩ := run_ok cnf A s hrun
  have hnz1 : ∀ cl ∈ st.tmp_clauses, ∀ l ∈ cl, l ≠ 0 :=
    workLoop_nz cnf _ _ st hst hnz
  have hr1 : ∀ cl ∈ st.tmp_clauses, ∀ l ∈ cl, IntLit l :=
    workLoop_clauses (fun cl => ∀ l ∈ cl, IntLit l) (by simp)
      (fun cl y h _ l hl => h l (List.mem_of_mem_erase hl)) cnf _ _ st hst hrange
  obtain ⟨hI, _, _, _⟩ := renameLoop_spec st.tmp_clauses
    { lit_original_to_simplified := [], simplified_clauses := [], k := 1 } hnz1 RenInv.init
  have hD := renameLoop_dense st.tmp_clauses
    { lit_original_to_simplified := [], simplified_clauses := [], k := 1 } [] hnz1 RenInv.init
    RenDense.initial
  have hk := renaming_card _ _ _ (2 ^ 31 - 2) hI hD (by
    intro x hx
    rw [List.nil_append] at hx
    obtain ⟨cl, hcl, hxc⟩ := List.mem_flatten.mp hx
    exact IntLit.natAbs_le x (hr1 cl hcl x hxc))
  have hk1 := hI.k_pos
  subst hs
  simp only [CNF.ofClauses]
  constructor
  · omega
  · omega

/-- C5. If a valuation `T` satisfies every clause of the CNF and agrees with the
assignment `A` (entries on nonzero literals), then `CNF::Simplification(c, A)`
completes: no assertion fails and the work loop ends within the fuel; the
renamed valuation gives the image of every renamed literal the value that `T`
gives the literal, and it satisfies every clause of `simplified_cnf`. The
literals of the clauses and the keys of `A` are taken strictly between
`-INT_MAX` and `INT_MAX`, the range on which the negation of the embedding is
the one of the source (`INT_MIN` is excluded); on it the counter of the
renaming, one more than `simplified_cnf.num_vars`, stays an `int`, and every
literal recorded in `original_assignments` (every literal that was popped and
negated) is in the range. -/
theorem C5_satisfiable_completes (cnf : CNF) (A : List (Int × Bool)) (T : Nat → Bool)
    (hnum : cnf.num_clauses = cnf.clauses.length)
    (hnz : ∀ cl ∈ cnf.clauses, ∀ l ∈ cl, l ≠ 0)
    (hrange : ∀ cl ∈ cnf.clauses, ∀ l ∈ cl, IntLit l)
    (hA : ∀ p ∈ A, p.1 ≠ 0)
    (hkeys : ∀ p ∈ A, IntLit p.1)
    (hext : ∀ p ∈ A, litTrue T p.1 = p.2)
    (hsat : cnfTrue T cnf = true) :
    ∃ s, Simplification.run cnf A = Except.ok s
      ∧ (∀ l v, s.lit_original_to_simplified.lookup l = some v →
          litTrue (s.renamed T) v = litTrue T l)
      ∧ cnfTrue (s.renamed T) s.simplified_cnf = true
      ∧ s.simplified_cnf.num_vars + 1 < 2 ^ 31
      ∧ (∀ p ∈ s.original_assignments, IntLit p.1) := by
  obtain ⟨q, hq1, hq2, hq3⟩ := seed_spec A [] hA
  have hsat1 : ∀ cl ∈ cnf.clauses, clauseTrue T cl = true := by
    simpa [cnfTrue, List.all_eq_true] using hsat
  have hinv0 : WorkInv cnf T { q := q, tmp_clauses := cnf.clauses, original_assignments := A } := by
    refine ⟨rfl, ?_, ?_, ?_⟩
    · intro i cl hget _
      exact ⟨cl, hget, List.Sublist.refl _, hsat1 cl (List.getElem?_mem hget), fun _ => rfl⟩
    · intro x hx
      rcases hq3 x hx with h | ⟨p, hp, hxp | hxp⟩
      · simp at h
      · rw [hxp]; exact ⟨hA p hp, hext p hp⟩
      · rw [hxp]
        refine ⟨by simpa using hA p hp, ?_⟩
        simp only
        rw [litTrue_neg T p.1 (hA p hp), hext p hp]
    · intro l v hl
      exact hext (l, v) (lookup_mem A l v hl)
  have hmeas : (Simplification.State.mk q cnf.clauses A).measure
      < Simplification.fuelFor cnf A := by
    have := nonEmptyCount_le_length cnf.clauses
    simp only [Simplification.State.measure, Simplification.fuelFor, hq2, hnum, List.length_nil]
    omega
  obtain ⟨st1, hw, hinv1, _⟩ := workLoop_spec cnf T hnz _ _ hinv0 hmeas
  have hnz1 : ∀ cl ∈ st1.tmp_clauses, ∀ l ∈ cl, l ≠ 0 := by
    intro cl hcl l hl
    obtain ⟨i, hi⟩ := List.mem_iff_getElem?.mp hcl
    have hne : cl ≠ [] := by rintro rfl; simp at hl
    obtain ⟨orig, ho, hsub, _, _⟩ := hinv1.clause i cl hi hne
    exact hnz orig (List.getElem?_mem ho) l (hsub.subset hl)
  obtain ⟨r1, _, r3, r4⟩ := renameLoop_spec st1.tmp_clauses
    { lit_original_to_simplified := [], simplified_clauses := [], k := 1 } hnz1 RenInv.init
  refine ⟨_, by unfold Simplification.run; rw [hq1]; simp only; rw [hw], ?_, ?_, ?_, ?_⟩
  · exact fun l v hlv => litTrue_renamed _ _ r1 T l v hlv
  rotate_left
  · exact (run_counter_lt cnf A _ hnz hrange
      (by unfold Simplification.run; rw [hq1]; simp only; rw [hw])).2
  · exact run_range cnf A _ hrange hkeys
      (by unfold Simplification.run; rw [hq1]; simp only; rw [hw])
  simp only [cnfTrue, CNF.ofClauses, List.all_eq_true]
  intro c hc
  rw [r4] at hc
  simp only [List.nil_append, List.mem_map, List.mem_filter, decide_eq_true_eq] at hc
  obtain ⟨cl, ⟨hcl, hlen⟩, rfl⟩ := hc
  rw [clauseTrue_setOfList]
  obtain ⟨i, hi⟩ := List.mem_iff_getElem?.mp hcl
  have hne : cl ≠ [] := fun e => hlen (by rw [e]; rfl)
  obtain ⟨orig, _, _, htrue, _⟩ := hinv1.clause i cl hi hne
  obtain ⟨l0, hl0, hl0t⟩ := (clauseTrue_iff T cl).mp htrue
  obtain ⟨v, hv⟩ := Option.isSome_iff_exists.mp (r3 cl hcl l0 hl0)
  refine (clauseTrue_iff _ _).mpr ⟨v, ?_, ?_⟩
  · exact List.mem_map.mpr ⟨l0, hl0, by rw [hv]; rfl⟩
  · have := litTrue_renamed _ _ r1 T l0 v hv
    rw [hl0t] at this
    exact this

/-- Witness of C5: propagating `1 = true` through `{-1,2}`, `{-2,3}`, `{1,3,4}`
leaves `{-5,6}`, under the valuation that makes exactly 1, 2, 3 true. -/
theorem C5_satisfiable_completes_witness :
    ∃ s, Simplification.run (CNF.ofClauses [[-1, 2], [-2, 3], [1, 3, 4], [-5, 6]] 6) [(1, true)]
        = Except.ok s
      ∧ (∀ l v, s.lit_original_to_simplified.lookup l = some v →
          litTrue (s.renamed (fun v => decide (v ≤ 3))) v = litTrue (fun v => decide (v ≤ 3)) l)
      ∧ cnfTrue (s.renamed (fun v => decide (v ≤ 3))) s.simplified_cnf = true
      ∧ s.simplified_cnf.num_vars + 1 < 2 ^ 31
      ∧ (∀ p ∈ s.original_assignments, IntLit p.1) :=
  C5_satisfiable_completes (CNF.ofClauses [[-1, 2], [-2, 3], [1, 3, 4], [-5, 6]] 6) [(1, true)]
    (fun v => decide (v ≤ 3)) rfl (by decide) (by decide) (by decide) (by decide) (by decide)
    (by decide)

/-- C6 (amended). For a CNF whose clauses are non-empty and hold nonzero
literals strictly between `-INT_MAX` and `INT_MAX` (the range on which the
negation and `std::abs` of the embedding are those of the source, `INT_MIN`
being excluded), `c.simplify({})` completes and returns `c` with its variables
renamed:
as many clauses as `c`, clause `i` being the set of the renamed literals of
clause `i` of `c`; the renaming `lit_original_to_simplified` keeps signs, maps
`-l` to the negation of the image of `l`, is injective on the literals of `c`
and stays within `1 .. num_vars` of the result; when it is the identity on the
literals of `c` (and the clauses are sets), the clauses are those of `c`; the
counter of the renaming, one more than `num_vars` of the result, stays an
`int`. -/
theorem C6_simplify_empty_renames (c : CNF)
    (hnum : c.num_clauses = c.clauses.length)
    (hne : ∀ cl ∈ c.clauses, cl ≠ [])
    (hnz : ∀ cl ∈ c.clauses, ∀ l ∈ cl, l ≠ 0)
    (hrange : ∀ cl ∈ c.clauses, ∀ l ∈ cl, IntLit l) :
    ∃ s, Simplification.run c [] = Except.ok s
      ∧ c.simplify [] = Except.ok s.simplified_cnf
      ∧ s.simplified_cnf.num_clauses = c.num_clauses
      ∧ s.simplified_cnf.clauses = c.clauses.map (fun cl => setOfList (cl.map s.ren))
      ∧ (∀ cl ∈ c.clauses, ∀ l ∈ cl,
          s.ren l ≠ 0 ∧ (0 < s.ren l ↔ 0 < l) ∧ s.ren (-l) = -s.ren l
            ∧ ((s.ren l).natAbs : Int) ≤ s.simplified_cnf.num_vars)
      ∧ (∀ cl1 ∈ c.clauses, ∀ l1 ∈ cl1, ∀ cl2 ∈ c.clauses, ∀ l2 ∈ cl2,
          s.ren l1 = s.ren l2 → l1 = l2)
      ∧ ((∀ cl ∈ c.clauses, IsSet cl) → (∀ cl ∈ c.clauses, ∀ l ∈ cl, s.ren l = l) →
          s.simplified_cnf.clauses = c.clauses)
      ∧ s.simplified_cnf.num_vars + 1 < 2 ^ 31 := by
  obtain ⟨r1, _, r3, r4⟩ := renameLoop_spec c.clauses
    { lit_original_to_simplified := [], simplified_clauses := [], k := 1 } hnz RenInv.init
  have hrun : Simplification.run c [] = Except.ok
      { original_cnf := c
        simplified_cnf := CNF.ofClauses (Simplification.renameLoop c.clauses
          { lit_original_to_simplified := [], simplified_clauses := [], k := 1 }).simplified_clauses
          ((Simplification.renameLoop c.clauses
          { lit_original_to_simplified := [], simplified_clauses := [], k := 1 }).k - 1)
        original_assignments := []
        lit_simplified_to_original := Simplification.invert (Simplification.renameLoop c.clauses
          { lit_original_to_simplified := [], simplified_clauses := [], k := 1 }).lit_original_to_simplified []
        lit_original_to_simplified := (Simplification.renameLoop c.clauses
          { lit_original_to_simplified := [], simplified_clauses := [], k := 1 }).lit_original_to_simplified } := by
    simp [Simplification.run, Simplification.seed, Simplification.fuelFor,
      Simplification.workLoop]
  have hfilter : c.clauses.filter (fun cl => decide (cl.length ≠ 0)) = c.clauses := by
    apply List.filter_eq_self.mpr
    intro cl hcl
    have := hne cl hcl
    simpa using this
  rw [hfilter, List.nil_append] at r4
  have hlook : ∀ cl ∈ c.clauses, ∀ l ∈ cl, ∃ v,
      (Simplification.renameLoop c.clauses
        { lit_original_to_simplified := [], simplified_clauses := [], k := 1
          }).lit_original_to_simplified.lookup l = some v :=
    fun cl hcl l hl => Option.isSome_iff_exists.mp (r3 cl hcl l hl)
  refine ⟨_, hrun, by simp [CNF.simplify, hrun], ?_, ?_, ?_, ?_, ?_,
    (run_counter_lt c [] _ hnz hrange hrun).2⟩
  · simp only [CNF.ofClauses, r4, List.length_map, hnum]
  · simp only [CNF.ofClauses, Simplification.ren]
    exact r4
  · intro cl hcl l hl
    obtain ⟨v, hv⟩ := hlook cl hcl l hl
    obtain ⟨_, e2, e3, e4⟩ := r1.entry l v hv
    have hb := r1.vals_lt (l, v) (lookup_mem _ l v hv)
    simp only [Simplification.ren, hv, e4, Option.getD_some, CNF.ofClauses]
    simp only at hb
    exact ⟨e2, e3, trivial, by omega⟩
  · intro cl1 hcl1 l1 hl1 cl2 hcl2 l2 hl2 heq
    obtain ⟨v1, hv1⟩ := hlook cl1 hcl1 l1 hl1
    obtain ⟨v2, hv2⟩ := hlook cl2 hcl2 l2 hl2
    simp only [Simplification.ren, hv1, hv2, Option.getD_some] at heq
    subst heq
    have h1 := invert_of_lookup _ _ r1 l1 v1 hv1
    have h2 := invert_of_lookup _ _ r1 l2 v1 hv2
    rw [h1] at h2
    exact Option.some.inj h2
  · intro hset hid
    simp only [CNF.ofClauses]
    rw [r4]
    conv => rhs; rw [← List.map_id c.clauses]
    apply List.map_congr_left
    intro cl hcl
    have hmap : cl.map (fun l => ((Simplification.renameLoop c.clauses
        { lit_original_to_simplified := [], simplified_clauses := [], k := 1
          }).lit_original_to_simplified.lookup l).getD 0) = cl := by
      conv => rhs; rw [← List.map_id cl]
      apply List.map_congr_left
      intro l hl
      exact hid cl hcl l hl
    rw [hmap, setOfList_of_isSet cl (hset cl hcl)]
    rfl

/-- Witness of C6 (amended) at `CNF({{2,3},{-1,2}}, 3)`. -/
theorem C6_simplify_empty_renames_witness :
    ∃ s, Simplification.run (CNF.ofClauses [[2, 3], [-1, 2]] 3) [] = Except.ok s
      ∧ (CNF.ofClauses [[2, 3], [-1, 2]] 3).simplify [] = Except.ok s.simplified_cnf
      ∧ s.simplified_cnf.num_clauses = (CNF.ofClauses [[2, 3], [-1, 2]] 3).num_clauses
      ∧ s.simplified_cnf.clauses
          = (CNF.ofClauses [[2, 3], [-1, 2]] 3).clauses.map (fun cl => setOfList (cl.map s.ren))
      ∧ (∀ cl ∈ (CNF.ofClauses [[2, 3], [-1, 2]] 3).clauses, ∀ l ∈ cl,
          s.ren l ≠ 0 ∧ (0 < s.ren l ↔ 0 < l) ∧ s.ren (-l) = -s.ren l
            ∧ ((s.ren l).natAbs : Int) ≤ s.simplified_cnf.num_vars)
      ∧ (∀ cl1 ∈ (CNF.ofClauses [[2, 3], [-1, 2]] 3).clauses, ∀ l1 ∈ cl1,
          ∀ cl2 ∈ (CNF.ofClauses [[2, 3], [-1, 2]] 3).clauses, ∀ l2 ∈ cl2,
          s.ren l1 = s.ren l2 → l1 = l2)
      ∧ ((∀ cl ∈ (CNF.ofClauses [[2, 3], [-1, 2]] 3).clauses, IsSet cl) →
          (∀ cl ∈ (CNF.ofClauses [[2, 3], [-1, 2]] 3).clauses, ∀ l ∈ cl, s.ren l = l) →
          s.simplified_cnf.clauses = (CNF.ofClauses [[2, 3], [-1, 2]] 3).clauses)
      ∧ s.simplified_cnf.num_vars + 1 < 2 ^ 31 :=
  C6_simplify_empty_renames (CNF.ofClauses [[2, 3], [-1, 2]] 3) rfl (by decide) (by decide)
    (by decide)

/-- C12. Whenever `CNF::Simplification(c, A)` completes on a CNF with nonzero
literals, the renaming is a dense sign-preserving bijection between the
variables of the surviving clauses and `1 .. simplified_cnf.num_vars`. With
`tmp` the working clauses at the exit of the work loop: the clauses of
`simplified_cnf` are the non-empty clauses of `tmp`, in order, each with its
literals replaced by their images; every literal of `tmp` has an image; only
the literals of `tmp` and their negations have one; every index in
`1 .. num_vars` is the image of a literal; every image is on a variable in
`1 .. num_vars`; the variables that occur in `simplified_cnf` are exactly
`1 .. num_vars`; every literal of `simplified_cnf` is the image of an original
literal; original literals whose images are on the same new variable are on the
same original variable (distinct surviving variables receive distinct new
indices); the image of `-l` is the negation of the image of `l`, with the sign
of `l` kept; and `lit_simplified_to_original` sends the image of `l` back to
`l`. The literals of the clauses and the keys of `A` are taken strictly between
`-INT_MAX` and `INT_MAX`, the range on which the negation and `std::abs` of the
embedding are those of the source (`INT_MIN` is excluded); on it the counter of
the renaming, one more than `num_vars`, stays an `int`, and every literal
recorded in `original_assignments` (every literal that was popped and negated)
is in the range. -/
theorem C12_renaming_dense_bijection (cnf : CNF) (A : List (Int × Bool)) (s : Simplification)
    (hnz : ∀ cl ∈ cnf.clauses, ∀ l ∈ cl, l ≠ 0)
    (hrange : ∀ cl ∈ cnf.clauses, ∀ l ∈ cl, IntLit l)
    (hkeys : ∀ p ∈ A, IntLit p.1)
    (hrun : Simplification.run cnf A = Except.ok s) :
    ∃ tmp, Simplification.workingClauses cnf A = Except.ok tmp
      ∧ s.simplified_cnf.clauses
          = (tmp.filter (fun cl => decide (cl.length ≠ 0))).map
              (fun cl => setOfList (cl.map s.ren))
      ∧ (∀ cl ∈ tmp, ∀ l ∈ cl, ∃ v, s.lit_original_to_simplified.lookup l = some v)
      ∧ (∀ l v, s.lit_original_to_simplified.lookup l = some v →
          ∃ cl ∈ tmp, l ∈ cl ∨ -l ∈ cl)
      ∧ (∀ j : Int, 1 ≤ j → j ≤ s.simplified_cnf.num_vars →
          ∃ l, s.lit_original_to_simplified.lookup l = some j)
      ∧ (∀ l v, s.lit_original_to_simplified.lookup l = some v →
          1 ≤ (v.natAbs : Int) ∧ (v.natAbs : Int) ≤ s.simplified_cnf.num_vars)
      ∧ (∀ j : Nat, (∃ cl ∈ s.simplified_cnf.clauses, ∃ x ∈ cl, x.natAbs = j)
          ↔ (1 ≤ j ∧ (j : Int) ≤ s.simplified_cnf.num_vars))
      ∧ (∀ cl ∈ s.simplified_cnf.clauses, ∀ x ∈ cl,
          ∃ l, s.lit_original_to_simplified.lookup l = some x)
      ∧ (∀ l l1 v v1, s.lit_original_to_simplified.lookup l = some v →
          s.lit_original_to_simplified.lookup l1 = some v1 →
          v.natAbs = v1.natAbs → l.natAbs = l1.natAbs)
      ∧ (∀ l v, s.lit_original_to_simplified.lookup l = some v →
          s.lit_original_to_simplified.lookup (-l) = some (-v) ∧ (0 < v ↔ 0 < l))
      ∧ (∀ l v, s.lit_original_to_simplified.lookup l = some v →
          s.lit_simplified_to_original.lookup v = some l)
      ∧ s.simplified_cnf.num_vars + 1 < 2 ^ 31
      ∧ (∀ p ∈ s.original_assignments, IntLit p.1) := by
  have hcnt := (run_counter_lt cnf A s hnz hrange hrun).2
  have hneg := run_range cnf A s hrange hkeys hrun
  obtain ⟨q, st, hseed, hst, hs⟩ := run_ok cnf A s hrun
  have hwc : Simplification.workingClauses cnf A = Except.ok st.tmp_clauses := by
    unfold Simplification.workingClauses
    rw [hseed]
    simp only
    rw [hst]
  have hnz1 : ∀ cl ∈ st.tmp_clauses, ∀ l ∈ cl, l ≠ 0 :=
    workLoop_nz cnf _ _ st hst hnz
  obtain ⟨hI, _, r3, r4⟩ := renameLoop_spec st.tmp_clauses
    { lit_original_to_simplified := [], simplified_clauses := [], k := 1 } hnz1 RenInv.init
  have hD := renameLoop_dense st.tmp_clauses
    { lit_original_to_simplified := [], simplified_clauses := [], k := 1 } [] hnz1 RenInv.init
    RenDense.initial
  generalize hr : Simplification.renameLoop st.tmp_clauses
    { lit_original_to_simplified := [], simplified_clauses := [], k := 1 } = r at hs hI r3 r4 hD
  subst hs
  refine ⟨st.tmp_clauses, hwc, ?_⟩
  simp only [CNF.ofClauses, Simplification.ren] at hcnt hneg ⊢
  rw [List.nil_append] at r4 hD
  -- every literal of a simplified clause is an image, nonzero and below `k`
  have himg : ∀ cl ∈ r.simplified_clauses, ∀ x ∈ cl,
      ∃ l, r.lit_original_to_simplified.lookup l = some x := by
    intro cl hcl x hx
    rw [r4] at hcl
    obtain ⟨cl0, hcl0, rfl⟩ := List.mem_map.mp hcl
    have hcl1 : cl0 ∈ st.tmp_clauses := (List.mem_filter.mp hcl0).1
    rw [mem_setOfList] at hx
    obtain ⟨l, hl, rfl⟩ := List.mem_map.mp hx
    obtain ⟨v, hv⟩ := Option.isSome_iff_exists.mp (r3 cl0 hcl1 l hl)
    exact ⟨l, by rw [hv]; rfl⟩
  have hinv : ∀ l v, r.lit_original_to_simplified.lookup l = some v →
      (Simplification.invert r.lit_original_to_simplified []).lookup v = some l :=
    fun l v h => invert_of_lookup _ _ hI l v h
  have hbound : ∀ l v, r.lit_original_to_simplified.lookup l = some v →
      1 ≤ (v.natAbs : Int) ∧ (v.natAbs : Int) ≤ r.k - 1 := by
    intro l v hl
    obtain ⟨_, hx0, _, _⟩ := hI.entry l v hl
    have hlt := hI.vals_lt (l, v) (lookup_mem _ _ _ hl)
    simp only at hlt
    constructor
    · omega
    · omega
  refine ⟨r4, ?_, ?_, ?_, hbound, ?_, himg, ?_, ?_, hinv, hcnt, hneg⟩
  · intro cl hcl l hl
    exact Option.isSome_iff_exists.mp (r3 cl hcl l hl)
  · intro l v hl
    rcases hD.keys l v hl with hmem | hmem
    · obtain ⟨cl, hcl, hy⟩ := List.mem_flatten.mp hmem
      exact ⟨cl, hcl, Or.inl hy⟩
    · obtain ⟨cl, hcl, hy⟩ := List.mem_flatten.mp hmem
      exact ⟨cl, hcl, Or.inr hy⟩
  · intro j h1 h2
    exact hD.onto j h1 (by omega)
  · intro j
    constructor
    · rintro ⟨cl, hcl, x, hx, rfl⟩
      obtain ⟨l, hl⟩ := himg cl hcl x hx
      obtain ⟨hb1, hb2⟩ := hbound l x hl
      exact ⟨by omega, hb2⟩
    · rintro ⟨h1, h2⟩
      obtain ⟨x0, hx0⟩ := hD.onto (j : Int) (by omega) (by omega)
      have key : ∀ y w, r.lit_original_to_simplified.lookup y = some w → y ∈ st.tmp_clauses.flatten →
          ∃ cl ∈ r.simplified_clauses, w ∈ cl := by
        intro y w hy hmem
        obtain ⟨cl0, hcl0, hy0⟩ := List.mem_flatten.mp hmem
        refine ⟨setOfList (cl0.map (fun l => (r.lit_original_to_simplified.lookup l).getD 0)), ?_, ?_⟩
        · rw [r4]
          refine List.mem_map.mpr ⟨cl0, List.mem_filter.mpr ⟨hcl0, ?_⟩, rfl⟩
          have : cl0 ≠ [] := fun e => by rw [e] at hy0; cases hy0
          simpa using this
        · rw [mem_setOfList]
          exact List.mem_map.mpr ⟨y, hy0, by rw [hy]; rfl⟩
      rcases hD.keys x0 j hx0 with hmem | hmem
      · obtain ⟨cl, hcl, hw⟩ := key x0 j hx0 hmem
        exact ⟨cl, hcl, (j : Int), hw, by simp⟩
      · obtain ⟨_, _, _, hneg⟩ := hI.entry x0 j hx0
        obtain ⟨cl, hcl, hw⟩ := key (-x0) (-(j : Int)) hneg hmem
        exact ⟨cl, hcl, -(j : Int), hw, by simp⟩
  · intro l l1 v v1 hl hl1 habs
    rcases Int.natAbs_eq_natAbs_iff.mp habs with h | h
    · subst h
      have e1 := hinv l v hl
      have e2 := hinv l1 v hl1
      rw [e1] at e2
      rw [Option.some.inj e2]
    · obtain ⟨_, _, _, hneg⟩ := hI.entry l1 v1 hl1
      rw [← h] at hneg
      have e1 := hinv l v hl
      have e2 := hinv (-l1) v hneg
      rw [e1] at e2
      rw [Option.some.inj e2]
      simp
  · intro l v hl
    obtain ⟨_, _, hsign, hneg⟩ := hI.entry l v hl
    exact ⟨hneg, hsign⟩

/-- Witness of C12: propagating `1 = true` through `{-1,2}`, `{-2,3}`, `{1,3,4}`
leaves `{-5,6}`, renamed to `{-1,2}`. -/
theorem C12_renaming_dense_bijection_witness :
    ∃ s, Simplification.run (CNF.ofClauses [[-1, 2], [-2, 3], [1, 3, 4], [-5, 6]] 6) [(1, true)]
        = Except.ok s
      ∧ ∃ tmp, Simplification.workingClauses
          (CNF.ofClauses [[-1, 2], [-2, 3], [1, 3, 4], [-5, 6]] 6) [(1, true)] = Except.ok tmp
      ∧ s.simplified_cnf.clauses
          = (tmp.filter (fun cl => decide (cl.length ≠ 0))).map
              (fun cl => setOfList (cl.map s.ren))
      ∧ (∀ cl ∈ tmp, ∀ l ∈ cl, ∃ v, s.lit_original_to_simplified.lookup l = some v)
      ∧ (∀ l v, s.lit_original_to_simplified.lookup l = some v →
          ∃ cl ∈ tmp, l ∈ cl ∨ -l ∈ cl)
      ∧ (∀ j : Int, 1 ≤ j → j ≤ s.simplified_cnf.num_vars →
          ∃ l, s.lit_original_to_simplified.lookup l = some j)
      ∧ (∀ l v, s.lit_original_to_simplified.lookup l = some v →
          1 ≤ (v.natAbs : Int) ∧ (v.natAbs : Int) ≤ s.simplified_cnf.num_vars)
      ∧ (∀ j : Nat, (∃ cl ∈ s.simplified_cnf.clauses, ∃ x ∈ cl, x.natAbs = j)
          ↔ (1 ≤ j ∧ (j : Int) ≤ s.simplified_cnf.num_vars))
      ∧ (∀ cl ∈ s.simplified_cnf.clauses, ∀ x ∈ cl,
          ∃ l, s.lit_original_to_simplified.lookup l = some x)
      ∧ (∀ l l1 v v1, s.lit_original_to_simplified.lookup l = some v →
          s.lit_original_to_simplified.lookup l1 = some v1 →
          v.natAbs = v1.natAbs → l.natAbs = l1.natAbs)
      ∧ (∀ l v, s.lit_original_to_simplified.lookup l = some v →
          s.lit_original_to_simplified.lookup (-l) = some (-v) ∧ (0 < v ↔ 0 < l))
      ∧ (∀ l v, s.lit_original_to_simplified.lookup l = some v →
          s.lit_simplified_to_original.lookup v = some l)
      ∧ s.simplified_cnf.num_vars + 1 < 2 ^ 31
      ∧ (∀ p ∈ s.original_assignments, IntLit p.1) := by
  have h : ∃ s, Simplification.run (CNF.ofClauses [[-1, 2], [-2, 3], [1, 3, 4], [-5, 6]] 6)
      [(1, true)] = Except.ok s := ⟨_, rfl⟩
  obtain ⟨s, hs⟩ := h
  exact ⟨s, hs, C12_renaming_dense_bijection
    (CNF.ofClauses [[-1, 2], [-2, 3], [1, 3, 4], [-5, 6]] 6) [(1, true)] s (by decide)
    (by decide) (by decide) hs⟩

/-! ### `encode` and `decode` are inverse -/

theorem zipBits_or_zero_left (bs : List Bit) (L : Ledger) :
    (∀ b ∈ bs, b.is_rv = false → b.index = 0) →
    SymBitVec.zipBits Bit.or (List.replicate bs.length (Bit.const false)) bs L
      = Except.ok (bs, L) := by
  intro h
  have := zipBits_or_rotate bs [] L h (fun a ha => by cases ha)
  simpa using this

theorem zipBits_or_left_block (bs xs ys rs : List Bit) (L : Ledger)
    (hb : ∀ b ∈ bs, b.is_rv = false → b.index = 0)
    (h : SymBitVec.zipBits Bit.or xs ys L = Except.ok (rs, L)) :
    SymBitVec.zipBits Bit.or (List.replicate bs.length (Bit.const false) ++ xs) (bs ++ ys) L
      = Except.ok (bs ++ rs, L) := by
  induction bs with
  | nil => simpa using h
  | cons b bs ih =>
    show (Bit.or (Bit.const false) b >>= _) L = _
    rw [Sym.bind_ok _ _ L L b (Bit.or_zero_left b (hb b (List.mem_cons_self _ _)) L)]
    show (SymBitVec.zipBits Bit.or (List.replicate bs.length (Bit.const false) ++ xs)
      (bs ++ ys) >>= _) L = _
    rw [Sym.bind_ok _ _ L L (bs ++ rs) (ih (fun x hx => hb x (List.mem_cons_of_mem _ hx)))]
    rfl

theorem zipBits_or_right_block (as xs ys rs : List Bit) (L : Ledger)
    (ha : ∀ a ∈ as, a.is_rv = false → a.index = 0)
    (h : SymBitVec.zipBits Bit.or xs ys L = Except.ok (rs, L)) :
    SymBitVec.zipBits Bit.or (as ++ xs) (List.replicate as.length (Bit.const false) ++ ys) L
      = Except.ok (as ++ rs, L) := by
  induction as with
  | nil => simpa using h
  | cons a as ih =>
    show (Bit.or a (Bit.const false) >>= _) L = _
    rw [Sym.bind_ok _ _ L L a (Bit.or_zero_right a (ha a (List.mem_cons_self _ _)) L)]
    show (SymBitVec.zipBits Bit.or (as ++ xs)
      (List.replicate as.length (Bit.const false) ++ ys) >>= _) L = _
    rw [Sym.bind_ok _ _ L L (as ++ rs) (ih (fun x hx => ha x (List.mem_cons_of_mem _ hx)))]
    rfl

theorem canonical_zeros (n : Nat) :
    ∀ b ∈ List.replicate n (Bit.const false), b.is_rv = false → b.index = 0 := by
  intro b hb _
  rw [(List.mem_replicate.mp hb).2]
  rfl

/-- One step of `decode`: `P | (S << |P|)` on vectors padded with zeros. -/
theorem zipBits_or_block (ps ss : List Bit) (r : Nat) (L : Ledger)
    (hp : ∀ b ∈ ps, b.is_rv = false → b.index = 0)
    (hs : ∀ b ∈ ss, b.is_rv = false → b.index = 0) :
    SymBitVec.zipBits Bit.or (ps ++ List.replicate (ss.length + r) (Bit.const false))
        (List.replicate ps.length (Bit.const false) ++ (ss ++ List.replicate r (Bit.const false))) L
      = Except.ok (ps ++ (ss ++ List.replicate r (Bit.const false)), L) := by
  have h1 : SymBitVec.zipBits Bit.or (List.replicate r (Bit.const false))
      (List.replicate r (Bit.const false)) L
      = Except.ok (List.replicate r (Bit.const false), L) := by
    have := zipBits_or_zero_right (List.replicate r (Bit.const false)) L (canonical_zeros r)
    rw [List.length_replicate] at this
    exact this
  have h2 := zipBits_or_left_block ss _ _ _ L hs h1
  have h3 := zipBits_or_right_block ps _ _ _ L hp h2
  rw [List.replicate_add]
  exact h3

theorem resize_bits (b : SymBitVec) (h : b.size = 8) :
    (b.resize 32).bits_ = b.bits_ ++ List.replicate 24 (Bit.const false) := by
  have hl : b.bits_.length = 8 := h
  simp only [SymBitVec.resize, hl]
  rw [List.take_of_length_le (by omega)]

theorem shl_resize_bits (b : SymBitVec) (h : b.size = 8) (s r : Nat) (hsr : s + r = 24) :
    ((b.resize 32).shl s).bits_
      = List.replicate s (Bit.const false) ++ (b.bits_ ++ List.replicate r (Bit.const false)) := by
  have hl : b.bits_.length = 8 := h
  simp only [SymBitVec.shl, resize_bits b h, List.length_append, List.length_replicate, hl]
  rw [List.take_append_eq_append_take, List.take_append_eq_append_take, List.length_replicate, hl,
    List.take_of_length_le (by rw [List.length_replicate]; omega),
    List.take_of_length_le (by omega), List.take_replicate]
  congr 3
  omega

theorem or_bits (a b : SymBitVec) (rs : List Bit) (L : Ledger)
    (h : SymBitVec.zipBits Bit.or a.bits_ b.bits_ L = Except.ok (rs, L)) :
    SymBitVec.or a b L = Except.ok ({ bits_ := rs }, L) := by
  show (SymBitVec.zipBits Bit.or a.bits_ b.bits_ >>= _) L = _
  rw [Sym.bind_ok _ _ L L rs h]
  rfl

theorem Sym.Is.of_pure {α : Type} (v : α) : Sym.Is (pure v : Sym α) v := fun _ => rfl

theorem Sym.Is.of_bind {α β : Type} {m : Sym α} {f : α → Sym β} {v : α} {r : β}
    (hm : Sym.Is m v) (hf : Sym.Is (f v) r) : Sym.Is (m >>= f) r := by
  intro L
  rw [Sym.bind_ok m f L L v (hm L)]
  exact hf L

theorem readAt_is {α : Type} {xs : List α} {i : Nat} {v : α} (h : xs[i]? = some v) :
    Sym.Is (readAt xs i) v := by
  intro L
  simp [readAt, h]

theorem writeAt_is {α : Type} {xs : List α} {i : Nat} (v : α) (hi : i < xs.length) :
    Sym.Is (writeAt xs i v) (xs.set i v) := by
  intro L
  simp [writeAt, hi]

/-- The three `|` of one iteration of `decode` give the word of the four bytes. -/
theorem decode_word (b0 b1 b2 b3 : SymBitVec)
    (h0 : b0.size = 8) (h1 : b1.size = 8) (h2 : b2.size = 8) (h3 : b3.size = 8)
    (c0 : b0.Canonical) (c1 : b1.Canonical) (c2 : b2.Canonical) (c3 : b3.Canonical) :
    Sym.Is (SymBitVec.or (b0.resize 32) ((b1.resize 32).shl 8))
        { bits_ := b0.bits_ ++ (b1.bits_ ++ List.replicate 16 (Bit.const false)) }
      ∧ Sym.Is (SymBitVec.or
          { bits_ := b0.bits_ ++ (b1.bits_ ++ List.replicate 16 (Bit.const false)) }
          ((b2.resize 32).shl 16))
        { bits_ := b0.bits_ ++ (b1.bits_ ++ (b2.bits_ ++ List.replicate 8 (Bit.const false))) }
      ∧ Sym.Is (SymBitVec.or
          { bits_ := b0.bits_ ++ (b1.bits_ ++ (b2.bits_ ++ List.replicate 8 (Bit.const false))) }
          ((b3.resize 32).shl 24))
        (MD5.packWord b0 b1 b2 b3) := by
  have l0 : b0.bits_.length = 8 := h0
  have l1 : b1.bits_.length = 8 := h1
  have l2 : b2.bits_.length = 8 := h2
  have l3 : b3.bits_.length = 8 := h3
  refine ⟨fun L => ?_, fun L => ?_, fun L => ?_⟩
  · have e1 := zipBits_or_block b0.bits_ b1.bits_ 16 L c0 c1
    rw [l0, l1] at e1
    apply or_bits
    rw [resize_bits b0 h0, shl_resize_bits b1 h1 8 16 rfl]
    exact e1
  · have e2 := zipBits_or_block (b0.bits_ ++ b1.bits_) b2.bits_ 8 L
      (fun b hb => by
        rcases List.mem_append.mp hb with h | h
        · exact c0 b h
        · exact c1 b h) c2
    rw [List.length_append, l0, l1, l2] at e2
    simp only [List.append_assoc] at e2
    apply or_bits
    rw [shl_resize_bits b2 h2 16 8 rfl]
    exact e2
  · have e3 := zipBits_or_block (b0.bits_ ++ (b1.bits_ ++ b2.bits_)) b3.bits_ 0 L
      (fun b hb => by
        rcases List.mem_append.mp hb with h | h
        · exact c0 b h
        · rcases List.mem_append.mp h with h | h
          · exact c1 b h
          · exact c2 b h) c3
    rw [List.length_append, List.length_append, l0, l1, l2, l3] at e3
    simp only [List.replicate_zero, List.append_nil, List.append_assoc] at e3
    apply or_bits
    rw [shl_resize_bits b3 h3 24 0 rfl]
    simp only [List.replicate_zero, List.append_nil]
    exact e3

theorem getElem?_append_add {α : Type} (pre post : List α) (t : Nat) :
    (pre ++ post)[pre.length + t]? = post[t]? := by
  rw [List.getElem?_append_right (by omega)]
  congr 1
  omega

theorem set_append_add {α : Type} (pre post : List α) (t : Nat) (w : α) :
    (pre ++ post).set (pre.length + t) w = pre ++ post.set t w := by
  rw [List.set_append_right _ _ (by omega)]
  congr 2
  omega

theorem decodeLoop_spec (n : Nat) :
    ∀ (inDone chunks done todo : List SymBitVec), inDone.length = 4 * done.length →
      chunks.length = 4 * n → todo.length = n →
      (∀ v ∈ chunks, v.size = 8 ∧ v.Canonical) →
      Sym.Is (MD5.decodeLoop (inDone ++ chunks) n done.length (done ++ todo))
        (done ++ MD5.packWords chunks) := by
  induction n with
  | zero =>
    intro inDone chunks done todo _ hc ht _
    have e1 : chunks = [] := List.length_eq_zero.mp hc
    have e2 : todo = [] := List.length_eq_zero.mp ht
    subst e1; subst e2
    exact Sym.Is.of_pure _
  | succ n ih =>
    intro inDone chunks done todo hin hc ht hv
    match chunks, hc, hv with
    | [], hc, _ => simp at hc
    | [_], hc, _ => simp at hc; omega
    | [_, _], hc, _ => simp at hc; omega
    | [_, _, _], hc, _ => simp at hc; omega
    | b0 :: b1 :: b2 :: b3 :: rest, hc, hv =>
      match todo, ht with
      | [], ht => simp at ht
      | t :: todo1, ht =>
        have hrest : rest.length = 4 * n := by simp at hc; omega
        have htodo : todo1.length = n := by simpa using ht
        have v0 := hv b0 (by simp)
        have v1 := hv b1 (by simp)
        have v2 := hv b2 (by simp)
        have v3 := hv b3 (by simp)
        obtain ⟨w1, w2, w3⟩ := decode_word b0 b1 b2 b3 v0.1 v1.1 v2.1 v3.1 v0.2 v1.2 v2.2 v3.2
        have g0 : (inDone ++ b0 :: b1 :: b2 :: b3 :: rest)[4 * done.length]? = some b0 := by
          rw [← hin]
          exact (getElem?_append_add inDone (b0 :: b1 :: b2 :: b3 :: rest) 0).trans (by simp)
        have g1 : (inDone ++ b0 :: b1 :: b2 :: b3 :: rest)[4 * done.length + 1]? = some b1 := by
          rw [← hin]
          exact (getElem?_append_add inDone (b0 :: b1 :: b2 :: b3 :: rest) 1).trans (by simp)
        have g2 : (inDone ++ b0 :: b1 :: b2 :: b3 :: rest)[4 * done.length + 2]? = some b2 := by
          rw [← hin]
          exact (getElem?_append_add inDone (b0 :: b1 :: b2 :: b3 :: rest) 2).trans (by simp)
        have g3 : (inDone ++ b0 :: b1 :: b2 :: b3 :: rest)[4 * done.length + 3]? = some b3 := by
          rw [← hin]
          exact (getElem?_append_add inDone (b0 :: b1 :: b2 :: b3 :: rest) 3).trans (by simp)
        have hset : (done ++ t :: todo1).set done.length (MD5.packWord b0 b1 b2 b3)
            = (done ++ [MD5.packWord b0 b1 b2 b3]) ++ todo1 := by
          have := set_append_add done (t :: todo1) 0 (MD5.packWord b0 b1 b2 b3)
          simp at this
          simp [this]
        have hih := ih (inDone ++ [b0, b1, b2, b3]) rest (done ++ [MD5.packWord b0 b1 b2 b3])
          todo1 (by simp [hin]; omega) hrest htodo
          (fun v hvm => hv v (by simp [hvm]))
        unfold MD5.decodeLoop
        refine Sym.Is.of_bind (readAt_is g0) ?_
        refine Sym.Is.of_bind (readAt_is g1) ?_
        refine Sym.Is.of_bind (readAt_is g2) ?_
        refine Sym.Is.of_bind (readAt_is g3) ?_
        refine Sym.Is.of_bind w1 ?_
        refine Sym.Is.of_bind w2 ?_
        refine Sym.Is.of_bind w3 ?_
        refine Sym.Is.of_bind (writeAt_is _ (by simp)) ?_
        rw [hset]
        have e1 : inDone ++ b0 :: b1 :: b2 :: b3 :: rest = (inDone ++ [b0, b1, b2, b3]) ++ rest := by
          simp
        have e2 : done.length + 1 = (done ++ [MD5.packWord b0 b1 b2 b3]).length := by simp
        have e3 : done ++ MD5.packWords (b0 :: b1 :: b2 :: b3 :: rest)
            = (done ++ [MD5.packWord b0 b1 b2 b3]) ++ MD5.packWords rest := by
          simp [MD5.packWords]
        rw [e1, e2, e3]
        exact hih

theorem encode_pieces (w : SymBitVec) (h : w.size = 32) :
    [w.extract 0 8, (w.shr 8).extract 0 8, (w.shr 16).extract 0 8, (w.shr 24).extract 0 8]
      = MD5.unpackWord w := by
  have hl : w.bits_.length = 32 := h
  simp only [MD5.unpackWord, SymBitVec.extract, SymBitVec.shr, List.drop_zero, Nat.sub_zero]
  rw [List.take_append_of_le_length (by rw [List.length_drop]; omega),
    List.take_append_of_le_length (by rw [List.length_drop]; omega),
    List.take_append_of_le_length (by rw [List.length_drop]; omega)]

theorem encodeLoop_spec (n : Nat) :
    ∀ (wDone ws done todo : List SymBitVec), done.length = 4 * wDone.length →
      ws.length = n → todo.length = 4 * n → (∀ w ∈ ws, w.size = 32) →
      Sym.Is (MD5.encodeLoop (wDone ++ ws) n wDone.length (done ++ todo))
        (done ++ MD5.unpackWords ws) := by
  induction n with
  | zero =>
    intro wDone ws done todo _ hw ht _
    have e1 : ws = [] := List.length_eq_zero.mp hw
    have e2 : todo = [] := List.length_eq_zero.mp ht
    subst e1; subst e2
    exact Sym.Is.of_pure _
  | succ n ih =>
    intro wDone ws done todo hd hw ht hs
    match ws, hw, hs with
    | [], hw, _ => simp at hw
    | w :: ws1, hw, hs =>
      match todo, ht with
      | [], ht => simp at ht
      | [_], ht => simp at ht; omega
      | [_, _], ht => simp at ht; omega
      | [_, _, _], ht => simp at ht; omega
      | x0 :: x1 :: x2 :: x3 :: todo1, ht =>
        have hws1 : ws1.length = n := by simpa using hw
        have htodo : todo1.length = 4 * n := by simp at ht; omega
        have hsize : w.size = 32 := hs w (by simp)
        have hp := encode_pieces w hsize
        have g0 : (wDone ++ w :: ws1)[wDone.length]? = some w := by
          exact (getElem?_append_add wDone (w :: ws1) 0).trans (by simp)
        have s0 : (done ++ x0 :: x1 :: x2 :: x3 :: todo1).set (4 * wDone.length) (w.extract 0 8)
            = done ++ w.extract 0 8 :: x1 :: x2 :: x3 :: todo1 := by
          rw [← hd]
          exact set_append_add done _ 0 _
        have s1 : (done ++ w.extract 0 8 :: x1 :: x2 :: x3 :: todo1).set (4 * wDone.length + 1)
              ((w.shr 8).extract 0 8)
            = done ++ w.extract 0 8 :: (w.shr 8).extract 0 8 :: x2 :: x3 :: todo1 := by
          rw [← hd]
          exact set_append_add done _ 1 _
        have s2 : (done ++ w.extract 0 8 :: (w.shr 8).extract 0 8 :: x2 :: x3 :: todo1).set
              (4 * wDone.length + 2) ((w.shr 16).extract 0 8)
            = done ++ w.extract 0 8 :: (w.shr 8).extract 0 8 :: (w.shr 16).extract 0 8 :: x3
                :: todo1 := by
          rw [← hd]
          exact set_append_add done _ 2 _
        have s3 : (done ++ w.extract 0 8 :: (w.shr 8).extract 0 8 :: (w.shr 16).extract 0 8 :: x3
                :: todo1).set (4 * wDone.length + 3) ((w.shr 24).extract 0 8)
            = (done ++ MD5.unpackWord w) ++ todo1 := by
          rw [← hd, ← hp]
          rw [set_append_add done
            (w.extract 0 8 :: (w.shr 8).extract 0 8 :: (w.shr 16).extract 0 8 :: x3 :: todo1) 3
            ((w.shr 24).extract 0 8)]
          simp
        have hih := ih (wDone ++ [w]) ws1 (done ++ MD5.unpackWord w) todo1
          (by simp [MD5.unpackWord, hd]; omega) hws1 htodo
          (fun v hvm => hs v (by simp [hvm]))
        unfold MD5.encodeLoop
        refine Sym.Is.of_bind (readAt_is g0) ?_
        refine Sym.Is.of_bind (writeAt_is _ (by simp; omega)) ?_
        rw [s0]
        refine Sym.Is.of_bind (writeAt_is _ (by simp; omega)) ?_
        rw [s1]
        refine Sym.Is.of_bind (writeAt_is _ (by simp; omega)) ?_
        rw [s2]
        refine Sym.Is.of_bind (writeAt_is _ (by simp; omega)) ?_
        rw [s3]
        have e1 : wDone ++ w :: ws1 = (wDone ++ [w]) ++ ws1 := by simp
        have e2 : wDone.length + 1 = (wDone ++ [w]).length := by simp
        have e3 : done ++ MD5.unpackWords (w :: ws1)
            = (done ++ MD5.unpackWord w) ++ MD5.unpackWords ws1 := by
          simp [MD5.unpackWords]
        rw [e1, e2, e3]
        exact hih

theorem unpack_pack (b0 b1 b2 b3 : SymBitVec)
    (h0 : b0.size = 8) (h1 : b1.size = 8) (h2 : b2.size = 8) (_h3 : b3.size = 8) :
    MD5.unpackWord (MD5.packWord b0 b1 b2 b3) = [b0, b1, b2, b3] := by
  have l0 : b0.bits_.length = 8 := h0
  have l1 : b1.bits_.length = 8 := h1
  have l2 : b2.bits_.length = 8 := h2
  have l3 : b3.bits_.length = 8 := _h3
  have d8 : (b0.bits_ ++ (b1.bits_ ++ (b2.bits_ ++ b3.bits_))).drop 8
      = b1.bits_ ++ (b2.bits_ ++ b3.bits_) := List.drop_left' l0
  have d16 : (b0.bits_ ++ (b1.bits_ ++ (b2.bits_ ++ b3.bits_))).drop 16
      = b2.bits_ ++ b3.bits_ := by
    have : (b0.bits_ ++ (b1.bits_ ++ (b2.bits_ ++ b3.bits_)))
        = (b0.bits_ ++ b1.bits_) ++ (b2.bits_ ++ b3.bits_) := by simp
    rw [this]
    exact List.drop_left' (by rw [List.length_append, l0, l1])
  have d24 : (b0.bits_ ++ (b1.bits_ ++ (b2.bits_ ++ b3.bits_))).drop 24 = b3.bits_ := by
    have : (b0.bits_ ++ (b1.bits_ ++ (b2.bits_ ++ b3.bits_)))
        = (b0.bits_ ++ b1.bits_ ++ b2.bits_) ++ b3.bits_ := by simp
    rw [this]
    exact List.drop_left' (by rw [List.length_append, List.length_append, l0, l1, l2])
  simp only [MD5.unpackWord, MD5.packWord, d8, d16, d24]
  rw [List.take_left' l0, List.take_left' l1, List.take_left' l2,
    List.take_of_length_le (by omega)]

theorem pack_unpack_bits (l : List Bit) (h : l.length = 32) :
    l.take 8 ++ ((l.drop 8).take 8 ++ ((l.drop 16).take 8 ++ (l.drop 24).take 8)) = l := by
  have e1 := List.take_append_drop 8 l
  have e2 := List.take_append_drop 8 (l.drop 8)
  have e3 := List.take_append_drop 8 (l.drop 16)
  have e4 : (l.drop 24).take 8 = l.drop 24 :=
    List.take_of_length_le (by rw [List.length_drop]; omega)
  rw [List.drop_drop] at e2 e3
  rw [e4]
  have f3 : List.take 8 (List.drop 16 l) ++ List.drop 24 l = List.drop 16 l := by
    simpa using e3
  have f2 : List.take 8 (List.drop 8 l) ++ List.drop 16 l = List.drop 8 l := by
    simpa using e2
  rw [f3, f2, e1]

theorem packWords_unpackWords (ws : List SymBitVec) (h : ∀ w ∈ ws, w.size = 32) :
    MD5.packWords (MD5.unpackWords ws) = ws := by
  induction ws with
  | nil => rfl
  | cons w rest ih =>
    have hw : w.bits_.length = 32 := h w (List.mem_cons_self _ _)
    have e : MD5.packWord { bits_ := w.bits_.take 8 } { bits_ := (w.bits_.drop 8).take 8 }
        { bits_ := (w.bits_.drop 16).take 8 } { bits_ := (w.bits_.drop 24).take 8 } = w := by
      simp only [MD5.packWord]
      rw [pack_unpack_bits w.bits_ hw]
    show MD5.packWords ({ bits_ := w.bits_.take 8 } :: { bits_ := (w.bits_.drop 8).take 8 }
      :: { bits_ := (w.bits_.drop 16).take 8 } :: { bits_ := (w.bits_.drop 24).take 8 }
      :: MD5.unpackWords rest) = w :: rest
    simp only [MD5.packWords]
    rw [e, ih (fun v hv => h v (List.mem_cons_of_mem _ hv))]

theorem unpackWords_packWords (k : Nat) : ∀ (bytes : List SymBitVec), bytes.length = 4 * k →
    (∀ v ∈ bytes, v.size = 8) → MD5.unpackWords (MD5.packWords bytes) = bytes := by
  induction k with
  | zero =>
    intro bytes hl _
    have : bytes = [] := List.length_eq_zero.mp hl
    subst this; rfl
  | succ k ih =>
    intro bytes hl hs
    match bytes, hl, hs with
    | [], hl, _ => simp at hl
    | [_], hl, _ => simp at hl; omega
    | [_, _], hl, _ => simp at hl; omega
    | [_, _, _], hl, _ => simp at hl; omega
    | b0 :: b1 :: b2 :: b3 :: rest, hl, hs =>
      have hrest : rest.length = 4 * k := by simp at hl; omega
      simp only [MD5.packWords, MD5.unpackWords]
      rw [unpack_pack b0 b1 b2 b3 (hs b0 (by simp)) (hs b1 (by simp)) (hs b2 (by simp))
        (hs b3 (by simp)), ih rest hrest (fun v hv => hs v (by simp [hv]))]
      rfl

theorem packWords_props (k : Nat) : ∀ (bytes : List SymBitVec), bytes.length = 4 * k →
    (∀ v ∈ bytes, v.size = 8) →
    (MD5.packWords bytes).length = k ∧ (∀ w ∈ MD5.packWords bytes, w.size = 32) := by
  induction k with
  | zero =>
    intro bytes hl _
    have : bytes = [] := List.length_eq_zero.mp hl
    subst this
    exact ⟨rfl, fun w hw => by cases hw⟩
  | succ k ih =>
    intro bytes hl hs
    match bytes, hl, hs with
    | [], hl, _ => simp at hl
    | [_], hl, _ => simp at hl; omega
    | [_, _], hl, _ => simp at hl; omega
    | [_, _, _], hl, _ => simp at hl; omega
    | b0 :: b1 :: b2 :: b3 :: rest, hl, hs =>
      have hrest : rest.length = 4 * k := by simp at hl; omega
      obtain ⟨i1, i2⟩ := ih rest hrest (fun v hv => hs v (by simp [hv]))
      have l0 : b0.bits_.length = 8 := hs b0 (by simp)
      have l1 : b1.bits_.length = 8 := hs b1 (by simp)
      have l2 : b2.bits_.length = 8 := hs b2 (by simp)
      have l3 : b3.bits_.length = 8 := hs b3 (by simp)
      refine ⟨by simp [MD5.packWords, i1], ?_⟩
      intro w hw
      simp only [MD5.packWords, List.mem_cons] at hw
      rcases hw with h | h
      · rw [h]
        simp only [MD5.packWord, SymBitVec.size, List.length_append, l0, l1, l2, l3]
      · exact i2 w h

theorem unpackWords_props (ws : List SymBitVec) (hs : ∀ w ∈ ws, w.size = 32)
    (hc : ∀ w ∈ ws, w.Canonical) :
    (MD5.unpackWords ws).length = 4 * ws.length
      ∧ (∀ v ∈ MD5.unpackWords ws, v.size = 8 ∧ v.Canonical) := by
  induction ws with
  | nil => exact ⟨rfl, fun v hv => by cases hv⟩
  | cons w rest ih =>
    obtain ⟨i1, i2⟩ := ih (fun v hv => hs v (List.mem_cons_of_mem _ hv))
      (fun v hv => hc v (List.mem_cons_of_mem _ hv))
    have hw : w.bits_.length = 32 := hs w (List.mem_cons_self _ _)
    have hcw := hc w (List.mem_cons_self _ _)
    refine ⟨?_, ?_⟩
    · simp only [MD5.unpackWords, MD5.unpackWord, List.length_append, List.length_cons,
        List.length_nil, i1]
      omega
    · intro v hv
      simp only [MD5.unpackWords, MD5.unpackWord, List.cons_append, List.nil_append,
        List.mem_cons] at hv
      rcases hv with h | h | h | h | h
      · rw [h]
        exact ⟨by simp [SymBitVec.size, hw], fun b hb => hcw b (List.mem_of_mem_take hb)⟩
      · rw [h]
        exact ⟨by simp [SymBitVec.size, hw],
          fun b hb => hcw b (List.mem_of_mem_drop (List.mem_of_mem_take hb))⟩
      · rw [h]
        exact ⟨by simp [SymBitVec.size, hw],
          fun b hb => hcw b (List.mem_of_mem_drop (List.mem_of_mem_take hb))⟩
      · rw [h]
        exact ⟨by simp [SymBitVec.size, hw],
          fun b hb => hcw b (List.mem_of_mem_drop (List.mem_of_mem_take hb))⟩
      · exact i2 v h

theorem bitsVal_append (as bs : List Bit) :
    SymBitVec.bitsVal (as ++ bs)
      = SymBitVec.bitsVal as + 2 ^ as.length * SymBitVec.bitsVal bs := by
  induction as with
  | nil => simp [SymBitVec.bitsVal]
  | cons a as ih =>
    show (if a.val then 1 else 0) + 2 * SymBitVec.bitsVal (as ++ bs)
      = (if a.val then 1 else 0) + 2 * SymBitVec.bitsVal as
        + 2 ^ (as.length + 1) * SymBitVec.bitsVal bs
    rw [ih, pow_succ]
    ring

theorem packWord_intVal (b0 b1 b2 b3 : SymBitVec)
    (h0 : b0.size = 8) (h1 : b1.size = 8) (h2 : b2.size = 8) (h3 : b3.size = 8) :
    (MD5.packWord b0 b1 b2 b3).intVal
      = b0.intVal + 2 ^ 8 * b1.intVal + 2 ^ 16 * b2.intVal + 2 ^ 24 * b3.intVal := by
  have l0 : b0.bits_.length = 8 := h0
  have l1 : b1.bits_.length = 8 := h1
  have l2 : b2.bits_.length = 8 := h2
  have l3 : b3.bits_.length = 8 := h3
  have v0 := bitsVal_lt b0.bits_
  have v1 := bitsVal_lt b1.bits_
  have v2 := bitsVal_lt b2.bits_
  have v3 := bitsVal_lt b3.bits_
  rw [l0] at v0
  rw [l1] at v1
  rw [l2] at v2
  rw [l3] at v3
  simp only [SymBitVec.intVal, MD5.packWord, bitsVal_append, l0, l1, l2]
  norm_num at v0 v1 v2 v3 ⊢
  omega

theorem littleEndian_packWords (k : Nat) : ∀ (bytes : List SymBitVec), bytes.length = 4 * k →
    (∀ v ∈ bytes, v.size = 8) → MD5.LittleEndian (MD5.packWords bytes) bytes k := by
  induction k with
  | zero => intro bytes _ _ i hi; omega
  | succ k ih =>
    intro bytes hl hs
    match bytes, hl, hs with
    | [], hl, _ => simp at hl
    | [_], hl, _ => simp at hl; omega
    | [_, _], hl, _ => simp at hl; omega
    | [_, _, _], hl, _ => simp at hl; omega
    | b0 :: b1 :: b2 :: b3 :: rest, hl, hs =>
      have hrest : rest.length = 4 * k := by simp at hl; omega
      intro i hi
      cases i with
      | zero =>
        exact ⟨MD5.packWord b0 b1 b2 b3, b0, b1, b2, b3, by simp [MD5.packWords], by simp,
          by simp, by simp, by simp,
          packWord_intVal b0 b1 b2 b3 (hs b0 (by simp)) (hs b1 (by simp)) (hs b2 (by simp))
            (hs b3 (by simp))⟩
      | succ j =>
        obtain ⟨w, c0, c1, c2, c3, g, g0, g1, g2, g3, gv⟩ :=
          ih rest hrest (fun v hv => hs v (by simp [hv])) j (by omega)
        refine ⟨w, c0, c1, c2, c3, ?_, ?_, ?_, ?_, ?_, gv⟩
        · simpa [MD5.packWords] using g
        · have e : 4 * (j + 1) = 4 * j + 1 + 1 + 1 + 1 := by omega
          rw [e]; simpa using g0
        · have e : 4 * (j + 1) + 1 = 4 * j + 1 + 1 + 1 + 1 + 1 := by omega
          rw [e]; simpa using g1
        · have e : 4 * (j + 1) + 2 = 4 * j + 2 + 1 + 1 + 1 + 1 := by omega
          rw [e]; simpa using g2
        · have e : 4 * (j + 1) + 3 = 4 * j + 3 + 1 + 1 + 1 + 1 := by omega
          rw [e]; simpa using g3

/-- C24. With output arrays of `k` words and `4k` bytes, `k < 2^30`, and any
ledger: for every array of `4k` vectors of 8 bits, `decode` returns words from which
`encode` returns the array itself; for every array of `k` vectors of 32 bits,
`encode` returns bytes from which `decode` returns the array itself; in both
cases no gate is emitted and word `i` has the value
`byte[4i] + 2^8 byte[4i+1] + 2^16 byte[4i+2] + 2^24 byte[4i+3]`. The vectors
are those whose constant bits carry the reserved index 0, which covers the
constant vectors. The bound on `k` keeps the length `4k` below `2^32`, where
the `unsigned int` counters of `decode` count as the natural numbers of the
embedding do. -/
theorem C24_encode_decode_inverse (k : Nat) (bytes words outw outb : List SymBitVec)
    (L : Ledger) (_hk : k < 2 ^ 30)
    (hbl : bytes.length = 4 * k) (hbs : ∀ v ∈ bytes, v.size = 8)
    (hbc : ∀ v ∈ bytes, v.Canonical)
    (hwl : words.length = k) (hws : ∀ w ∈ words, w.size = 32)
    (hwc : ∀ w ∈ words, w.Canonical)
    (how : outw.length = k) (hob : outb.length = 4 * k) :
    (∃ ws, MD5.decode outw bytes (4 * k) L = Except.ok (ws, L)
        ∧ MD5.encode outb ws (4 * k) L = Except.ok (bytes, L)
        ∧ MD5.LittleEndian ws bytes k)
      ∧ (∃ bs, MD5.encode outb words (4 * k) L = Except.ok (bs, L)
        ∧ MD5.decode outw bs (4 * k) L = Except.ok (words, L)
        ∧ MD5.LittleEndian words bs k) := by
  have hdiv : 4 * k / 4 = k := by omega
  have hassert : ∀ L1 : Ledger, assert (4 * k % 4 == 0) L1 = Except.ok ((), L1) := by
    intro L1
    have : (4 * k % 4 == 0) = true := by simp
    simp [assert, this]
  have hdec : ∀ (bs : List SymBitVec), bs.length = 4 * k →
      (∀ v ∈ bs, v.size = 8 ∧ v.Canonical) →
      MD5.decode outw bs (4 * k) L = Except.ok (MD5.packWords bs, L) := by
    intro bs hl hv
    have h := decodeLoop_spec k [] bs [] outw rfl hl how hv L
    simp only [List.nil_append, List.length_nil] at h
    unfold MD5.decode
    rw [Sym.bind_ok _ _ L L () (hassert L), hdiv]
    exact h
  have henc : ∀ (ws : List SymBitVec), ws.length = k → (∀ w ∈ ws, w.size = 32) →
      MD5.encode outb ws (4 * k) L = Except.ok (MD5.unpackWords ws, L) := by
    intro ws hl hs
    have h := encodeLoop_spec k [] ws [] outb rfl hl hob hs L
    simp only [List.nil_append, List.length_nil] at h
    unfold MD5.encode
    rw [Sym.bind_ok _ _ L L () (hassert L), hdiv]
    exact h
  obtain ⟨p1, p2⟩ := packWords_props k bytes hbl hbs
  obtain ⟨u1, u2⟩ := unpackWords_props words hws hwc
  rw [hwl] at u1
  refine ⟨⟨MD5.packWords bytes, hdec bytes hbl (fun v hv => ⟨hbs v hv, hbc v hv⟩), ?_,
    littleEndian_packWords k bytes hbl hbs⟩,
    ⟨MD5.unpackWords words, henc words hwl hws, ?_, ?_⟩⟩
  · rw [henc (MD5.packWords bytes) p1 p2, unpackWords_packWords k bytes hbl hbs]
  · rw [hdec (MD5.unpackWords words) u1 u2, packWords_unpackWords words hws]
  · have := littleEndian_packWords k (MD5.unpackWords words) u1 (fun v hv => (u2 v hv).1)
    rw [packWords_unpackWords words hws] at this
    exact this

/-- Witness of C24: the bytes `a`, `b`, `c`, `d` and the word `0x12345678`. -/
theorem C24_encode_decode_inverse_witness :
    (∃ ws, MD5.decode [SymBitVec.empty]
          [SymBitVec.ofUInt64 0x61 8, SymBitVec.ofUInt64 0x62 8, SymBitVec.ofUInt64 0x63 8,
            SymBitVec.ofUInt64 0x64 8] (4 * 1) Ledger.fresh = Except.ok (ws, Ledger.fresh)
        ∧ MD5.encode (List.replicate 4 SymBitVec.empty) ws (4 * 1) Ledger.fresh
            = Except.ok ([SymBitVec.ofUInt64 0x61 8, SymBitVec.ofUInt64 0x62 8,
                SymBitVec.ofUInt64 0x63 8, SymBitVec.ofUInt64 0x64 8], Ledger.fresh)
        ∧ MD5.LittleEndian ws [SymBitVec.ofUInt64 0x61 8, SymBitVec.ofUInt64 0x62 8,
            SymBitVec.ofUInt64 0x63 8, SymBitVec.ofUInt64 0x64 8] 1)
      ∧ (∃ bs, MD5.encode (List.replicate 4 SymBitVec.empty) [SymBitVec.ofUInt64 0x12345678 32]
            (4 * 1) Ledger.fresh = Except.ok (bs, Ledger.fresh)
        ∧ MD5.decode [SymBitVec.empty] bs (4 * 1) Ledger.fresh
            = Except.ok ([SymBitVec.ofUInt64 0x12345678 32], Ledger.fresh)
        ∧ MD5.LittleEndian [SymBitVec.ofUInt64 0x12345678 32] bs 1) :=
  C24_encode_decode_inverse 1
    [SymBitVec.ofUInt64 0x61 8, SymBitVec.ofUInt64 0x62 8, SymBitVec.ofUInt64 0x63 8,
      SymBitVec.ofUInt64 0x64 8]
    [SymBitVec.ofUInt64 0x12345678 32] [SymBitVec.empty] (List.replicate 4 SymBitVec.empty)
    Ledger.fresh (by decide) rfl (by decide) (by decide) rfl (by decide) (by decide) rfl rfl

end Preimage
